import Mathlib

/-!
# boost.http header algorithms

A shallow embedding of `include/boost/http/algorithm/header.hpp`:

* `header_value_any_of`, the comma separated list matcher, with iterators
  modelled as indices into the header value;
* `header_to_ptime` and its three recognisers `rfc1123`, `rfc1036`, `asctime`,
  with the regular expressions of the source written as syntax trees and run
  by a backtracking matcher.

A header value is a `List Char`.
-/

namespace BoostHttp

/-! ## Part 1: `header_value_any_of` -/

/-- The classification `std::isspace` in the "C" locale: space, `\t`, `\n`,
`\v`, `\f`, `\r`.  No character outside ASCII is whitespace. -/
def isspace (c : Char) : Bool :=
  c == ' ' || c == '\t' || c == '\n' || c == '\x0b' || c == '\x0c' || c == '\r'

/-- The loop of `std::find_if`: `n` is the distance still to scan, `first` the
current iterator (an index into `s`).  The result is the first position in the
range whose character satisfies `q`, or the end of the range. -/
def find_if_loop (s : List Char) (q : Char → Bool) : Nat → Nat → Nat
  | 0, first => first
  | n + 1, first =>
    match s[first]? with
    | some c => if q c then first else find_if_loop s q n (first + 1)
    | none => first

/-- The call `std::find(first, last, v)` on index iterators. -/
def find (s : List Char) (first last : Nat) (v : Char) : Nat :=
  find_if_loop s (fun c => c == v) (last - first) first

/-- The call `std::find_if_not(first, last, q)` on index iterators. -/
def find_if_not (s : List Char) (q : Char → Bool) (first last : Nat) : Nat :=
  find_if_loop s (fun c => !q c) (last - first) first

/-- The loop of `std::find_if` over reverse iterators: `b` is the base of the
current reverse iterator, which dereferences to the character at `b - 1`.  The
result is the base of the reverse iterator found. -/
def rfind_if_loop (s : List Char) (q : Char → Bool) : Nat → Nat → Nat
  | 0, b => b
  | n + 1, b =>
    match s[b - 1]? with
    | some c => if q c then b else rfind_if_loop s q n (b - 1)
    | none => b

/-- The expression
`std::find_if_not(reverse_iterator(hi), reverse_iterator(lo), q).base()`. -/
def rfind_if_not_base (s : List Char) (q : Char → Bool) (hi lo : Nat) : Nat :=
  rfind_if_loop s (fun c => !q c) (hi - lo) hi

/-- The view `string_ref(&*first, len)`: the `len` characters of `s` that start
at `first`. -/
def string_ref (s : List Char) (first len : Nat) : List Char :=
  (s.drop first).take len

/-- Lines 273 to 285 of the source: the argument on which the predicate is
invoked in the loop iteration that scans `[comma, next_comma)`, or `none` when
the iteration does not invoke it. -/
def trimmed_item (s : List Char) (comma next_comma : Nat) : Option (List Char) :=
  let value_begin := find_if_not s isspace comma next_comma
  if value_begin ≠ next_comma then
    let value_end := rfind_if_not_base s isspace next_comma value_begin
    if value_begin ≠ value_end then
      some (string_ref s value_begin (value_end - value_begin))
    else none
  else none

/-- What one iteration of the do-while loop did: the scan position `comma` on
entry, the position `next_comma` it found, and the argument of the predicate
call when there was one. -/
structure Iteration where
  comma : Nat
  next_comma : Nat
  call : Option (List Char)
  deriving DecidableEq, Repr

/-- The outcome of a run of `header_value_any_of`: the value returned and the
iterations executed, in order. -/
structure Run where
  result : Bool
  trace : List Iteration
  deriving DecidableEq, Repr

/-- The predicate calls of a run, in order. -/
def Run.calls (r : Run) : List (List Char) :=
  r.trace.filterMap Iteration.call

/-- The number of loop iterations of a run. -/
def Run.iterations (r : Run) : Nat :=
  r.trace.length

/-- Lines 284 to 285 of the source: whether the iteration invokes the predicate
and the predicate returns true. -/
def accepts (p : List Char → Bool) (arg : Option (List Char)) : Bool :=
  match arg with
  | some a => p a
  | none => false

/-- Lines 289 to 294 of the source: the scan position after an iteration that
stopped at `next_comma`. -/
def advance (s : List Char) (next_comma : Nat) : Nat :=
  if next_comma ≠ s.length then next_comma + 1 else next_comma

/-- The do-while loop of `header_value_any_of`, entered with scan position
`comma`.  The first argument bounds the number of iterations; the result is
`none` when the bound is reached before the loop has left. -/
def header_value_any_of_loop (s : List Char) (p : List Char → Bool) :
    Nat → Nat → Option Run
  | 0, _ => none
  | fuel + 1, comma =>
    let next_comma := find s comma s.length ','
    let arg := trimmed_item s comma next_comma
    let it : Iteration := ⟨comma, next_comma, arg⟩
    if accepts p arg then
      some ⟨true, [it]⟩
    else
      let comma1 := advance s next_comma
      if comma1 ≠ s.length then
        (header_value_any_of_loop s p fuel comma1).map
          (fun r => ⟨r.result, it :: r.trace⟩)
      else some ⟨false, [it]⟩

/-- The function `header_value_any_of(header_value, p)`, run with a bound of
`header_value.length + 1` iterations. -/
def header_value_any_of (s : List Char) (p : List Char → Bool) : Option Run :=
  header_value_any_of_loop s p (s.length + 1) 0

/-! ### The words of the specification for the list matcher -/

/-- Whitespace trimming as the specification words it: leading and trailing
`isspace` characters removed. -/
def trim (l : List Char) : List Char :=
  (l.dropWhile isspace).rdropWhile isspace

/-- The non-empty trimmed comma separated items of a header value, left to
right. -/
def items (s : List Char) : List (List Char) :=
  ((s.splitOn ',').map trim).filter (fun x => !x.isEmpty)

/-- The initial segment of `l` up to and including the first element on which
`p` holds; the whole of `l` when there is none. -/
def upToFirst (p : List Char → Bool) : List (List Char) → List (List Char)
  | [] => []
  | x :: xs => if p x then [x] else x :: upToFirst p xs

/-- The positions of the commas of a header value whose first character sits at
position `o`. -/
def commaPositions : Nat → List Char → List Nat
  | _, [] => []
  | o, c :: cs => if c = ',' then o :: commaPositions (o + 1) cs else commaPositions (o + 1) cs

/-- The pieces of a header value put together again, a comma between each two
neighbours. -/
def joinComma : List (List Char) → List Char
  | [] => []
  | [x] => x
  | x :: y :: ys => x ++ ',' :: joinComma (y :: ys)

/-- The predicate call the specification asks for a piece: its trimmed form,
unless that is empty. -/
def callOf (pc : List Char) : Option (List Char) :=
  if trim pc = [] then none else some (trim pc)

/-- The run the specification describes, on the comma separated pieces of the
part of the header value that starts at position `o`: one iteration a piece,
until the predicate accepts; an empty piece after the last comma gets no
iteration. -/
def pieceRun (p : List Char → Bool) : Nat → List (List Char) → Run
  | _, [] => ⟨false, []⟩
  | o, [pc] => ⟨accepts p (callOf pc), [⟨o, o + pc.length, callOf pc⟩]⟩
  | o, pc :: y :: ys =>
    if accepts p (callOf pc) then ⟨true, [⟨o, o + pc.length, callOf pc⟩]⟩
    else if y = [] ∧ ys = [] then ⟨false, [⟨o, o + pc.length, callOf pc⟩]⟩
    else
      ⟨(pieceRun p (o + pc.length + 1) (y :: ys)).result,
        ⟨o, o + pc.length, callOf pc⟩ :: (pieceRun p (o + pc.length + 1) (y :: ys)).trace⟩

/-! ## Part 2: `header_to_ptime` -/

/-! ### The regular expressions

The three patterns of the source use literal characters, `\d`, concatenation,
alternation, bounded repetition `{n}`, non-capturing groups and numbered
capturing groups.  They are written as syntax trees and run by a backtracking
matcher that lists every way a pattern can match at the front of the input, in
the priority order of the ECMAScript grammar that `std::basic_regex` uses. -/

/-- The character class `\d` in the "C" locale. -/
def isdigit (c : Char) : Bool :=
  decide ('0' ≤ c) && decide (c ≤ '9')

/-- Syntax trees for the fragment of ECMAScript regular expressions that the
source uses.  A non-capturing group `(?:r)` is `r` itself. -/
inductive Regex where
  | eps : Regex
  | chr (c : Char) : Regex
  | digit : Regex
  | seq (r₁ r₂ : Regex) : Regex
  | alt (r₁ r₂ : Regex) : Regex
  | group (n : Nat) (r : Regex) : Regex

/-- The sub-matches of a match, by group number; a sub-match is the run of
characters it spans. -/
abbrev Captures := Nat → List Char

/-- Every way `r` matches at the front of `s`, best first: the characters
matched, the characters left, and the sub-matches recorded so far. -/
def Regex.run : Regex → List Char → Captures → List (List Char × List Char × Captures)
  | .eps, s, caps => [([], s, caps)]
  | .chr c, s, caps =>
    match s with
    | x :: xs => if x = c then [([x], xs, caps)] else []
    | [] => []
  | .digit, s, caps =>
    match s with
    | x :: xs => if isdigit x then [([x], xs, caps)] else []
    | [] => []
  | .seq r₁ r₂, s, caps =>
    (r₁.run s caps).flatMap fun a =>
      (r₂.run a.2.1 a.2.2).map fun b => (a.1 ++ b.1, b.2.1, b.2.2)
  | .alt r₁ r₂, s, caps => r₁.run s caps ++ r₂.run s caps
  | .group n r, s, caps =>
    (r.run s caps).map fun a => (a.1, a.2.1, Function.update a.2.2 n a.1)

/-- The pattern of a literal text. -/
def Regex.lit : List Char → Regex
  | [] => .eps
  | c :: cs => .seq (.chr c) (Regex.lit cs)

/-- The pattern `a|b|...` of literal alternatives. -/
def Regex.oneOf : List Char → List (List Char) → Regex
  | a, [] => Regex.lit a
  | a, b :: bs => .alt (Regex.lit a) (Regex.oneOf b bs)

/-- The pattern `r{n}`. -/
def Regex.rep : Nat → Regex → Regex
  | 0, _ => .eps
  | n + 1, r => .seq r (Regex.rep n r)

/-- The concatenation of a list of patterns. -/
def Regex.cat : List Regex → Regex
  | [] => .eps
  | r :: rs => .seq r (Regex.cat rs)

/-- The length of the shortest text a pattern matches. -/
def Regex.minLen : Regex → Nat
  | .eps => 0
  | .chr _ => 1
  | .digit => 1
  | .seq r₁ r₂ => r₁.minLen + r₂.minLen
  | .alt r₁ r₂ => min r₁.minLen r₂.minLen
  | .group _ r => r.minLen

/-- The length of the longest text a pattern matches. -/
def Regex.maxLen : Regex → Nat
  | .eps => 0
  | .chr _ => 1
  | .digit => 1
  | .seq r₁ r₂ => r₁.maxLen + r₂.maxLen
  | .alt r₁ r₂ => max r₁.maxLen r₂.maxLen
  | .group _ r => r.maxLen

/-- The sub-matches numbered 1 to 6 of a match, the others empty. -/
def capturesOf (g1 g2 g3 g4 g5 g6 : List Char) : Captures :=
  Function.update (Function.update (Function.update (Function.update (Function.update
    (Function.update (fun _ => []) 1 g1) 2 g2) 3 g3) 4 g4) 5 g5) 6 g6

/-- The call `std::regex_match(value.begin(), value.end(), matches, regex)`:
the best match of `regex` that spans the whole of `value`, as its sub-matches
(number 0 is the whole match), or `none` when there is no such match. -/
def regex_match (regex : Regex) (value : List Char) : Option Captures :=
  ((regex.run value (fun _ => [])).find? (fun a => a.2.1.isEmpty)).map
    fun a => Function.update a.2.2 0 a.1

/-- The alternatives `Mon|Tue|Wed|Thu|Fri|Sat|Sun`. -/
def wkday : Regex :=
  Regex.oneOf ['M', 'o', 'n'] [['T', 'u', 'e'], ['W', 'e', 'd'], ['T', 'h', 'u'],
    ['F', 'r', 'i'], ['S', 'a', 't'], ['S', 'u', 'n']]

/-- The alternatives `Monday|Tuesday|Wednesday|Thursday|Friday|Saturday|Sunday`. -/
def weekday : Regex :=
  Regex.oneOf ['M', 'o', 'n', 'd', 'a', 'y'] [['T', 'u', 'e', 's', 'd', 'a', 'y'],
    ['W', 'e', 'd', 'n', 'e', 's', 'd', 'a', 'y'], ['T', 'h', 'u', 'r', 's', 'd', 'a', 'y'],
    ['F', 'r', 'i', 'd', 'a', 'y'], ['S', 'a', 't', 'u', 'r', 'd', 'a', 'y'],
    ['S', 'u', 'n', 'd', 'a', 'y']]

/-- The alternatives `Jan|Feb|Mar|Apr|May|Jun|Jul|Aug|Sep|Oct|Nov|Dec`. -/
def month : Regex :=
  Regex.oneOf ['J', 'a', 'n'] [['F', 'e', 'b'], ['M', 'a', 'r'], ['A', 'p', 'r'],
    ['M', 'a', 'y'], ['J', 'u', 'n'], ['J', 'u', 'l'], ['A', 'u', 'g'], ['S', 'e', 'p'],
    ['O', 'c', 't'], ['N', 'o', 'v'], ['D', 'e', 'c']]

namespace detail

/-- The pattern of `rfc1123`, lines 110 to 117. -/
def rfc1123_regex : Regex :=
  Regex.cat [wkday, Regex.lit [',', ' '],
    .group 1 (Regex.rep 2 .digit), Regex.lit [' '],
    .group 2 month, Regex.lit [' '],
    .group 3 (Regex.rep 4 .digit), Regex.lit [' '],
    .group 4 (Regex.rep 2 .digit), Regex.lit [':'],
    .group 5 (Regex.rep 2 .digit), Regex.lit [':'],
    .group 6 (Regex.rep 2 .digit), Regex.lit [' '],
    Regex.lit ['G', 'M', 'T']]

/-- The pattern of `rfc1036`, lines 156 to 163. -/
def rfc1036_regex : Regex :=
  Regex.cat [weekday, Regex.lit [',', ' '],
    .group 1 (Regex.rep 2 .digit), Regex.lit ['-'],
    .group 2 month, Regex.lit ['-'],
    .group 3 (Regex.rep 2 .digit), Regex.lit [' '],
    .group 4 (Regex.rep 2 .digit), Regex.lit [':'],
    .group 5 (Regex.rep 2 .digit), Regex.lit [':'],
    .group 6 (Regex.rep 2 .digit), Regex.lit [' '],
    Regex.lit ['G', 'M', 'T']]

/-- The pattern of `asctime`, lines 203 to 209. -/
def asctime_regex : Regex :=
  Regex.cat [wkday, Regex.lit [' '],
    .group 1 month, Regex.lit [' '],
    .group 2 (.seq (.alt .digit (.chr ' ')) .digit), Regex.lit [' '],
    .group 3 (Regex.rep 2 .digit), Regex.lit [':'],
    .group 4 (Regex.rep 2 .digit), Regex.lit [':'],
    .group 5 (Regex.rep 2 .digit), Regex.lit [' '],
    .group 6 (Regex.rep 4 .digit)]

end detail

/-! ### The integer types

A `Target` type of the decimal decoder is given by its conversion from the
mathematical integers.  `year_type`, `month_type` and `day_type` are
`unsigned short`; `hour_type`, `min_type` and `sec_type` are the 32 bit signed
integer of `boost::posix_time::time_duration` (64 bit in later releases of
Boost; every number of two digits fits both). -/

/-- Conversion to `unsigned short`. -/
def to_unsigned_short (x : Int) : Int :=
  x % 65536

/-- Conversion to a 32 bit signed integer. -/
def to_int32 (x : Int) : Int :=
  (x + 2147483648) % 4294967296 - 2147483648

/-- An integer type that holds every value from 0 to 65535 unchanged, as both
integer types above do. -/
def KeepsSmall (target : Int → Int) : Prop :=
  ∀ x : Int, 0 ≤ x → x < 65536 → target x = x

/-! ### The calendar types

`boost::gregorian::date` and `boost::posix_time::ptime` belong to
Boost.Date_Time, which the header includes. -/

/-- Modelled from the spec: `gregorian_calendar::is_leap_year` of
Boost.Date_Time, whose source is outside this repository. -/
def is_leap_year (y : Nat) : Bool :=
  y % 4 == 0 && (y % 100 != 0 || y % 400 == 0)

/-- Modelled from the spec: `gregorian_calendar::end_of_month_day` of
Boost.Date_Time, the length of month `m` in year `y`. -/
def end_of_month_day (y m : Nat) : Nat :=
  if m = 2 then (if is_leap_year y then 29 else 28)
  else if m = 4 ∨ m = 6 ∨ m = 9 ∨ m = 11 then 30
  else 31

/-- Modelled from the spec: a value of `boost::gregorian::date`, a day of the
Gregorian calendar. -/
structure date where
  year : Nat
  month : Nat
  day : Nat
  deriving DecidableEq, Repr

/-- Modelled from the spec: the constructor `date(year, month, day)` of
Boost.Date_Time.  It throws an exception derived from `std::out_of_range`,
here `none`, when the year is outside 1400..9999 (1400..10000 in releases
before 1.67, which is the same for every number of four digits), the month is
outside 1..12, the day is outside 1..31, or the day is past the end of the
month. -/
def date.make (y m d : Int) : Option date :=
  if 1400 ≤ y ∧ y ≤ 9999 ∧ 1 ≤ m ∧ m ≤ 12 ∧ 1 ≤ d ∧ d ≤ 31
      ∧ d.toNat ≤ end_of_month_day y.toNat m.toNat then
    some ⟨y.toNat, m.toNat, d.toNat⟩
  else none

/-- Modelled from the spec: the day after `d`. -/
def date.next (d : date) : date :=
  if d.day < end_of_month_day d.year d.month then ⟨d.year, d.month, d.day + 1⟩
  else if d.month < 12 then ⟨d.year, d.month + 1, 1⟩
  else ⟨d.year + 1, 1, 1⟩

/-- Modelled from the spec: the day before `d`. -/
def date.prev (d : date) : date :=
  if 1 < d.day then ⟨d.year, d.month, d.day - 1⟩
  else if 1 < d.month then ⟨d.year, d.month - 1, end_of_month_day d.year (d.month - 1)⟩
  else ⟨d.year - 1, 12, 31⟩

/-- Modelled from the spec: `d + date_duration(n)`. -/
def date.addDays (d : date) (n : Int) : date :=
  if 0 ≤ n then Nat.iterate date.next n.toNat d else Nat.iterate date.prev (-n).toNat d

/-- Modelled from the spec: a value of `boost::posix_time::time_duration`, a
signed count of seconds (the fractional part is never used here). -/
structure time_duration where
  ticks : Int
  deriving DecidableEq, Repr

/-- Modelled from the spec: the constructor `time_duration(hours, minutes,
seconds)` of Boost.Date_Time.  It adds the three fields up and checks no range;
when one of them is negative it takes the absolute values and negates the
sum. -/
def time_duration.make (hour min sec : Int) : time_duration :=
  if hour < 0 ∨ min < 0 ∨ sec < 0 then
    ⟨-((hour.natAbs : Int) * 3600 + (min.natAbs : Int) * 60 + (sec.natAbs : Int))⟩
  else ⟨hour * 3600 + min * 60 + sec⟩

/-- Modelled from the spec: the accessor `time_duration::hours()`. -/
def time_duration.hours (td : time_duration) : Int :=
  td.ticks / 3600

/-- Modelled from the spec: the accessor `time_duration::minutes()`. -/
def time_duration.minutes (td : time_duration) : Int :=
  td.ticks / 60 % 60

/-- Modelled from the spec: the accessor `time_duration::seconds()`. -/
def time_duration.seconds (td : time_duration) : Int :=
  td.ticks % 60

/-- Modelled from the spec: a value of `boost::posix_time::ptime`, the
Calendar Timestamp.  It is the special value `not_a_date_time` or a day
together with a time of day of at least 0 and less than 24 hours. -/
inductive ptime where
  | not_a_date_time : ptime
  | time (day : date) (time_of_day : time_duration) : ptime
  deriving DecidableEq, Repr

/-- Modelled from the spec: the constructor `ptime(date, time_duration)` of
Boost.Date_Time, the instant `td` after midnight of `d`.  A duration outside
the day is carried into the date, so the time of day stored is always within
the day. -/
def ptime.make (d : date) (td : time_duration) : ptime :=
  .time (d.addDays (td.ticks / 86400)) ⟨td.ticks % 86400⟩

/-- Modelled from the spec: the query `ptime::is_not_a_date_time()`. -/
def ptime.is_not_a_date_time : ptime → Bool
  | .not_a_date_time => true
  | .time _ _ => false

/-! ### The decoders and the recognisers -/

namespace detail

/-- The loop of `from_decimal_string`, lines 52 to 55, over the characters in
the order the reverse iterator visits them. -/
def from_decimal_string_loop (target : Int → Int) : List Char → Int → Int → Int
  | [], ret, _ => ret
  | c :: cs, ret, digit =>
    from_decimal_string_loop target cs
      (target (ret + ((c.toNat : Int) - ('0'.toNat : Int)) * digit)) (target (digit * 10))

/-- The function `from_decimal_string<Target>(begin, end)` on the run of
characters `[begin, end)`. -/
def from_decimal_string (target : Int → Int) (run : List Char) : Int :=
  from_decimal_string_loop target run.reverse 0 1

/-- The function `from_decimal_submatch<Target>(match)`. -/
def from_decimal_submatch (target : Int → Int) (m : List Char) : Int :=
  from_decimal_string target m

/-- The function `from_submatch_to_month<Target>(m)`.  The result is `none`
when the `default` branch with its `assert(false)` is reached, and when the
decoder would read past the end of the sub-match. -/
def from_submatch_to_month (m : List Char) : Option Int :=
  match m[0]? with
  | none => none
  | some c =>
    if c = 'A' then (m[1]?).map fun c1 => if c1 = 'p' then 4 else 8
    else if c = 'D' then some 12
    else if c = 'F' then some 2
    else if c = 'J' then
      (m[1]?).bind fun c1 =>
        if c1 = 'a' then some 1
        else (m[2]?).map fun c2 => if c2 = 'n' then 6 else 7
    else if c = 'M' then (m[2]?).map fun c2 => if c2 = 'r' then 3 else 5
    else if c = 'N' then some 11
    else if c = 'O' then some 10
    else if c = 'S' then some 9
    else none

/-- Lines 123 to 139, which the three recognisers share up to the choice of the
sub-matches: the range check on the time, then the construction of the
timestamp inside `try`.  The result is the value returned together with the
value of `datetime` afterwards; it is `none` when the month decoder fails its
assertion. -/
def build (datetime : ptime) (hour min sec year : Int) (mon : Option Int) (day : Int) :
    Option (Bool × ptime) :=
  if hour > 23 ∨ min > 59 ∨ sec > 60 then some (false, datetime)
  else
    match mon with
    | none => none
    | some m =>
      match date.make year m day with
      | some d => some (true, ptime.make d (time_duration.make hour min sec))
      | none => some (false, datetime)

/-- The function `detail::rfc1123(value, datetime)`.  The match results, named
`matches` in the source, are `sm` here. -/
def rfc1123 (value : List Char) (datetime : ptime) : Option (Bool × ptime) :=
  match regex_match rfc1123_regex value with
  | none => some (false, datetime)
  | some sm =>
    let hour := from_decimal_submatch to_int32 (sm 4)
    let min := from_decimal_submatch to_int32 (sm 5)
    let sec := from_decimal_submatch to_int32 (sm 6)
    build datetime hour min sec
      (from_decimal_submatch to_unsigned_short (sm 3))
      (from_submatch_to_month (sm 2))
      (from_decimal_submatch to_unsigned_short (sm 1))

/-- The function `detail::rfc1036(value, datetime)`. -/
def rfc1036 (value : List Char) (datetime : ptime) : Option (Bool × ptime) :=
  match regex_match rfc1036_regex value with
  | none => some (false, datetime)
  | some sm =>
    let hour := from_decimal_submatch to_int32 (sm 4)
    let min := from_decimal_submatch to_int32 (sm 5)
    let sec := from_decimal_submatch to_int32 (sm 6)
    build datetime hour min sec
      (to_unsigned_short (from_decimal_submatch to_unsigned_short (sm 3) + 1900))
      (from_submatch_to_month (sm 2))
      (from_decimal_submatch to_unsigned_short (sm 1))

/-- The function `detail::asctime(value, datetime)`. -/
def asctime (value : List Char) (datetime : ptime) : Option (Bool × ptime) :=
  match regex_match asctime_regex value with
  | none => some (false, datetime)
  | some sm =>
    let hour := from_decimal_submatch to_int32 (sm 3)
    let min := from_decimal_submatch to_int32 (sm 4)
    let sec := from_decimal_submatch to_int32 (sm 5)
    build datetime hour min sec
      (from_decimal_submatch to_unsigned_short (sm 6))
      (from_submatch_to_month (sm 1))
      (let m := sm 2
       let m := if m.head? = some ' ' then m.tail else m
       from_decimal_submatch to_unsigned_short m)

end detail

/-- The function `header_to_ptime(value)`.  The result is `none` when the
assertion of the month decoder fails. -/
def header_to_ptime (value : List Char) : Option ptime :=
  let ret := ptime.not_a_date_time
  match detail.rfc1123 value ret with
  | none => none
  | some (true, ret) => some ret
  | some (false, ret) =>
    match detail.rfc1036 value ret with
    | none => none
    | some (true, ret) => some ret
    | some (false, ret) =>
      match detail.asctime value ret with
      | none => none
      | some (_, ret) => some ret

/-! ### The words of the specification for the date parser -/

/-- The natural number a run of decimal digits denotes, read from the left. -/
def decimalValue (run : List Char) : Nat :=
  run.foldl (fun acc c => acc * 10 + (c.toNat - 48)) 0

/-- The seven abbreviated week day names. -/
def wkdayNames : List (List Char) :=
  [['M', 'o', 'n'], ['T', 'u', 'e'], ['W', 'e', 'd'], ['T', 'h', 'u'], ['F', 'r', 'i'],
    ['S', 'a', 't'], ['S', 'u', 'n']]

/-- The seven full week day names. -/
def weekdayNames : List (List Char) :=
  [['M', 'o', 'n', 'd', 'a', 'y'], ['T', 'u', 'e', 's', 'd', 'a', 'y'],
    ['W', 'e', 'd', 'n', 'e', 's', 'd', 'a', 'y'], ['T', 'h', 'u', 'r', 's', 'd', 'a', 'y'],
    ['F', 'r', 'i', 'd', 'a', 'y'], ['S', 'a', 't', 'u', 'r', 'd', 'a', 'y'],
    ['S', 'u', 'n', 'd', 'a', 'y']]

/-- The twelve month abbreviations, January first. -/
def monthNames : List (List Char) :=
  [['J', 'a', 'n'], ['F', 'e', 'b'], ['M', 'a', 'r'], ['A', 'p', 'r'], ['M', 'a', 'y'],
    ['J', 'u', 'n'], ['J', 'u', 'l'], ['A', 'u', 'g'], ['S', 'e', 'p'], ['O', 'c', 't'],
    ['N', 'o', 'v'], ['D', 'e', 'c']]

/-- The abbreviation of month number `m` (1 is January). -/
def monthName (m : Nat) : List Char :=
  monthNames.getD (m - 1) []

/-- A string of the RFC 1123 shape `<Wkd>, DD <Mon> YYYY HH:MM:SS GMT`. -/
def rfc1123String (wkd : List Char) (dd : List Char) (mon : List Char) (yyyy hh mm ss : List Char) :
    List Char :=
  wkd ++ [',', ' '] ++ dd ++ [' '] ++ mon ++ [' '] ++ yyyy ++ [' '] ++ hh ++ [':'] ++ mm
    ++ [':'] ++ ss ++ [' ', 'G', 'M', 'T']

/-- A string of the RFC 1036 shape `<Weekday>, DD-<Mon>-YY HH:MM:SS GMT`. -/
def rfc1036String (weekday : List Char) (dd : List Char) (mon : List Char) (yy hh mm ss : List Char) :
    List Char :=
  weekday ++ [',', ' '] ++ dd ++ ['-'] ++ mon ++ ['-'] ++ yy ++ [' '] ++ hh ++ [':'] ++ mm
    ++ [':'] ++ ss ++ [' ', 'G', 'M', 'T']

/-- A string of the asctime shape `<Wkd> <Mon> <day> HH:MM:SS YYYY`. -/
def asctimeString (wkd : List Char) (mon : List Char) (day : List Char) (hh mm ss yyyy : List Char) :
    List Char :=
  wkd ++ [' '] ++ mon ++ [' '] ++ day ++ [' '] ++ hh ++ [':'] ++ mm ++ [':'] ++ ss ++ [' '] ++ yyyy

/-- A run of exactly `n` decimal digits. -/
def isDigits (n : Nat) (run : List Char) : Prop :=
  run.length = n ∧ ∀ c ∈ run, isdigit c = true

/-- The timestamp with the given calendar fields and time of day. -/
def timestamp (year month day hour minute second : Nat) : ptime :=
  .time ⟨year, month, day⟩ ⟨hour * 3600 + minute * 60 + second⟩

/-- The grammar of a pattern: the texts it matches in full, case and all. -/
def Regex.Matches : Regex → List Char → Prop
  | .eps, s => s = []
  | .chr c, s => s = [c]
  | .digit, s => ∃ c, s = [c] ∧ isdigit c = true
  | .seq r₁ r₂, s => ∃ u v, s = u ++ v ∧ r₁.Matches u ∧ r₂.Matches v
  | .alt r₁ r₂, s => r₁.Matches s ∨ r₂.Matches s
  | .group _ r, s => r.Matches s

/-- A date text of one of the three formats, given by its fields: the week day
name, the month number and the runs of characters of the numeric fields. -/
inductive DateText where
  | rfc1123 (wkd dd : List Char) (m : Nat) (yyyy hh mm ss : List Char) : DateText
  | rfc1036 (wkd dd : List Char) (m : Nat) (yy hh mm ss : List Char) : DateText
  | asctime (wkd : List Char) (m : Nat) (day hh mm ss yyyy : List Char) : DateText

/-- The string a date text is written as. -/
def DateText.text : DateText → List Char
  | .rfc1123 wkd dd m yyyy hh mm ss => rfc1123String wkd dd (monthName m) yyyy hh mm ss
  | .rfc1036 wkd dd m yy hh mm ss => rfc1036String wkd dd (monthName m) yy hh mm ss
  | .asctime wkd m day hh mm ss yyyy => asctimeString wkd (monthName m) day hh mm ss yyyy

/-- The pattern of the format of a date text. -/
def DateText.regex : DateText → Regex
  | .rfc1123 _ _ _ _ _ _ _ => detail.rfc1123_regex
  | .rfc1036 _ _ _ _ _ _ _ => detail.rfc1036_regex
  | .asctime _ _ _ _ _ _ _ => detail.asctime_regex

/-- The day field of the asctime format: one space and one digit, or two
digits. -/
def isDayField (day : List Char) : Prop :=
  (∃ d, day = [' ', d] ∧ isdigit d = true) ∨ isDigits 2 day

/-- A date text has the shape of its format: a week day name of the format
(abbreviated, or in full for RFC 1036), a month number from 1 to 12, and
numeric fields of the widths of the format. -/
def DateText.WellFormed : DateText → Prop
  | .rfc1123 wkd dd m yyyy hh mm ss =>
    wkd ∈ wkdayNames ∧ isDigits 2 dd ∧ 1 ≤ m ∧ m ≤ 12 ∧ isDigits 4 yyyy ∧ isDigits 2 hh ∧
      isDigits 2 mm ∧ isDigits 2 ss
  | .rfc1036 wkd dd m yy hh mm ss =>
    wkd ∈ weekdayNames ∧ isDigits 2 dd ∧ 1 ≤ m ∧ m ≤ 12 ∧ isDigits 2 yy ∧ isDigits 2 hh ∧
      isDigits 2 mm ∧ isDigits 2 ss
  | .asctime wkd m day hh mm ss yyyy =>
    wkd ∈ wkdayNames ∧ 1 ≤ m ∧ m ≤ 12 ∧ isDayField day ∧ isDigits 2 hh ∧ isDigits 2 mm ∧
      isDigits 2 ss ∧ isDigits 4 yyyy

/-- The year a date text encodes: the four digits as they are, or 1900 plus the
two digits of RFC 1036. -/
def DateText.year : DateText → Nat
  | .rfc1123 _ _ _ yyyy _ _ _ => decimalValue yyyy
  | .rfc1036 _ _ _ yy _ _ _ => 1900 + decimalValue yy
  | .asctime _ _ _ _ _ _ yyyy => decimalValue yyyy

/-- The month number a date text encodes. -/
def DateText.month : DateText → Nat
  | .rfc1123 _ _ m _ _ _ _ => m
  | .rfc1036 _ _ m _ _ _ _ => m
  | .asctime _ m _ _ _ _ _ => m

/-- The day field of asctime without its one leading space, if it has one. -/
def stripSpace (day : List Char) : List Char :=
  if day.head? = some ' ' then day.tail else day

/-- The day of the month a date text encodes. -/
def DateText.day : DateText → Nat
  | .rfc1123 _ dd _ _ _ _ _ => decimalValue dd
  | .rfc1036 _ dd _ _ _ _ _ => decimalValue dd
  | .asctime _ _ day _ _ _ _ => decimalValue (stripSpace day)

/-- The hour a date text encodes. -/
def DateText.hour : DateText → Nat
  | .rfc1123 _ _ _ _ hh _ _ => decimalValue hh
  | .rfc1036 _ _ _ _ hh _ _ => decimalValue hh
  | .asctime _ _ _ hh _ _ _ => decimalValue hh

/-- The minute a date text encodes. -/
def DateText.minute : DateText → Nat
  | .rfc1123 _ _ _ _ _ mm _ => decimalValue mm
  | .rfc1036 _ _ _ _ _ mm _ => decimalValue mm
  | .asctime _ _ _ _ mm _ _ => decimalValue mm

/-- The second a date text encodes. -/
def DateText.second : DateText → Nat
  | .rfc1123 _ _ _ _ _ _ ss => decimalValue ss
  | .rfc1036 _ _ _ _ _ _ ss => decimalValue ss
  | .asctime _ _ _ _ _ ss _ => decimalValue ss

/-- The same date text with another week day name. -/
def DateText.withWeekday : DateText → List Char → DateText
  | .rfc1123 _ dd m yyyy hh mm ss, w => .rfc1123 w dd m yyyy hh mm ss
  | .rfc1036 _ dd m yy hh mm ss, w => .rfc1036 w dd m yy hh mm ss
  | .asctime _ m day hh mm ss yyyy, w => .asctime w m day hh mm ss yyyy

/-- The time of a date text passes the range check of the recognisers. -/
def DateText.TimeInRange (t : DateText) : Prop :=
  t.hour ≤ 23 ∧ t.minute ≤ 59 ∧ t.second ≤ 60

/-- The timestamp a date text is accepted with, if it is accepted: its time is
in range and the calendar type accepts its date. -/
def DateText.accepted (t : DateText) : Option ptime :=
  if t.hour ≤ 23 ∧ t.minute ≤ 59 ∧ t.second ≤ 60 then
    (date.make t.year t.month t.day).map fun d =>
      ptime.make d (time_duration.make t.hour t.minute t.second)
  else none

/-- The timestamp the specification gives a date text: the instant of its time
after midnight of its date when the time is in range and the calendar type
accepts the date, the sentinel otherwise. -/
def DateText.outcome (t : DateText) : ptime :=
  if t.hour ≤ 23 ∧ t.minute ≤ 59 ∧ t.second ≤ 60 then
    match date.make t.year t.month t.day with
    | some d => ptime.make d (time_duration.make t.hour t.minute t.second)
    | none => .not_a_date_time
  else .not_a_date_time

/-- The body of `header_to_ptime`, lines 250 to 255, with the three recognisers
it calls as parameters, in the order of the calls. -/
def header_to_ptime_with (first second third : List Char → ptime → Option (Bool × ptime))
    (value : List Char) : Option ptime :=
  let ret := ptime.not_a_date_time
  match first value ret with
  | none => none
  | some (true, ret) => some ret
  | some (false, ret) =>
    match second value ret with
    | none => none
    | some (true, ret) => some ret
    | some (false, ret) =>
      match third value ret with
      | none => none
      | some (_, ret) => some ret

/-- What a recogniser does on an input, whatever `datetime` holds on entry: it
returns true and stores the timestamp `o`, or, when `o` is `none`, it returns
false and leaves `datetime` as it was. -/
def Behaves (f : List Char → ptime → Option (Bool × ptime)) (value : List Char)
    (o : Option ptime) : Prop :=
  ∀ dt, f value dt = some (match o with
    | some t => (true, t)
    | none => (false, dt))

namespace detail

/-- The values of `ret` and `digit` in the loop of `from_decimal_string`: on
entry, and after each pass through the body. -/
def from_decimal_string_states (target : Int → Int) : List Char → Int → Int → List (Int × Int)
  | [], ret, digit => [(ret, digit)]
  | c :: cs, ret, digit =>
    (ret, digit) :: from_decimal_string_states target cs
      (target (ret + ((c.toNat : Int) - ('0'.toNat : Int)) * digit)) (target (digit * 10))

end detail

/-! ### The recognisers with their decoder calls recorded -/

/-- One call of a decoder by a recogniser, with the run of characters the call
passes: `decimal` is a call of `from_decimal_submatch`, `month` one of
`from_submatch_to_month`. -/
inductive DecoderCall where
  | decimal (run : List Char)
  | month (run : List Char)
  deriving DecidableEq

/-- A value computed by a piece of code, with the decoder calls the code made
to compute it, in the order of the calls. -/
structure Logged (α : Type) where
  /-- What the code computes. -/
  value : α
  /-- The decoder calls made on the way, the first one first. -/
  calls : List DecoderCall

/-- A value that takes no decoder call. -/
def Logged.pure {α : Type} (a : α) : Logged α := ⟨a, []⟩

/-- Sequencing: the calls of the first piece of code, then those of what
follows it. -/
def Logged.bind {α β : Type} (x : Logged α) (f : α → Logged β) : Logged β :=
  ⟨(f x.value).value, x.calls ++ (f x.value).calls⟩

instance : Monad Logged where
  pure := Logged.pure
  bind := Logged.bind

namespace detail

/-- A call `from_decimal_submatch<Target>(m)`: the value is the one the decoder
returns on `m`, and `m` is recorded as the run the call passes. -/
def from_decimal_submatch_logged (target : Int → Int) (m : List Char) : Logged Int :=
  ⟨from_decimal_submatch target m, [.decimal m]⟩

/-- A call `from_submatch_to_month<Target>(m)`: the value is the one the
decoder returns on `m`, and `m` is recorded as the run the call passes. -/
def from_submatch_to_month_logged (m : List Char) : Logged (Option Int) :=
  ⟨from_submatch_to_month m, [.month m]⟩

/-- The value returned after the three arguments of `date(...)` are computed,
lines 130 to 139: `none` when the month decoder failed its assertion. -/
def construct (datetime : ptime) (hour min sec year : Int) (mon : Option Int) (day : Int) :
    Option (Bool × ptime) :=
  match mon with
  | none => none
  | some m =>
    match date.make year m day with
    | some d => some (true, ptime.make d (time_duration.make hour min sec))
    | none => some (false, datetime)

/-- The function `detail::rfc1123(value, datetime)`, lines 96 to 140, statement
by statement, each decoder call recorded with the run it passes.  The three
arguments of `date(...)` are taken in the order they are written. -/
def rfc1123_logged (value : List Char) (datetime : ptime) : Logged (Option (Bool × ptime)) :=
  match regex_match rfc1123_regex value with
  | none => pure (some (false, datetime))
  | some sm => do
    let hour ← from_decimal_submatch_logged to_int32 (sm 4)
    let min ← from_decimal_submatch_logged to_int32 (sm 5)
    let sec ← from_decimal_submatch_logged to_int32 (sm 6)
    if hour > 23 ∨ min > 59 ∨ sec > 60 then pure (some (false, datetime))
    else do
      let year ← from_decimal_submatch_logged to_unsigned_short (sm 3)
      let mon ← from_submatch_to_month_logged (sm 2)
      let day ← from_decimal_submatch_logged to_unsigned_short (sm 1)
      pure (construct datetime hour min sec year mon day)

/-- The function `detail::rfc1036(value, datetime)`, lines 142 to 187, each
decoder call recorded with the run it passes. -/
def rfc1036_logged (value : List Char) (datetime : ptime) : Logged (Option (Bool × ptime)) :=
  match regex_match rfc1036_regex value with
  | none => pure (some (false, datetime))
  | some sm => do
    let hour ← from_decimal_submatch_logged to_int32 (sm 4)
    let min ← from_decimal_submatch_logged to_int32 (sm 5)
    let sec ← from_decimal_submatch_logged to_int32 (sm 6)
    if hour > 23 ∨ min > 59 ∨ sec > 60 then pure (some (false, datetime))
    else do
      let year ← from_decimal_submatch_logged to_unsigned_short (sm 3)
      let mon ← from_submatch_to_month_logged (sm 2)
      let day ← from_decimal_submatch_logged to_unsigned_short (sm 1)
      pure (construct datetime hour min sec (to_unsigned_short (year + 1900)) mon day)

/-- The function `detail::asctime(value, datetime)`, lines 189 to 238, each
decoder call recorded with the run it passes.  The day is decoded inside the
lambda of lines 226 to 231, from the sub-match `m` after `++m.first`. -/
def asctime_logged (value : List Char) (datetime : ptime) : Logged (Option (Bool × ptime)) :=
  match regex_match asctime_regex value with
  | none => pure (some (false, datetime))
  | some sm => do
    let hour ← from_decimal_submatch_logged to_int32 (sm 3)
    let min ← from_decimal_submatch_logged to_int32 (sm 4)
    let sec ← from_decimal_submatch_logged to_int32 (sm 5)
    if hour > 23 ∨ min > 59 ∨ sec > 60 then pure (some (false, datetime))
    else do
      let year ← from_decimal_submatch_logged to_unsigned_short (sm 6)
      let mon ← from_submatch_to_month_logged (sm 1)
      let day ←
        (let m := sm 2
         let m := if m.head? = some ' ' then m.tail else m
         from_decimal_submatch_logged to_unsigned_short m)
      pure (construct datetime hour min sec year mon day)

end detail

/-- The function `header_to_ptime(value)`, lines 245 to 256, over the recognisers
with their decoder calls recorded: the calls of the recognisers it runs, in the
order it runs them. -/
def header_to_ptime_logged (value : List Char) : Logged (Option ptime) := do
  let ret := ptime.not_a_date_time
  match ← detail.rfc1123_logged value ret with
  | none => pure none
  | some (true, ret) => pure (some ret)
  | some (false, ret) =>
    match ← detail.rfc1036_logged value ret with
    | none => pure none
    | some (true, ret) => pure (some ret)
    | some (false, ret) =>
      match ← detail.asctime_logged value ret with
      | none => pure none
      | some (_, ret) => pure (some ret)

/-- The decoder calls the specification allows a recogniser after a structural
match: the hour, the minute and the second as runs of two digits and, if the
time is in range, the year as a run of `yearWidth` digits, the month as one of
the twelve abbreviations and the day as a run of digits of one of the widths
`dayWidths`. -/
def CallsAsSpecified (yearWidth : Nat) (dayWidths : List Nat) (calls : List DecoderCall) :
    Prop :=
  ∃ hh mm ss, isDigits 2 hh ∧ isDigits 2 mm ∧ isDigits 2 ss ∧
    (calls = [.decimal hh, .decimal mm, .decimal ss] ∨
      ∃ year mon day, isDigits yearWidth year ∧ mon ∈ monthNames ∧
        (∃ w ∈ dayWidths, isDigits w day) ∧
        calls = [.decimal hh, .decimal mm, .decimal ss, .decimal year, .month mon,
          .decimal day])

/-- A decoder call within the preconditions of the decoders: a non-empty run of
digits of width 1, 2 or 4 for the decimal decoder, one of the twelve
abbreviations for the month decoder. -/
def DecoderCall.Allowed : DecoderCall → Prop
  | .decimal run => isDigits 1 run ∨ isDigits 2 run ∨ isDigits 4 run
  | .month run => run ∈ monthNames

end BoostHttp

/-! # Theorems -/

namespace BoostHttp

/-! ## Part 1: the list matcher -/

theorem find_if_loop_eq (s : List Char) (q : Char → Bool) :
    ∀ n first, first + n ≤ s.length →
      find_if_loop s q n first
        = first + (((s.drop first).take n).takeWhile (fun c => !q c)).length := by
  intro n
  induction n with
  | zero => intro first _; simp [find_if_loop]
  | succ n ih =>
    intro first h
    have hlt : first < s.length := by omega
    rw [find_if_loop, List.getElem?_eq_getElem hlt, List.drop_eq_getElem_cons hlt]
    simp only [List.take_succ_cons]
    by_cases hq : q s[first] = true
    · simp [hq, List.takeWhile_cons]
    · simp only [hq, List.takeWhile_cons]
      rw [ih (first + 1) (by omega)]
      simp
      omega

theorem rfind_if_loop_eq (s : List Char) (q : Char → Bool) :
    ∀ n b, n ≤ b → b ≤ s.length →
      rfind_if_loop s q n b
        = b - ((((s.take b).reverse).take n).takeWhile (fun c => !q c)).length := by
  intro n
  induction n with
  | zero => intro b _ _; simp [rfind_if_loop]
  | succ n ih =>
    intro b h1 h2
    have hlt : b - 1 < s.length := by omega
    have hb : b = (b - 1) + 1 := by omega
    have htake : (s.take b).reverse = s[b - 1] :: (s.take (b - 1)).reverse := by
      conv_lhs => rw [hb]
      rw [List.take_succ, List.getElem?_eq_getElem hlt]
      simp
    rw [rfind_if_loop, List.getElem?_eq_getElem hlt, htake]
    simp only [List.take_succ_cons]
    by_cases hq : q s[b - 1] = true
    · simp [hq, List.takeWhile_cons]
    · simp only [hq, List.takeWhile_cons]
      rw [ih (b - 1) (by omega) (by omega)]
      simp
      omega

theorem take_sub_takeWhile_reverse (q : Char → Bool) (l : List Char) :
    l.take (l.length - (l.reverse.takeWhile q).length) = l.rdropWhile q := by
  have h := List.takeWhile_append_dropWhile q l.reverse
  have hl : (l.reverse.dropWhile q).reverse ++ (l.reverse.takeWhile q).reverse = l := by
    rw [← List.reverse_append, h, List.reverse_reverse]
  have hlen : l.length - (l.reverse.takeWhile q).length
      = (l.reverse.dropWhile q).reverse.length := by
    have h2 := congrArg List.length hl
    rw [List.length_append, List.length_reverse, List.length_reverse] at h2
    rw [List.length_reverse]
    omega
  rw [hlen, List.rdropWhile]
  conv_lhs => rw [← hl]
  simp

/-- The predicate call made for a piece: its trimmed form unless that is
empty. -/
theorem trimmed_item_eq (pre pc post : List Char) :
    trimmed_item (pre ++ pc ++ post) pre.length (pre.length + pc.length)
      = callOf pc := by
  unfold callOf
  have hvb : find_if_not (pre ++ pc ++ post) isspace pre.length (pre.length + pc.length)
      = pre.length + (pc.takeWhile isspace).length := by
    rw [find_if_not, find_if_loop_eq _ _ _ _ (by simp only [List.length_append]; omega)]
    simp [List.append_assoc, List.take_append]
  have hsplit := List.takeWhile_append_dropWhile isspace pc
  have hlen : (pc.takeWhile isspace).length + (pc.dropWhile isspace).length = pc.length := by
    rw [← List.length_append, hsplit]
  unfold trimmed_item
  simp only [hvb]
  by_cases hseg : pc.dropWhile isspace = []
  · have h0 : (pc.takeWhile isspace).length = pc.length := by
      rw [hseg] at hlen; simpa using hlen
    simp [h0, trim, hseg, List.rdropWhile]
  · have hne : (pc.dropWhile isspace).length ≠ 0 := by
      simpa using hseg
    have h1 : pre.length + (pc.takeWhile isspace).length ≠ pre.length + pc.length := by omega
    have hve : rfind_if_not_base (pre ++ pc ++ post) isspace (pre.length + pc.length)
        (pre.length + (pc.takeWhile isspace).length)
        = pre.length + pc.length
          - ((pc.dropWhile isspace).reverse.takeWhile isspace).length := by
      rw [rfind_if_not_base, rfind_if_loop_eq _ _ _ _ (by omega)
        (by simp only [List.length_append]; omega)]
      have ht : List.take (pre.length + pc.length) (pre ++ pc ++ post) = pre ++ pc := by
        exact List.take_left' (by simp)
      have hn : pre.length + pc.length - (pre.length + (pc.takeWhile isspace).length)
          = (pc.dropWhile isspace).reverse.length := by
        rw [List.length_reverse]; omega
      have hrev : pc.reverse
          = (pc.dropWhile isspace).reverse ++ (pc.takeWhile isspace).reverse := by
        rw [← List.reverse_append, hsplit]
      rw [ht, hn, List.reverse_append, hrev, List.append_assoc, List.take_left]
      simp
    simp only [h1, hve, ne_eq, not_false_eq_true, if_true]
    have hk : ((pc.dropWhile isspace).reverse.takeWhile isspace).length
        ≤ (pc.dropWhile isspace).length := by
      have := (List.takeWhile_sublist isspace (l := (pc.dropWhile isspace).reverse)).length_le
      simpa using this
    have hstr : string_ref (pre ++ pc ++ post) (pre.length + (pc.takeWhile isspace).length)
        (pre.length + pc.length - ((pc.dropWhile isspace).reverse.takeWhile isspace).length
          - (pre.length + (pc.takeWhile isspace).length)) = trim pc := by
      have hn : pre.length + pc.length
            - ((pc.dropWhile isspace).reverse.takeWhile isspace).length
            - (pre.length + (pc.takeWhile isspace).length)
          = (pc.dropWhile isspace).length
            - ((pc.dropWhile isspace).reverse.takeWhile isspace).length := by omega
      rw [hn, string_ref, trim, ← take_sub_takeWhile_reverse]
      have hd : List.drop (pre.length + (pc.takeWhile isspace).length) (pre ++ pc ++ post)
          = pc.dropWhile isspace ++ post := by
        conv_lhs => rw [← hsplit]
        rw [← List.length_append, ← List.append_assoc pre, List.append_assoc _ _ post]
        simp
      rw [hd, List.take_append_of_le_length (by omega)]
    rw [hstr]
    by_cases ht : trim pc = []
    · have : ((pc.dropWhile isspace).reverse.takeWhile isspace).length
          = (pc.dropWhile isspace).length := by
        have h2 := take_sub_takeWhile_reverse isspace (pc.dropWhile isspace)
        rw [← trim, ht] at h2
        have h3 := congrArg List.length h2
        simp at h3
        omega
      simp [ht]
      omega
    · have : ((pc.dropWhile isspace).reverse.takeWhile isspace).length
          ≠ (pc.dropWhile isspace).length := by
        intro h
        apply ht
        rw [trim, ← take_sub_takeWhile_reverse, h]
        simp
      simp [ht]
      omega

theorem find_comma_eq (pre pc post : List Char) (hpc : ',' ∉ pc)
    (hpost : post = [] ∨ ∃ r, post = ',' :: r) :
    find (pre ++ pc ++ post) pre.length (pre ++ pc ++ post).length ','
      = pre.length + pc.length := by
  rw [find, find_if_loop_eq _ _ _ _ (by simp only [List.length_append]; omega)]
  have hd : List.drop pre.length (pre ++ pc ++ post) = pc ++ post := by
    rw [List.append_assoc, List.drop_left]
  have ht : List.take ((pre ++ pc ++ post).length - pre.length) (pc ++ post) = pc ++ post := by
    apply List.take_of_length_le
    simp only [List.length_append]; omega
  rw [hd, ht, List.takeWhile_append_of_pos]
  · rcases hpost with h | ⟨r, h⟩ <;> simp [h, List.takeWhile_cons]
  · intro a ha
    have : a ≠ ',' := fun h => hpc (h ▸ ha)
    simpa using this

theorem joinComma_eq_nil {y : List Char} {ys : List (List Char)} :
    joinComma (y :: ys) = [] ↔ y = [] ∧ ys = [] := by
  cases ys with
  | nil => simp [joinComma]
  | cons z zs => simp [joinComma]

theorem loop_eq_pieceRun (p : List Char → Bool) :
    ∀ (pieces : List (List Char)) (pre : List Char) (fuel : Nat),
      pieces ≠ [] → (∀ pc ∈ pieces, ',' ∉ pc) → pieces.length ≤ fuel →
      header_value_any_of_loop (pre ++ joinComma pieces) p fuel pre.length
        = some (pieceRun p pre.length pieces) := by
  intro pieces
  induction pieces with
  | nil => intro _ _ h; exact absurd rfl h
  | cons pc rest ih =>
    intro pre fuel _ hc hfuel
    obtain ⟨f, rfl⟩ : ∃ f, fuel = f + 1 := ⟨fuel - 1, by simp at hfuel; omega⟩
    have hpc : ',' ∉ pc := hc pc (List.mem_cons_self _ _)
    cases rest with
    | nil =>
      have hs : pre ++ joinComma [pc] = pre ++ pc ++ [] := by simp [joinComma]
      have hfind := find_comma_eq pre pc [] hpc (Or.inl rfl)
      have hitem := trimmed_item_eq pre pc []
      rw [hs, header_value_any_of_loop]
      simp only [hfind, hitem]
      have hadv : advance (pre ++ pc ++ []) (pre.length + pc.length)
          = (pre ++ pc ++ []).length := by simp [advance]
      rw [hadv]
      cases h : accepts p (callOf pc) <;> simp [pieceRun, h]
    | cons y ys =>
      have hs : pre ++ joinComma (pc :: y :: ys) = pre ++ pc ++ (',' :: joinComma (y :: ys)) := by
        simp [joinComma]
      have hfind := find_comma_eq pre pc (',' :: joinComma (y :: ys)) hpc (Or.inr ⟨_, rfl⟩)
      have hitem := trimmed_item_eq pre pc (',' :: joinComma (y :: ys))
      have hs2 : pre ++ pc ++ (',' :: joinComma (y :: ys))
          = (pre ++ pc ++ [',']) ++ joinComma (y :: ys) := by simp
      have ih2 := ih (pre ++ pc ++ [',']) f (List.cons_ne_nil _ _)
        (fun q hq => hc q (List.mem_cons_of_mem _ hq)) (by simp at hfuel ⊢; omega)
      rw [← hs2] at ih2
      have hlen : (pre ++ pc ++ [',']).length = pre.length + pc.length + 1 := by
        simp only [List.length_append, List.length_singleton]
      rw [hlen] at ih2
      rw [hs, header_value_any_of_loop]
      simp only [hfind, hitem]
      have hadv : advance (pre ++ pc ++ (',' :: joinComma (y :: ys))) (pre.length + pc.length)
          = pre.length + pc.length + 1 := by
        simp [advance]
      rw [hadv, ih2]
      have hexit : (pre.length + pc.length + 1
            = (pre ++ pc ++ (',' :: joinComma (y :: ys))).length) ↔ (y = [] ∧ ys = []) := by
        rw [← joinComma_eq_nil]
        simp only [List.length_append, List.length_cons]
        constructor
        · intro h
          apply List.eq_nil_of_length_eq_zero
          omega
        · intro h; rw [h]; simp
      rw [pieceRun]
      by_cases hacc : accepts p (callOf pc) = true
      · simp [hacc]
      · simp only [hacc, if_false, Bool.false_eq_true]
        by_cases he : y = [] ∧ ys = []
        · simp [he, hexit.mpr he]
        · have hne : ¬ (pre.length + pc.length + 1
              = (pre ++ pc ++ (',' :: joinComma (y :: ys))).length) := fun h => he (hexit.mp h)
          simp only [ne_eq, hne, not_false_eq_true, if_true, he, if_false, Option.map_some']

theorem splitOn_comma_cons (c : Char) (cs : List Char) :
    (c :: cs).splitOn ',' =
      if c = ',' then [] :: cs.splitOn ',' else (cs.splitOn ',').modifyHead (List.cons c) := by
  simp only [List.splitOn, List.splitOnP_cons, beq_iff_eq]

theorem splitOn_comma_ne_nil (s : List Char) : s.splitOn ',' ≠ [] :=
  List.splitOnP_ne_nil _ _

theorem joinComma_modifyHead (c : Char) :
    ∀ pieces : List (List Char), pieces ≠ [] →
      joinComma (pieces.modifyHead (List.cons c)) = c :: joinComma pieces := by
  intro pieces h
  match pieces, h with
  | [x], _ => simp [joinComma]
  | x :: y :: ys, _ => simp [joinComma]

theorem joinComma_nil_cons : ∀ pieces : List (List Char), pieces ≠ [] →
    joinComma ([] :: pieces) = ',' :: joinComma pieces := by
  intro pieces h
  match pieces, h with
  | y :: ys, _ => simp [joinComma]

theorem joinComma_splitOn (s : List Char) : joinComma (s.splitOn ',') = s := by
  induction s with
  | nil => simp [joinComma]
  | cons c cs ih =>
    rw [splitOn_comma_cons]
    by_cases h : c = ','
    · simp only [h, if_true]
      rw [joinComma_nil_cons _ (splitOn_comma_ne_nil cs), ih]
    · simp only [h, if_false]
      rw [joinComma_modifyHead _ _ (splitOn_comma_ne_nil cs), ih]

theorem not_mem_of_mem_splitOn (s : List Char) :
    ∀ pc ∈ s.splitOn ',', ',' ∉ pc := by
  induction s with
  | nil => simp
  | cons c cs ih =>
    rw [splitOn_comma_cons]
    by_cases h : c = ','
    · simp only [h, if_true]
      intro pc hpc
      rcases List.mem_cons.mp hpc with rfl | h2
      · simp
      · exact ih pc h2
    · simp only [h, if_false]
      have hne := splitOn_comma_ne_nil cs
      match hsp : cs.splitOn ',', hne with
      | x :: xs, _ =>
        rw [hsp] at ih
        intro pc hpc
        simp only [List.modifyHead_cons, List.mem_cons] at hpc
        rcases hpc with rfl | h2
        · intro hm
          rcases List.mem_cons.mp hm with h3 | h3
          · exact h h3.symm
          · exact ih x (List.mem_cons_self _ _) h3
        · exact ih pc (List.mem_cons_of_mem _ h2)

theorem length_splitOn (s : List Char) : (s.splitOn ',').length = s.count ',' + 1 := by
  induction s with
  | nil => simp
  | cons c cs ih =>
    rw [splitOn_comma_cons]
    by_cases h : c = ','
    · simp [h, ih]
    · have : (c == ',') = false := by simpa using h
      simp [h, ih, List.count_cons, this]

theorem accepts_none (p : List Char → Bool) : accepts p none = false := rfl

theorem callOf_nil : callOf [] = none := by
  simp [callOf, trim, List.rdropWhile]

theorem accepts_callOf (p : List Char → Bool) (pc : List Char) :
    accepts p (callOf pc) = true ↔ trim pc ≠ [] ∧ p (trim pc) = true := by
  unfold callOf
  by_cases h : trim pc = [] <;> simp [h, accepts]

/-- The induction principle that follows the three equations of `pieceRun`. -/
theorem pieces_induction {motive : List (List Char) → Prop}
    (single : ∀ pc, motive [pc])
    (step : ∀ pc y ys, motive (y :: ys) → motive (pc :: y :: ys)) :
    ∀ pieces, pieces ≠ [] → motive pieces := by
  intro pieces
  induction pieces with
  | nil => intro h; exact absurd rfl h
  | cons pc rest ih =>
    intro _
    cases rest with
    | nil => exact single pc
    | cons y ys => exact step pc y ys (ih (List.cons_ne_nil _ _))

theorem pieceRun_result (p : List Char → Bool) (pieces : List (List Char)) (hne : pieces ≠ []) :
    ∀ o, (pieceRun p o pieces).result = true ↔ ∃ pc ∈ pieces, accepts p (callOf pc) = true := by
  refine pieces_induction (motive := fun pieces => ∀ o, (pieceRun p o pieces).result = true
      ↔ ∃ pc ∈ pieces, accepts p (callOf pc) = true) ?_ ?_ pieces hne
  · intro pc o
    simp [pieceRun]
  · intro pc y ys ih o
    rw [pieceRun]
    by_cases hacc : accepts p (callOf pc) = true
    · simp [hacc]
    · by_cases he : y = [] ∧ ys = []
      · obtain ⟨rfl, rfl⟩ := he
        simp [hacc, callOf_nil, accepts_none]
      · simp only [hacc, he, if_false, Bool.false_eq_true]
        rw [ih]
        simp [hacc]

theorem filterMap_callOf (l : List (List Char)) :
    ((l.map trim).filter (fun x => !x.isEmpty)) = l.filterMap callOf := by
  induction l with
  | nil => rfl
  | cons x xs ih =>
    by_cases h : trim x = []
    · simp [List.filterMap_cons, callOf, h, ih]
    · have : (trim x).isEmpty = false := by simpa using h
      simp [List.filterMap_cons, callOf, h, ih, List.filter_cons, this]

theorem upToFirst_cons_of_accepts (p : List Char → Bool) (pc : List Char) (l : List (List Char))
    (h : accepts p (callOf pc) = true) :
    upToFirst p ((pc :: l).filterMap callOf) = (callOf pc).toList := by
  rw [accepts_callOf] at h
  simp [List.filterMap_cons, callOf, h.1, upToFirst, h.2]

theorem upToFirst_cons_of_not_accepts (p : List Char → Bool) (pc : List Char)
    (l : List (List Char)) (h : ¬ accepts p (callOf pc) = true) :
    upToFirst p ((pc :: l).filterMap callOf)
      = (callOf pc).toList ++ upToFirst p (l.filterMap callOf) := by
  rw [accepts_callOf] at h
  by_cases ht : trim pc = []
  · simp [List.filterMap_cons, callOf, ht]
  · have hp : p (trim pc) = false := by simpa [ht] using h
    simp [List.filterMap_cons, callOf, ht, upToFirst, hp]

theorem calls_cons (b : Bool) (it : Iteration) (tr : List Iteration) :
    (Run.mk b (it :: tr)).calls = it.call.toList ++ (Run.mk b tr).calls := by
  cases h : it.call <;> simp [Run.calls, List.filterMap_cons, h]

theorem calls_single (b : Bool) (it : Iteration) :
    (Run.mk b [it]).calls = it.call.toList := by
  cases h : it.call <;> simp [Run.calls, List.filterMap_cons, h]

theorem pieceRun_calls (p : List Char → Bool) (pieces : List (List Char)) (hne : pieces ≠ []) :
    ∀ o, (pieceRun p o pieces).calls = upToFirst p (pieces.filterMap callOf) := by
  refine pieces_induction (motive := fun pieces => ∀ o, (pieceRun p o pieces).calls
      = upToFirst p (pieces.filterMap callOf)) ?_ ?_ pieces hne
  · intro pc o
    rw [pieceRun, calls_cons]
    by_cases hacc : accepts p (callOf pc) = true
    · rw [upToFirst_cons_of_accepts p pc [] hacc]; simp [Run.calls]
    · rw [upToFirst_cons_of_not_accepts p pc [] hacc]; simp [Run.calls, upToFirst]
  · intro pc y ys ih o
    rw [pieceRun]
    by_cases hacc : accepts p (callOf pc) = true
    · rw [upToFirst_cons_of_accepts p pc _ hacc]; simp [hacc, calls_single]
    · rw [upToFirst_cons_of_not_accepts p pc _ hacc]
      by_cases he : y = [] ∧ ys = []
      · obtain ⟨rfl, rfl⟩ := he
        simp [hacc, calls_single, callOf_nil, upToFirst]
      · simp only [hacc, he, if_false, Bool.false_eq_true]
        rw [calls_cons]
        have := ih (o + pc.length + 1)
        simp only [Run.calls] at this ⊢
        rw [this]

theorem pieceRun_iterations (p : List Char → Bool) (pieces : List (List Char))
    (hne : pieces ≠ []) :
    ∀ o, (pieceRun p o pieces).iterations ≤ pieces.length := by
  refine pieces_induction (motive := fun pieces => ∀ o, (pieceRun p o pieces).iterations
      ≤ pieces.length) ?_ ?_ pieces hne
  · intro pc o
    simp [pieceRun, Run.iterations]
  · intro pc y ys ih o
    rw [pieceRun]
    have := ih (o + pc.length + 1)
    simp only [Run.iterations, List.length_cons] at this ⊢
    split_ifs
    · simp
    · simp
    · simp only [List.length_cons]; omega

/-- The shape of a trace: it starts at the offset, every iteration scans a
range inside the input, and each next iteration starts one past the comma
where the one before stopped. -/
theorem pieceRun_trace (p : List Char → Bool) (pieces : List (List Char)) (hne : pieces ≠ []) :
    ∀ o L, L = o + (joinComma pieces).length →
      ∃ it rest, (pieceRun p o pieces).trace = it :: rest ∧ it.comma = o ∧
        (∀ x ∈ it :: rest, x.comma ≤ x.next_comma ∧ x.next_comma ≤ L) ∧
        List.Chain' (fun a b : Iteration => b.comma = a.next_comma + 1 ∧ a.next_comma < L)
          (it :: rest) := by
  refine pieces_induction (motive := fun pieces => ∀ o L, L = o + (joinComma pieces).length →
      ∃ it rest, (pieceRun p o pieces).trace = it :: rest ∧ it.comma = o ∧
        (∀ x ∈ it :: rest, x.comma ≤ x.next_comma ∧ x.next_comma ≤ L) ∧
        List.Chain' (fun a b : Iteration => b.comma = a.next_comma + 1 ∧ a.next_comma < L)
          (it :: rest)) ?_ ?_ pieces hne
  · intro pc o L hL
    refine ⟨⟨o, o + pc.length, callOf pc⟩, [], by simp [pieceRun], rfl, ?_, List.chain'_singleton _⟩
    intro x hx
    simp only [List.mem_singleton] at hx
    subst hx
    simp [joinComma] at hL
    simp [hL]
  · intro pc y ys ih o L hL
    have hJ : L = o + pc.length + 1 + (joinComma (y :: ys)).length := by
      rw [hL]; simp [joinComma]; omega
    have hone : ∀ x ∈ [(⟨o, o + pc.length, callOf pc⟩ : Iteration)],
        x.comma ≤ x.next_comma ∧ x.next_comma ≤ L := by
      intro x hx
      simp only [List.mem_singleton] at hx
      subst hx
      simp only [Nat.le_add_right, true_and]
      omega
    rw [pieceRun]
    by_cases hacc : accepts p (callOf pc) = true
    · exact ⟨_, [], by simp [hacc], rfl, hone, List.chain'_singleton _⟩
    · by_cases he : y = [] ∧ ys = []
      · exact ⟨_, [], by simp [hacc, he], rfl, hone, List.chain'_singleton _⟩
      · obtain ⟨it, rest, htr, hit, hall, hch⟩ := ih (o + pc.length + 1) L hJ
        refine ⟨⟨o, o + pc.length, callOf pc⟩, it :: rest, by simp [hacc, he, htr], rfl, ?_, ?_⟩
        · intro x hx
          rcases List.mem_cons.mp hx with rfl | hx
          · exact hone _ (List.mem_singleton_self _)
          · exact hall x hx
        · refine List.chain'_cons.mpr ⟨⟨hit, ?_⟩, hch⟩
          show o + pc.length < L
          omega

theorem commaPositions_of_not_mem : ∀ (pc : List Char) (o : Nat), ',' ∉ pc →
    commaPositions o pc = [] := by
  intro pc
  induction pc with
  | nil => intro o _; rfl
  | cons c cs ih =>
    intro o h
    have h1 : c ≠ ',' := fun e => h (e ▸ List.mem_cons_self _ _)
    have h2 : ',' ∉ cs := fun e => h (List.mem_cons_of_mem _ e)
    simp [commaPositions, h1, ih (o + 1) h2]

theorem commaPositions_append_comma : ∀ (pc : List Char) (o : Nat) (rest : List Char),
    ',' ∉ pc →
    commaPositions o (pc ++ ',' :: rest)
      = (o + pc.length) :: commaPositions (o + pc.length + 1) rest := by
  intro pc
  induction pc with
  | nil => intro o rest _; simp [commaPositions]
  | cons c cs ih =>
    intro o rest h
    have h1 : c ≠ ',' := fun e => h (e ▸ List.mem_cons_self _ _)
    have h2 : ',' ∉ cs := fun e => h (List.mem_cons_of_mem _ e)
    have e1 : o + 1 + cs.length = o + (cs.length + 1) := by omega
    rw [List.cons_append, commaPositions, if_neg h1, ih (o + 1) rest h2, List.length_cons, e1]

theorem length_commaPositions : ∀ (l : List Char) (o : Nat),
    (commaPositions o l).length = l.count ',' := by
  intro l
  induction l with
  | nil => intro o; rfl
  | cons c cs ih =>
    intro o
    by_cases hc : c = ','
    · simp [commaPositions, hc, ih]
    · have : (c == ',') = false := by simpa using hc
      simp [commaPositions, hc, ih, List.count_cons, this]

/-- The stops of a run that are commas are the first commas of the input, and
all of them when the run ends with `false`. -/
theorem pieceRun_stops (p : List Char → Bool) (pieces : List (List Char)) (hne : pieces ≠ []) :
    ∀ o L, (∀ pc ∈ pieces, ',' ∉ pc) → L = o + (joinComma pieces).length →
      ∃ rest, commaPositions o (joinComma pieces)
          = ((pieceRun p o pieces).trace.map Iteration.next_comma).filter (fun i => i != L)
            ++ rest
        ∧ ((pieceRun p o pieces).result = false → rest = []) := by
  refine pieces_induction (motive := fun pieces => ∀ o L, (∀ pc ∈ pieces, ',' ∉ pc) →
      L = o + (joinComma pieces).length →
      ∃ rest, commaPositions o (joinComma pieces)
          = ((pieceRun p o pieces).trace.map Iteration.next_comma).filter (fun i => i != L)
            ++ rest
        ∧ ((pieceRun p o pieces).result = false → rest = [])) ?_ ?_ pieces hne
  · intro pc o L hc hL
    have hpc : ',' ∉ pc := hc pc (List.mem_singleton_self _)
    simp only [joinComma] at hL ⊢
    refine ⟨[], ?_, fun _ => rfl⟩
    simp [pieceRun, commaPositions_of_not_mem pc o hpc, hL]
  · intro pc y ys ih o L hc hL
    have hpc : ',' ∉ pc := hc pc (List.mem_cons_self _ _)
    have hJ : L = o + pc.length + 1 + (joinComma (y :: ys)).length := by
      rw [hL]; simp [joinComma]; omega
    have hstop : ((o + pc.length) != L) = true := by
      simp only [bne_iff_ne, ne_eq]; omega
    have hcp : commaPositions o (joinComma (pc :: y :: ys))
        = (o + pc.length) :: commaPositions (o + pc.length + 1) (joinComma (y :: ys)) := by
      simp only [joinComma]
      exact commaPositions_append_comma pc o _ hpc
    rw [pieceRun, hcp]
    by_cases hacc : accepts p (callOf pc) = true
    · refine ⟨commaPositions (o + pc.length + 1) (joinComma (y :: ys)), ?_, ?_⟩
      · simp [hacc, List.filter_cons, hstop]
      · simp [hacc]
    · by_cases he : y = [] ∧ ys = []
      · refine ⟨[], ?_, fun _ => rfl⟩
        have : joinComma (y :: ys) = [] := joinComma_eq_nil.mpr he
        simp [hacc, he, List.filter_cons, hstop, this, commaPositions]
      · obtain ⟨rest, h1, h2⟩ := ih (o + pc.length + 1) L
          (fun q hq => hc q (List.mem_cons_of_mem _ hq)) hJ
        refine ⟨rest, ?_, ?_⟩
        · simp only [hacc, he, if_false, Bool.false_eq_true, List.map_cons, List.filter_cons,
            hstop, if_true, List.cons_append, h1]
        · simpa [hacc, he] using h2

theorem mem_joinComma : ∀ (pieces : List (List Char)) (pc : List Char), pc ∈ pieces →
    ∃ a b, joinComma pieces = a ++ pc ++ b := by
  intro pieces
  induction pieces with
  | nil => intro pc h; cases h
  | cons x rest ih =>
    intro pc h
    cases rest with
    | nil =>
      simp only [List.mem_singleton] at h
      subst h
      exact ⟨[], [], by simp [joinComma]⟩
    | cons y ys =>
      rcases List.mem_cons.mp h with rfl | h2
      · exact ⟨[], ',' :: joinComma (y :: ys), by simp [joinComma]⟩
      · obtain ⟨a, b, hab⟩ := ih pc h2
        exact ⟨x ++ ',' :: a, b, by simp [joinComma, hab]⟩

theorem upToFirst_dropLast (p : List Char → Bool) :
    ∀ (l : List (List Char)), ∀ a ∈ (upToFirst p l).dropLast, p a = false := by
  intro l
  induction l with
  | nil => intro a h; simp [upToFirst] at h
  | cons x xs ih =>
    intro a h
    rw [upToFirst] at h
    by_cases hp : p x = true
    · simp [hp] at h
    · simp only [hp, if_false, Bool.false_eq_true] at h
      cases hu : upToFirst p xs with
      | nil => simp [hu] at h
      | cons z zs =>
        rw [hu, List.dropLast_cons₂] at h
        rcases List.mem_cons.mp h with rfl | h2
        · simpa using hp
        · exact ih a (hu ▸ h2)

theorem trim_eq_nil_of_forall_isspace (pc : List Char) (h : ∀ c ∈ pc, isspace c = true) :
    trim pc = [] := by
  have : pc.dropWhile isspace = [] := by
    rw [List.dropWhile_eq_nil_iff]
    exact h
  simp [trim, this]

theorem upToFirst_initial (p : List Char → Bool) :
    ∀ l : List (List Char), ∃ rest, l = upToFirst p l ++ rest := by
  intro l
  induction l with
  | nil => exact ⟨[], rfl⟩
  | cons x xs ih =>
    rw [upToFirst]
    by_cases hp : p x = true
    · exact ⟨xs, by simp [hp]⟩
    · obtain ⟨rest, hr⟩ := ih
      refine ⟨rest, ?_⟩
      simp only [hp, if_false, Bool.false_eq_true, List.cons_append, List.cons.injEq, true_and]
      exact hr

theorem items_eq_filterMap (s : List Char) : items s = (s.splitOn ',').filterMap callOf :=
  filterMap_callOf _

/-- With enough iterations allowed, the loop entered at the start of the input
leaves with the run the specification describes. -/
theorem header_value_any_of_loop_eq (s : List Char) (p : List Char → Bool) (fuel : Nat)
    (h : s.count ',' + 1 ≤ fuel) :
    header_value_any_of_loop s p fuel 0 = some (pieceRun p 0 (s.splitOn ',')) := by
  have h1 := loop_eq_pieceRun p (s.splitOn ',') [] fuel (splitOn_comma_ne_nil s)
    (not_mem_of_mem_splitOn s) (by rw [length_splitOn]; exact h)
  simpa [joinComma_splitOn] using h1

theorem header_value_any_of_eq (s : List Char) (p : List Char → Bool) :
    header_value_any_of s p = some (pieceRun p 0 (s.splitOn ',')) :=
  header_value_any_of_loop_eq s p _ (by have := List.count_le_length ',' s; omega)

theorem mem_of_mem_splitOn (s pc : List Char) (h : pc ∈ s.splitOn ',') :
    ∃ a b, s = a ++ pc ++ b := by
  obtain ⟨a, b, hab⟩ := mem_joinComma _ pc h
  rw [joinComma_splitOn] at hab
  exact ⟨a, b, hab⟩

/-! ### The claims on `header_value_any_of` -/

/-- C1: `header_value_any_of(s, p)` returns and its value is true if and only if
one of the pieces obtained by splitting `s` on `,` has a non-empty
whitespace-trimmed form that satisfies `p`. -/
theorem header_value_any_of_true_iff (s : List Char) (p : List Char → Bool) :
    ∃ r, header_value_any_of s p = some r ∧
      (r.result = true ↔ ∃ item ∈ s.splitOn ',', trim item ≠ [] ∧ p (trim item) = true) := by
  refine ⟨_, header_value_any_of_eq s p, ?_⟩
  rw [pieceRun_result p _ (splitOn_comma_ne_nil s)]
  simp only [accepts_callOf]

/-- C2: the arguments on which `header_value_any_of` invokes `p` are the
non-empty trimmed comma separated items of `s`, left to right, cut off right
after the first one that `p` accepts: the calls are an initial segment of the
items, and every call but the last returns false.  For `"a, b ,  , c"` and a
predicate that accepts only `"b"` the calls are `"a"`, `"b"`. -/
theorem header_value_any_of_calls :
    (∀ (s : List Char) (p : List Char → Bool),
      ∃ r, header_value_any_of s p = some r ∧ r.calls = upToFirst p (items s) ∧
        (∃ rest, items s = r.calls ++ rest) ∧ (∀ a ∈ r.calls.dropLast, p a = false)) ∧
    (header_value_any_of "a, b ,  , c".toList (fun x => x == ['b'])).map Run.calls
      = some [['a'], ['b']] := by
  refine ⟨fun s p => ⟨_, header_value_any_of_eq s p, ?_⟩, by decide⟩
  have hc : (pieceRun p 0 (s.splitOn ',')).calls = upToFirst p (items s) := by
    rw [pieceRun_calls p _ (splitOn_comma_ne_nil s), items_eq_filterMap]
  refine ⟨hc, ?_, ?_⟩
  · rw [hc]; exact upToFirst_initial p _
  · rw [hc]; exact upToFirst_dropLast p _

/-- C4: on a header value made of commas and whitespace only, the empty one
included, `header_value_any_of` returns false and never invokes the
predicate. -/
theorem header_value_any_of_blank (s : List Char) (p : List Char → Bool)
    (h : ∀ c ∈ s, c = ',' ∨ isspace c = true) :
    ∃ r, header_value_any_of s p = some r ∧ r.result = false ∧ r.calls = [] := by
  refine ⟨_, header_value_any_of_eq s p, ?_⟩
  have hnone : ∀ pc ∈ s.splitOn ',', callOf pc = none := by
    intro pc hpc
    have hsp : ∀ c ∈ pc, isspace c = true := by
      intro c hc
      obtain ⟨f, b, hfb⟩ := mem_of_mem_splitOn s pc hpc
      have hcs : c ∈ s := by rw [hfb]; simp [hc]
      rcases h c hcs with rfl | h2
      · exact absurd hc (not_mem_of_mem_splitOn s pc hpc)
      · exact h2
    simp [callOf, trim_eq_nil_of_forall_isspace pc hsp]
  constructor
  · cases hr : (pieceRun p 0 (s.splitOn ',')).result with
    | false => rfl
    | true =>
      obtain ⟨pc, hpc, hacc⟩ := (pieceRun_result p _ (splitOn_comma_ne_nil s) 0).mp hr
      rw [hnone pc hpc, accepts_none] at hacc
      exact absurd hacc (by decide)
  · rw [pieceRun_calls p _ (splitOn_comma_ne_nil s)]
    have : (s.splitOn ',').filterMap callOf = [] := by
      rw [List.filterMap_eq_nil_iff]
      exact hnone
    rw [this]
    rfl

/-- C4 at the header value `" ,\t,, "`. -/
theorem header_value_any_of_blank_witness :
    (∀ c ∈ " ,\t,, ".toList, c = ',' ∨ isspace c = true) ∧
      ∃ r, header_value_any_of " ,\t,, ".toList (fun _ => true) = some r ∧
        r.result = false ∧ r.calls = [] :=
  ⟨by decide, header_value_any_of_blank _ _ (by decide)⟩

/-- C5: `header_value_any_of` returns on every input, within as many loop
iterations as the input has commas plus one.  After an iteration the scan
position is past the one before unless it is the end of the input; the next
iteration starts at that position, strictly further on; no two iterations stop
at the same place; and the stops that are commas are the commas of the input
in order, each once, all of them when the run ends with `false`.  On `"x,"`
with a predicate that accepts nothing the value is false after one
iteration. -/
theorem header_value_any_of_terminates :
    (∀ (s : List Char) (p : List Char → Bool),
      ∃ r, header_value_any_of s p = some r ∧
        (∀ fuel, s.count ',' + 1 ≤ fuel → header_value_any_of_loop s p fuel 0 = some r) ∧
        r.iterations ≤ s.count ',' + 1 ∧
        (∀ it ∈ r.trace,
          it.comma < advance s it.next_comma ∨ advance s it.next_comma = s.length) ∧
        List.Chain' (fun a b : Iteration => b.comma = advance s a.next_comma ∧ a.comma < b.comma)
          r.trace ∧
        (r.trace.map Iteration.next_comma).Pairwise (fun i j => i < j) ∧
        (∃ rest, commaPositions 0 s
            = (r.trace.map Iteration.next_comma).filter (fun i => i != s.length) ++ rest
          ∧ (r.result = false → rest = [])) ∧
        (commaPositions 0 s).length = s.count ',') ∧
    header_value_any_of "x,".toList (fun _ => false) = some ⟨false, [⟨0, 1, some ['x']⟩]⟩ := by
  refine ⟨fun s p => ⟨_, header_value_any_of_eq s p, fun fuel hf =>
    header_value_any_of_loop_eq s p fuel hf, ?_, ?_⟩, by decide⟩
  · have := pieceRun_iterations p _ (splitOn_comma_ne_nil s) 0
    rw [length_splitOn] at this
    exact this
  · obtain ⟨it, rest, htr, _, hall, hch⟩ := pieceRun_trace p _ (splitOn_comma_ne_nil s) 0 s.length
      (by rw [joinComma_splitOn]; simp)
    rw [htr]
    refine ⟨?_, ?_, ?_, ?_, length_commaPositions s 0⟩
    · intro x hx
      obtain ⟨h1, h2⟩ := hall x hx
      unfold advance
      by_cases he : x.next_comma = s.length
      · right; simp [he]
      · left; simp only [ne_eq, he, not_false_eq_true, if_true]; omega
    · rw [List.Chain'.iff_mem] at hch
      refine hch.imp ?_
      rintro a b ⟨ha, _, h1, h2⟩
      have := (hall a ha).1
      unfold advance
      have hne : a.next_comma ≠ s.length := by omega
      simp only [ne_eq, hne, not_false_eq_true, if_true]
      exact ⟨h1, by omega⟩
    · rw [List.pairwise_map]
      have hch2 : List.Chain' (fun a b : Iteration => a.next_comma < b.next_comma) (it :: rest) := by
        rw [List.Chain'.iff_mem] at hch
        refine hch.imp ?_
        rintro a b ⟨_, hb, h1, _⟩
        have := (hall b hb).1
        omega
      haveI : IsTrans Iteration (fun a b : Iteration => a.next_comma < b.next_comma) :=
        ⟨fun a b c h1 h2 => Nat.lt_trans h1 h2⟩
      exact List.chain'_iff_pairwise.mp hch2
    · have := pieceRun_stops p _ (splitOn_comma_ne_nil s) 0 s.length (not_mem_of_mem_splitOn s)
        (by rw [joinComma_splitOn]; simp)
      rw [joinComma_splitOn, htr] at this
      exact this

/-! ## Part 2: the date parser -/

theorem run_lit (t rest : List Char) (caps : Captures) :
    (Regex.lit t).run (t ++ rest) caps = [(t, rest, caps)] := by
  induction t with
  | nil => rfl
  | cons c cs ih => simp [Regex.lit, Regex.run, ih]

theorem run_seq_single {r₁ r₂ : Regex} {s m₁ m₂ rest₁ rest₂ : List Char}
    {caps caps₁ caps₂ : Captures}
    (h₁ : r₁.run s caps = [(m₁, rest₁, caps₁)])
    (h₂ : r₂.run rest₁ caps₁ = [(m₂, rest₂, caps₂)]) :
    (Regex.seq r₁ r₂).run s caps = [(m₁ ++ m₂, rest₂, caps₂)] := by
  simp [Regex.run, h₁, h₂]

theorem run_group_single {r : Regex} {n : Nat} {s m rest : List Char} {caps caps₁ : Captures}
    (h : r.run s caps = [(m, rest, caps₁)]) :
    (Regex.group n r).run s caps = [(m, rest, Function.update caps₁ n m)] := by
  simp [Regex.run, h]

theorem run_wkday (w : List Char) (hw : w ∈ wkdayNames) (rest : List Char) (caps : Captures) :
    wkday.run (w ++ rest) caps = [(w, rest, caps)] := by
  simp only [wkdayNames, List.mem_cons, List.mem_singleton, List.not_mem_nil, or_false] at hw
  rcases hw with rfl | rfl | rfl | rfl | rfl | rfl | rfl <;> rfl

theorem run_weekday (w : List Char) (hw : w ∈ weekdayNames) (rest : List Char) (caps : Captures) :
    weekday.run (w ++ rest) caps = [(w, rest, caps)] := by
  simp only [weekdayNames, List.mem_cons, List.mem_singleton, List.not_mem_nil, or_false] at hw
  rcases hw with rfl | rfl | rfl | rfl | rfl | rfl | rfl <;>
    simp [weekday, Regex.oneOf, Regex.lit, Regex.run]

theorem run_month (w : List Char) (hw : w ∈ monthNames) (rest : List Char) (caps : Captures) :
    month.run (w ++ rest) caps = [(w, rest, caps)] := by
  simp only [monthNames, List.mem_cons, List.mem_singleton, List.not_mem_nil, or_false] at hw
  rcases hw with rfl | rfl | rfl | rfl | rfl | rfl | rfl | rfl | rfl | rfl | rfl | rfl <;>
    simp [month, Regex.oneOf, Regex.lit, Regex.run]

theorem run_digits (n : Nat) : ∀ (t : List Char), isDigits n t → ∀ (rest : List Char)
    (caps : Captures), (Regex.rep n .digit).run (t ++ rest) caps = [(t, rest, caps)] := by
  induction n with
  | zero =>
    intro t ht rest caps
    have : t = [] := List.eq_nil_of_length_eq_zero ht.1
    subst this
    rfl
  | succ n ih =>
    intro t ht rest caps
    match t, ht with
    | c :: cs, ⟨hlen, hd⟩ =>
      have hc : isdigit c = true := hd c (List.mem_cons_self _ _)
      have hcs : isDigits n cs := ⟨by simpa using hlen, fun x hx => hd x (List.mem_cons_of_mem _ hx)⟩
      simp [Regex.rep, Regex.run, hc, ih cs hcs rest caps]

theorem regex_match_of_run {r : Regex} {s : List Char} {caps : Captures}
    (h : r.run s (fun _ => []) = [(s, [], caps)]) :
    regex_match r s = some (Function.update caps 0 s) := by
  simp [regex_match, h]

theorem rfc1123_regex_match (wkd dd mon yyyy hh mm ss : List Char)
    (hw : wkd ∈ wkdayNames) (hmon : mon ∈ monthNames) (hdd : isDigits 2 dd)
    (hyyyy : isDigits 4 yyyy) (hhh : isDigits 2 hh) (hmm : isDigits 2 mm) (hss : isDigits 2 ss) :
    regex_match detail.rfc1123_regex (rfc1123String wkd dd mon yyyy hh mm ss)
      = some (Function.update (capturesOf dd mon yyyy hh mm ss) 0
          (rfc1123String wkd dd mon yyyy hh mm ss)) := by
  have hs : rfc1123String wkd dd mon yyyy hh mm ss
      = wkd ++ ([',', ' '] ++ (dd ++ ([' '] ++ (mon ++ ([' '] ++ (yyyy ++ ([' '] ++ (hh ++ ([':']
        ++ (mm ++ ([':'] ++ (ss ++ ([' '] ++ (['G', 'M', 'T'] ++ [])))))))))))))) := by
    simp [rfc1123String]
  apply regex_match_of_run
  have h := run_seq_single (run_wkday wkd hw _ (fun _ => []))
    (run_seq_single (run_lit [',', ' '] _ _)
    (run_seq_single (run_group_single (n := 1) (run_digits 2 dd hdd _ _))
    (run_seq_single (run_lit [' '] _ _)
    (run_seq_single (run_group_single (n := 2) (run_month mon hmon _ _))
    (run_seq_single (run_lit [' '] _ _)
    (run_seq_single (run_group_single (n := 3) (run_digits 4 yyyy hyyyy _ _))
    (run_seq_single (run_lit [' '] _ _)
    (run_seq_single (run_group_single (n := 4) (run_digits 2 hh hhh _ _))
    (run_seq_single (run_lit [':'] _ _)
    (run_seq_single (run_group_single (n := 5) (run_digits 2 mm hmm _ _))
    (run_seq_single (run_lit [':'] _ _)
    (run_seq_single (run_group_single (n := 6) (run_digits 2 ss hss _ _))
    (run_seq_single (run_lit [' '] _ _)
    (run_seq_single (run_lit ['G', 'M', 'T'] [] _)
      (show Regex.eps.run [] _ = [([], [], _)] from rfl)))))))))))))))
  rw [← hs] at h
  exact h

theorem isdigit_iff (c : Char) : isdigit c = true ↔ 48 ≤ c.toNat ∧ c.toNat ≤ 57 := by
  simp only [isdigit, Bool.and_eq_true, decide_eq_true_eq, Char.le_def]
  rfl

theorem decimalValue_append_singleton (l : List Char) (c : Char) :
    decimalValue (l ++ [c]) = decimalValue l * 10 + (c.toNat - 48) := by
  simp [decimalValue, List.foldl_append]

theorem keepsSmall_unsigned_short : KeepsSmall to_unsigned_short := by
  intro x h1 h2
  unfold to_unsigned_short
  omega

theorem keepsSmall_int32 : KeepsSmall to_int32 := by
  intro x h1 h2
  unfold to_int32
  omega

theorem from_decimal_string_loop_eq (target : Int → Int) (ht : KeepsSmall target) :
    ∀ (cs : List Char) (k : Nat) (ret : Int), (∀ c ∈ cs, isdigit c = true) →
      k + cs.length ≤ 4 → 0 ≤ ret → ret < 10 ^ k →
      detail.from_decimal_string_loop target cs ret (10 ^ k)
        = (decimalValue cs.reverse : Int) * 10 ^ k + ret := by
  intro cs
  induction cs with
  | nil => intro k ret _ _ _ _; simp [detail.from_decimal_string_loop, decimalValue]
  | cons c cs ih =>
    intro k ret hd hk h0 hlt
    have hc := (isdigit_iff c).mp (hd c (List.mem_cons_self _ _))
    have hk4 : k + 1 ≤ 4 := by simp at hk; omega
    have hpow : (10 : Int) ^ (k + 1) ≤ 10 ^ 4 := pow_le_pow_right₀ (by norm_num) hk4
    have hpk : (0 : Int) < 10 ^ k := by positivity
    have hval : ((c.toNat : Int) - ('0'.toNat : Int)) = ((c.toNat - 48 : Nat) : Int) := by
      have : '0'.toNat = 48 := rfl
      rw [this]
      omega
    have hv9 : ((c.toNat - 48 : Nat) : Int) ≤ 9 := by omega
    have hv0 : (0 : Int) ≤ ((c.toNat - 48 : Nat) : Int) := by omega
    have hret : ret + ((c.toNat - 48 : Nat) : Int) * 10 ^ k < 10 ^ (k + 1) := by
      rw [pow_succ]
      nlinarith
    have hret0 : 0 ≤ ret + ((c.toNat - 48 : Nat) : Int) * 10 ^ k := by positivity
    rw [detail.from_decimal_string_loop, hval,
      ht _ hret0 (by linarith), ht ((10 : Int) ^ k * 10) (by positivity)
        (by rw [← pow_succ]; linarith),
      ← pow_succ, ih (k + 1) _ (fun x hx => hd x (List.mem_cons_of_mem _ hx))
        (by simp at hk ⊢; omega) hret0 hret]
    rw [List.reverse_cons, decimalValue_append_singleton]
    push_cast
    ring

/-- On a run of at most four digits the decoder returns the number the run
denotes, for both integer types. -/
theorem from_decimal_string_eq (target : Int → Int) (ht : KeepsSmall target) (run : List Char)
    (hd : ∀ c ∈ run, isdigit c = true) (hlen : run.length ≤ 4) :
    detail.from_decimal_string target run = (decimalValue run : Int) := by
  have := from_decimal_string_loop_eq target ht run.reverse 0 0
    (fun c hc => hd c (List.mem_reverse.mp hc)) (by simpa using hlen) (le_refl _) (by norm_num)
  simpa [detail.from_decimal_string] using this

theorem decimalValue_lt (run : List Char) (hd : ∀ c ∈ run, isdigit c = true) :
    decimalValue run < 10 ^ run.length := by
  induction run using List.reverseRecOn with
  | nil => simp [decimalValue]
  | append_singleton l c ih =>
    have hc := (isdigit_iff c).mp (hd c (by simp))
    have := ih (fun x hx => hd x (by simp [hx]))
    rw [decimalValue_append_singleton, List.length_append, List.length_singleton, pow_succ]
    omega

theorem run_sound : ∀ (r : Regex) (s : List Char) (caps : Captures)
    (x : List Char × List Char × Captures), x ∈ r.run s caps →
      s = x.1 ++ x.2.1 ∧ r.minLen ≤ x.1.length ∧ x.1.length ≤ r.maxLen := by
  intro r
  induction r with
  | eps =>
    intro s caps x hx
    simp only [Regex.run, List.mem_singleton] at hx
    subst hx
    simp [Regex.minLen, Regex.maxLen]
  | chr c =>
    intro s caps x hx
    cases s with
    | nil => simp [Regex.run] at hx
    | cons a as =>
      simp only [Regex.run] at hx
      split_ifs at hx with h
      · simp only [List.mem_singleton] at hx
        subst hx
        simp [Regex.minLen, Regex.maxLen]
      · simp at hx
  | digit =>
    intro s caps x hx
    cases s with
    | nil => simp [Regex.run] at hx
    | cons a as =>
      simp only [Regex.run] at hx
      split_ifs at hx with h
      · simp only [List.mem_singleton] at hx
        subst hx
        simp [Regex.minLen, Regex.maxLen]
      · simp at hx
  | seq r₁ r₂ ih₁ ih₂ =>
    intro s caps x hx
    simp only [Regex.run, List.mem_flatMap, List.mem_map] at hx
    obtain ⟨a, ha, b, hb, rfl⟩ := hx
    obtain ⟨h1, h2, h3⟩ := ih₁ s caps a ha
    obtain ⟨h4, h5, h6⟩ := ih₂ _ _ b hb
    refine ⟨?_, ?_, ?_⟩
    · simp only [List.append_assoc]
      rw [← h4]
      exact h1
    · simp only [Regex.minLen, List.length_append]; omega
    · simp only [Regex.maxLen, List.length_append]; omega
  | alt r₁ r₂ ih₁ ih₂ =>
    intro s caps x hx
    simp only [Regex.run, List.mem_append] at hx
    rcases hx with hx | hx
    · obtain ⟨h1, h2, h3⟩ := ih₁ s caps x hx
      exact ⟨h1, by simp only [Regex.minLen]; omega, by simp only [Regex.maxLen]; omega⟩
    · obtain ⟨h1, h2, h3⟩ := ih₂ s caps x hx
      exact ⟨h1, by simp only [Regex.minLen]; omega, by simp only [Regex.maxLen]; omega⟩
  | group n r ih =>
    intro s caps x hx
    simp only [Regex.run, List.mem_map] at hx
    obtain ⟨a, ha, rfl⟩ := hx
    exact ih s caps a ha

theorem regex_match_length {r : Regex} {s : List Char} {caps : Captures}
    (h : regex_match r s = some caps) : r.minLen ≤ s.length ∧ s.length ≤ r.maxLen := by
  simp only [regex_match, Option.map_eq_some'] at h
  obtain ⟨x, hx, _⟩ := h
  have hmem := List.mem_of_find?_eq_some hx
  have hrest := List.find?_some hx
  obtain ⟨h1, h2, h3⟩ := run_sound r s _ x hmem
  have : x.2.1 = [] := by simpa using hrest
  rw [this, List.append_nil] at h1
  rw [h1]
  exact ⟨h2, h3⟩

theorem regex_match_eq_none {r : Regex} {s : List Char}
    (h : s.length < r.minLen ∨ r.maxLen < s.length) : regex_match r s = none := by
  cases hm : regex_match r s with
  | none => rfl
  | some caps =>
    have := regex_match_length hm
    omega

theorem rfc1123_regex_len : detail.rfc1123_regex.minLen = 29 ∧ detail.rfc1123_regex.maxLen = 29 := by
  constructor <;> rfl

theorem rfc1036_regex_len : detail.rfc1036_regex.minLen = 30 ∧ detail.rfc1036_regex.maxLen = 33 := by
  constructor <;> rfl

theorem asctime_regex_len : detail.asctime_regex.minLen = 24 ∧ detail.asctime_regex.maxLen = 24 := by
  constructor <;> rfl

theorem monthName_mem {m : Nat} (h1 : 1 ≤ m) (h2 : m ≤ 12) : monthName m ∈ monthNames := by
  interval_cases m <;> simp [monthName, monthNames]

theorem from_submatch_to_month_monthName {m : Nat} (h1 : 1 ≤ m) (h2 : m ≤ 12) :
    detail.from_submatch_to_month (monthName m) = some (m : Int) := by
  interval_cases m <;> rfl

theorem captures_apply (g1 g2 g3 g4 g5 g6 w : List Char) :
    Function.update (capturesOf g1 g2 g3 g4 g5 g6) 0 w 1 = g1 ∧
    Function.update (capturesOf g1 g2 g3 g4 g5 g6) 0 w 2 = g2 ∧
    Function.update (capturesOf g1 g2 g3 g4 g5 g6) 0 w 3 = g3 ∧
    Function.update (capturesOf g1 g2 g3 g4 g5 g6) 0 w 4 = g4 ∧
    Function.update (capturesOf g1 g2 g3 g4 g5 g6) 0 w 5 = g5 ∧
    Function.update (capturesOf g1 g2 g3 g4 g5 g6) 0 w 6 = g6 := by
  simp [capturesOf, Function.update_apply]

theorem decode_small (run : List Char) (n : Nat) (h : isDigits n run) (hn : n ≤ 4) :
    detail.from_decimal_submatch to_int32 run = (decimalValue run : Int) ∧
    detail.from_decimal_submatch to_unsigned_short run = (decimalValue run : Int) := by
  have hl : run.length ≤ 4 := by rw [h.1]; exact hn
  exact ⟨from_decimal_string_eq _ keepsSmall_int32 run h.2 hl,
    from_decimal_string_eq _ keepsSmall_unsigned_short run h.2 hl⟩

theorem date_make_natCast (Y m D : Nat) :
    date.make Y m D
      = if 1400 ≤ Y ∧ Y ≤ 9999 ∧ 1 ≤ m ∧ m ≤ 12 ∧ 1 ≤ D ∧ D ≤ 31 ∧ D ≤ end_of_month_day Y m
        then some ⟨Y, m, D⟩ else none := by
  unfold date.make
  simp only [Int.toNat_ofNat]
  norm_cast

theorem date_make_of_isSome {Y m D : Nat} (h : (date.make Y m D).isSome = true) :
    date.make Y m D = some ⟨Y, m, D⟩ := by
  rw [date_make_natCast] at h ⊢
  split_ifs at h ⊢ with hc
  · rfl
  · simp at h

theorem time_duration_make_natCast (H Mi S : Nat) :
    time_duration.make H Mi S = ⟨((H * 3600 + Mi * 60 + S : Nat) : Int)⟩ := by
  unfold time_duration.make
  have h : ¬ ((H : Int) < 0 ∨ (Mi : Int) < 0 ∨ (S : Int) < 0) := by omega
  rw [if_neg h]
  push_cast
  rfl

theorem build_eq (dt : ptime) (H Mi S Y m D : Nat) (hH : H ≤ 23) (hMi : Mi ≤ 59) (hS : S ≤ 60)
    (hd : (date.make Y m D).isSome = true) :
    detail.build dt H Mi S Y (some (m : Int)) D
      = some (true, ptime.make ⟨Y, m, D⟩ (time_duration.make H Mi S)) := by
  unfold detail.build
  have h : ¬ ((H : Int) > 23 ∨ (Mi : Int) > 59 ∨ (S : Int) > 60) := by omega
  rw [if_neg h]
  simp only [date_make_of_isSome hd]

theorem ptime_make_within_day (d : date) (H Mi S : Nat) (hH : H ≤ 23) (hMi : Mi ≤ 59)
    (hS : S ≤ 59) :
    ptime.make d (time_duration.make H Mi S) = timestamp d.year d.month d.day H Mi S ∧
    (time_duration.mk ((H * 3600 + Mi * 60 + S : Nat) : Int)).hours = H ∧
    (time_duration.mk ((H * 3600 + Mi * 60 + S : Nat) : Int)).minutes = Mi ∧
    (time_duration.mk ((H * 3600 + Mi * 60 + S : Nat) : Int)).seconds = S := by
  refine ⟨?_, ?_, ?_, ?_⟩
  · rw [time_duration_make_natCast, ptime.make, timestamp]
    have h1 : ((H * 3600 + Mi * 60 + S : Nat) : Int) / 86400 = 0 := by omega
    have h2 : ((H * 3600 + Mi * 60 + S : Nat) : Int) % 86400
        = (H : Int) * 3600 + (Mi : Int) * 60 + (S : Int) := by omega
    simp only [h1, h2, date.addDays, le_refl, if_true, Int.toNat_zero, Function.iterate_zero,
      id_eq]
  · simp only [time_duration.hours]; omega
  · simp only [time_duration.minutes]; omega
  · simp only [time_duration.seconds]; omega

theorem time_duration_make_leap (H Mi : Nat) :
    time_duration.make H Mi 60 = time_duration.make H ((Mi + 1 : Nat) : Int) 0 := by
  unfold time_duration.make
  have h1 : ¬ ((H : Int) < 0 ∨ (Mi : Int) < 0 ∨ (60 : Int) < 0) := by omega
  have h2 : ¬ ((H : Int) < 0 ∨ ((Mi + 1 : Nat) : Int) < 0 ∨ (0 : Int) < 0) := by omega
  rw [if_neg h1, if_neg h2]
  have h3 : (H : Int) * 3600 + (Mi : Int) * 60 + 60
      = (H : Int) * 3600 + ((Mi + 1 : Nat) : Int) * 60 + 0 := by
    push_cast
    ring
  rw [h3]

theorem rfc1036_regex_match (wkd dd mon yy hh mm ss : List Char)
    (hw : wkd ∈ weekdayNames) (hmon : mon ∈ monthNames) (hdd : isDigits 2 dd)
    (hyy : isDigits 2 yy) (hhh : isDigits 2 hh) (hmm : isDigits 2 mm) (hss : isDigits 2 ss) :
    regex_match detail.rfc1036_regex (rfc1036String wkd dd mon yy hh mm ss)
      = some (Function.update (capturesOf dd mon yy hh mm ss) 0
          (rfc1036String wkd dd mon yy hh mm ss)) := by
  have hs : rfc1036String wkd dd mon yy hh mm ss
      = wkd ++ ([',', ' '] ++ (dd ++ (['-'] ++ (mon ++ (['-'] ++ (yy ++ ([' '] ++ (hh ++ ([':']
        ++ (mm ++ ([':'] ++ (ss ++ ([' '] ++ (['G', 'M', 'T'] ++ [])))))))))))))) := by
    simp [rfc1036String]
  apply regex_match_of_run
  have h := run_seq_single (run_weekday wkd hw _ (fun _ => []))
    (run_seq_single (run_lit [',', ' '] _ _)
    (run_seq_single (run_group_single (n := 1) (run_digits 2 dd hdd _ _))
    (run_seq_single (run_lit ['-'] _ _)
    (run_seq_single (run_group_single (n := 2) (run_month mon hmon _ _))
    (run_seq_single (run_lit ['-'] _ _)
    (run_seq_single (run_group_single (n := 3) (run_digits 2 yy hyy _ _))
    (run_seq_single (run_lit [' '] _ _)
    (run_seq_single (run_group_single (n := 4) (run_digits 2 hh hhh _ _))
    (run_seq_single (run_lit [':'] _ _)
    (run_seq_single (run_group_single (n := 5) (run_digits 2 mm hmm _ _))
    (run_seq_single (run_lit [':'] _ _)
    (run_seq_single (run_group_single (n := 6) (run_digits 2 ss hss _ _))
    (run_seq_single (run_lit [' '] _ _)
    (run_seq_single (run_lit ['G', 'M', 'T'] [] _)
      (show Regex.eps.run [] _ = [([], [], _)] from rfl)))))))))))))))
  rw [← hs] at h
  exact h

/-- The day field of the asctime pattern on a space and a digit, and on two
digits. -/
theorem run_day_field (day : List Char)
    (hday : (∃ d, day = [' ', d] ∧ isdigit d = true) ∨ isDigits 2 day)
    (rest : List Char) (caps : Captures) :
    (Regex.seq (.alt .digit (.chr ' ')) .digit).run (day ++ rest) caps = [(day, rest, caps)] := by
  rcases hday with ⟨d, rfl, hd⟩ | ⟨hlen, hd⟩
  · have h0 : isdigit ' ' = false := by decide
    simp [Regex.run, h0, hd]
  · match day, hlen with
    | [a, b], _ =>
      have ha : isdigit a = true := hd a (by simp)
      have hb : isdigit b = true := hd b (by simp)
      have hne : a ≠ ' ' := by
        rintro rfl
        exact absurd ha (by decide)
      simp [Regex.run, ha, hb, hne]

theorem asctime_regex_match (wkd mon day hh mm ss yyyy : List Char)
    (hw : wkd ∈ wkdayNames) (hmon : mon ∈ monthNames)
    (hday : (∃ d, day = [' ', d] ∧ isdigit d = true) ∨ isDigits 2 day)
    (hhh : isDigits 2 hh) (hmm : isDigits 2 mm) (hss : isDigits 2 ss) (hyyyy : isDigits 4 yyyy) :
    regex_match detail.asctime_regex (asctimeString wkd mon day hh mm ss yyyy)
      = some (Function.update (capturesOf mon day hh mm ss yyyy) 0
          (asctimeString wkd mon day hh mm ss yyyy)) := by
  have hs : asctimeString wkd mon day hh mm ss yyyy
      = wkd ++ ([' '] ++ (mon ++ ([' '] ++ (day ++ ([' '] ++ (hh ++ ([':']
        ++ (mm ++ ([':'] ++ (ss ++ ([' '] ++ (yyyy ++ [])))))))))))) := by
    simp [asctimeString]
  apply regex_match_of_run
  have h := run_seq_single (run_wkday wkd hw _ (fun _ => []))
    (run_seq_single (run_lit [' '] _ _)
    (run_seq_single (run_group_single (n := 1) (run_month mon hmon _ _))
    (run_seq_single (run_lit [' '] _ _)
    (run_seq_single (run_group_single (n := 2) (run_day_field day hday _ _))
    (run_seq_single (run_lit [' '] _ _)
    (run_seq_single (run_group_single (n := 3) (run_digits 2 hh hhh _ _))
    (run_seq_single (run_lit [':'] _ _)
    (run_seq_single (run_group_single (n := 4) (run_digits 2 mm hmm _ _))
    (run_seq_single (run_lit [':'] _ _)
    (run_seq_single (run_group_single (n := 5) (run_digits 2 ss hss _ _))
    (run_seq_single (run_lit [' '] _ _)
    (run_seq_single (run_group_single (n := 6) (run_digits 4 yyyy hyyyy _ _))
      (show Regex.eps.run [] _ = [([], [], _)] from rfl)))))))))))))
  rw [← hs] at h
  exact h

theorem length_of_mem_wkdayNames {w : List Char} (h : w ∈ wkdayNames) : w.length = 3 := by
  simp only [wkdayNames, List.mem_cons, List.mem_singleton, List.not_mem_nil, or_false] at h
  rcases h with rfl | rfl | rfl | rfl | rfl | rfl | rfl <;> rfl

theorem length_of_mem_weekdayNames {w : List Char} (h : w ∈ weekdayNames) :
    6 ≤ w.length ∧ w.length ≤ 9 := by
  simp only [weekdayNames, List.mem_cons, List.mem_singleton, List.not_mem_nil, or_false] at h
  rcases h with rfl | rfl | rfl | rfl | rfl | rfl | rfl <;> simp

theorem length_of_mem_monthNames {w : List Char} (h : w ∈ monthNames) : w.length = 3 := by
  simp only [monthNames, List.mem_cons, List.mem_singleton, List.not_mem_nil, or_false] at h
  rcases h with rfl | rfl | rfl | rfl | rfl | rfl | rfl | rfl | rfl | rfl | rfl | rfl <;> rfl

theorem rfc1123_of_no_match {value : List Char} (dt : ptime)
    (h : regex_match detail.rfc1123_regex value = none) :
    detail.rfc1123 value dt = some (false, dt) := by
  simp [detail.rfc1123, h]

theorem rfc1036_of_no_match {value : List Char} (dt : ptime)
    (h : regex_match detail.rfc1036_regex value = none) :
    detail.rfc1036 value dt = some (false, dt) := by
  simp [detail.rfc1036, h]

theorem asctime_of_no_match {value : List Char} (dt : ptime)
    (h : regex_match detail.asctime_regex value = none) :
    detail.asctime value dt = some (false, dt) := by
  simp [detail.asctime, h]

theorem rfc1123_eq_build (wkd dd yyyy hh mm ss : List Char) (m : Nat) (dt : ptime)
    (hw : wkd ∈ wkdayNames) (hm1 : 1 ≤ m) (hm2 : m ≤ 12) (hdd : isDigits 2 dd)
    (hyyyy : isDigits 4 yyyy) (hhh : isDigits 2 hh) (hmm : isDigits 2 mm) (hss : isDigits 2 ss) :
    detail.rfc1123 (rfc1123String wkd dd (monthName m) yyyy hh mm ss) dt
      = detail.build dt (decimalValue hh) (decimalValue mm) (decimalValue ss)
          (decimalValue yyyy) (some (m : Int)) (decimalValue dd) := by
  obtain ⟨c1, c2, c3, c4, c5, c6⟩ := captures_apply dd (monthName m) yyyy hh mm ss
    (rfc1123String wkd dd (monthName m) yyyy hh mm ss)
  rw [detail.rfc1123, rfc1123_regex_match wkd dd _ yyyy hh mm ss hw (monthName_mem hm1 hm2)
    hdd hyyyy hhh hmm hss]
  simp only [c1, c2, c3, c4, c5, c6, from_submatch_to_month_monthName hm1 hm2,
    (decode_small hh 2 hhh (by norm_num)).1, (decode_small mm 2 hmm (by norm_num)).1,
    (decode_small ss 2 hss (by norm_num)).1, (decode_small yyyy 4 hyyyy (by norm_num)).2,
    (decode_small dd 2 hdd (by norm_num)).2]

theorem rfc1036_eq_build (wkd dd yy hh mm ss : List Char) (m : Nat) (dt : ptime)
    (hw : wkd ∈ weekdayNames) (hm1 : 1 ≤ m) (hm2 : m ≤ 12) (hdd : isDigits 2 dd)
    (hyy : isDigits 2 yy) (hhh : isDigits 2 hh) (hmm : isDigits 2 mm) (hss : isDigits 2 ss) :
    detail.rfc1036 (rfc1036String wkd dd (monthName m) yy hh mm ss) dt
      = detail.build dt (decimalValue hh) (decimalValue mm) (decimalValue ss)
          ((1900 + decimalValue yy : Nat) : Int) (some (m : Int)) (decimalValue dd) := by
  obtain ⟨c1, c2, c3, c4, c5, c6⟩ := captures_apply dd (monthName m) yy hh mm ss
    (rfc1036String wkd dd (monthName m) yy hh mm ss)
  have hy : to_unsigned_short ((decimalValue yy : Int) + 1900)
      = ((1900 + decimalValue yy : Nat) : Int) := by
    have := decimalValue_lt yy hyy.2
    rw [hyy.1] at this
    rw [keepsSmall_unsigned_short _ (by omega) (by omega)]
    push_cast
    ring
  rw [detail.rfc1036, rfc1036_regex_match wkd dd _ yy hh mm ss hw (monthName_mem hm1 hm2)
    hdd hyy hhh hmm hss]
  simp only [c1, c2, c3, c4, c5, c6, from_submatch_to_month_monthName hm1 hm2,
    (decode_small hh 2 hhh (by norm_num)).1, (decode_small mm 2 hmm (by norm_num)).1,
    (decode_small ss 2 hss (by norm_num)).1, (decode_small yy 2 hyy (by norm_num)).2,
    (decode_small dd 2 hdd (by norm_num)).2, hy]

theorem decimalValue_pair_zero (d : Char) : decimalValue ['0', d] = decimalValue [d] := by
  simp [decimalValue]

theorem asctime_eq_build (wkd day hh mm ss yyyy : List Char) (m : Nat) (d : Char) (dt : ptime)
    (hw : wkd ∈ wkdayNames) (hm1 : 1 ≤ m) (hm2 : m ≤ 12)
    (hday : day = [' ', d] ∨ day = ['0', d]) (hd : isdigit d = true)
    (hhh : isDigits 2 hh) (hmm : isDigits 2 mm) (hss : isDigits 2 ss) (hyyyy : isDigits 4 yyyy) :
    detail.asctime (asctimeString wkd (monthName m) day hh mm ss yyyy) dt
      = detail.build dt (decimalValue hh) (decimalValue mm) (decimalValue ss)
          (decimalValue yyyy) (some (m : Int)) (decimalValue [d]) := by
  obtain ⟨c1, c2, c3, c4, c5, c6⟩ := captures_apply (monthName m) day hh mm ss yyyy
    (asctimeString wkd (monthName m) day hh mm ss yyyy)
  have hd1 : isDigits 1 [d] := ⟨rfl, by simpa using hd⟩
  have hfield : (∃ d, day = [' ', d] ∧ isdigit d = true) ∨ isDigits 2 day := by
    rcases hday with rfl | rfl
    · exact Or.inl ⟨d, rfl, hd⟩
    · refine Or.inr ⟨rfl, ?_⟩
      intro c hc
      simp only [List.mem_cons, List.mem_singleton, List.not_mem_nil, or_false] at hc
      rcases hc with rfl | rfl
      · decide
      · exact hd
  have hdec : detail.from_decimal_submatch to_unsigned_short
      (if day.head? = some ' ' then day.tail else day) = (decimalValue [d] : Int) := by
    rcases hday with rfl | rfl
    · simp only [List.head?_cons, if_true, List.tail_cons]
      exact (decode_small [d] 1 hd1 (by norm_num)).2
    · have hne : ¬ (some '0' = some ' ') := by decide
      simp only [List.head?_cons, hne, if_false]
      rw [← decimalValue_pair_zero]
      refine (decode_small ['0', d] 2 ⟨rfl, ?_⟩ (by norm_num)).2
      intro c hc
      simp only [List.mem_cons, List.mem_singleton, List.not_mem_nil, or_false] at hc
      rcases hc with rfl | rfl
      · decide
      · exact hd
  rw [detail.asctime, asctime_regex_match wkd _ day hh mm ss yyyy hw (monthName_mem hm1 hm2)
    hfield hhh hmm hss hyyyy]
  simp only [c1, c2, c3, c4, c5, c6, from_submatch_to_month_monthName hm1 hm2,
    (decode_small hh 2 hhh (by norm_num)).1, (decode_small mm 2 hmm (by norm_num)).1,
    (decode_small ss 2 hss (by norm_num)).1, (decode_small yyyy 4 hyyyy (by norm_num)).2, hdec]

theorem header_to_ptime_of_rfc1123 {value : List Char} {t : ptime}
    (h : detail.rfc1123 value ptime.not_a_date_time = some (true, t)) :
    header_to_ptime value = some t := by
  simp [header_to_ptime, h]

theorem header_to_ptime_of_rfc1036 {value : List Char} {t : ptime}
    (h1 : regex_match detail.rfc1123_regex value = none)
    (h : detail.rfc1036 value ptime.not_a_date_time = some (true, t)) :
    header_to_ptime value = some t := by
  simp [header_to_ptime, rfc1123_of_no_match _ h1, h]

theorem header_to_ptime_of_asctime {value : List Char} {b : Bool} {t : ptime}
    (h1 : regex_match detail.rfc1123_regex value = none)
    (h2 : regex_match detail.rfc1036_regex value = none)
    (h : detail.asctime value ptime.not_a_date_time = some (b, t)) :
    header_to_ptime value = some t := by
  simp [header_to_ptime, rfc1123_of_no_match _ h1, rfc1036_of_no_match _ h2, h]

theorem length_rfc1036String (wkd dd mon yy hh mm ss : List Char) (hmon : mon.length = 3)
    (hdd : isDigits 2 dd) (hyy : isDigits 2 yy) (hhh : isDigits 2 hh) (hmm : isDigits 2 mm)
    (hss : isDigits 2 ss) :
    (rfc1036String wkd dd mon yy hh mm ss).length = wkd.length + 24 := by
  simp only [rfc1036String, List.length_append, List.length_cons, List.length_nil, hmon, hdd.1,
    hyy.1, hhh.1, hmm.1, hss.1]

theorem length_asctimeString (wkd mon day hh mm ss yyyy : List Char) (hw : wkd.length = 3)
    (hmon : mon.length = 3) (hhh : isDigits 2 hh) (hmm : isDigits 2 mm)
    (hss : isDigits 2 ss) (hyyyy : isDigits 4 yyyy) :
    (asctimeString wkd mon day hh mm ss yyyy).length = day.length + 22 := by
  simp only [asctimeString, List.length_append, List.length_cons, List.length_nil, hw, hmon,
    hhh.1, hmm.1, hss.1, hyyyy.1]
  omega

/-- A time of day below 24 hours is stored as it is: the timestamp built has
the date given and the hour, minute and second given. -/
theorem ptime_make_fields (d : date) (H Mi S : Nat) (hH : H ≤ 23) (hMi : Mi ≤ 59) (hS : S ≤ 59) :
    ∃ td, ptime.make d (time_duration.make H Mi S) = ptime.time d td ∧
      td.hours = H ∧ td.minutes = Mi ∧ td.seconds = S := by
  obtain ⟨h1, h2, h3, h4⟩ := ptime_make_within_day d H Mi S hH hMi hS
  refine ⟨⟨((H * 3600 + Mi * 60 + S : Nat) : Int)⟩, ?_, h2, h3, h4⟩
  rw [h1, timestamp]
  push_cast
  rfl

theorem end_of_month_day_ge (y m : Nat) : 28 ≤ end_of_month_day y m := by
  unfold end_of_month_day
  split_ifs <;> omega

theorem decimalValue_singleton_le (d : Char) (hd : isdigit d = true) : decimalValue [d] ≤ 9 := by
  have := decimalValue_lt [d] (by simpa using hd)
  simp only [List.length_singleton, pow_one] at this
  omega

/-! ### The claims on `header_to_ptime` -/

set_option maxRecDepth 100000 in
/-- C6 fails as it is stated: `Sun, 31 Feb 1994 08:49:37 GMT` has the RFC 1123
shape with DD = 31, yet the result is the sentinel; and with SS = 60 the
timestamp does not have the second 60 but is the start of the next minute. -/
theorem header_to_ptime_rfc1123_counterexample :
    header_to_ptime "Sun, 31 Feb 1994 08:49:37 GMT".toList = some ptime.not_a_date_time ∧
    header_to_ptime "Sun, 06 Nov 1994 08:49:60 GMT".toList
      = some (timestamp 1994 11 6 8 50 0) := by
  decide

/-- C6 as amended: for every string of the RFC 1123 shape whose year, month and
day form a date the calendar type accepts, with HH at most 23, MM at most 59
and SS at most 60, `header_to_ptime` succeeds with the timestamp HH:MM:SS
after midnight of that date.  For SS at most 59 it has exactly the encoded
year, month, day, hour, minute and second; for SS = 60 it is the start of the
minute after HH:MM. -/
theorem header_to_ptime_rfc1123_accepted (wkd dd yyyy hh mm ss : List Char) (m : Nat)
    (hw : wkd ∈ wkdayNames) (hm1 : 1 ≤ m) (hm2 : m ≤ 12) (hdd : isDigits 2 dd)
    (hyyyy : isDigits 4 yyyy) (hhh : isDigits 2 hh) (hmm : isDigits 2 mm) (hss : isDigits 2 ss)
    (hdate : (date.make (decimalValue yyyy) m (decimalValue dd)).isSome = true)
    (hH : decimalValue hh ≤ 23) (hMi : decimalValue mm ≤ 59) (hS : decimalValue ss ≤ 60) :
    ∃ t, header_to_ptime (rfc1123String wkd dd (monthName m) yyyy hh mm ss) = some t ∧
      t.is_not_a_date_time = false ∧
      t = ptime.make ⟨decimalValue yyyy, m, decimalValue dd⟩
        (time_duration.make (decimalValue hh) (decimalValue mm) (decimalValue ss)) ∧
      (decimalValue ss ≤ 59 → ∃ td,
        t = ptime.time ⟨decimalValue yyyy, m, decimalValue dd⟩ td ∧
        td.hours = decimalValue hh ∧ td.minutes = decimalValue mm ∧
        td.seconds = decimalValue ss) ∧
      (decimalValue ss = 60 →
        t = ptime.make ⟨decimalValue yyyy, m, decimalValue dd⟩
          (time_duration.make (decimalValue hh) ((decimalValue mm + 1 : Nat) : Int) 0)) := by
  have hb := rfc1123_eq_build wkd dd yyyy hh mm ss m ptime.not_a_date_time hw hm1 hm2 hdd hyyyy
    hhh hmm hss
  rw [build_eq _ _ _ _ _ _ _ hH hMi hS hdate] at hb
  refine ⟨_, header_to_ptime_of_rfc1123 hb, rfl, rfl, ?_, ?_⟩
  · intro h59
    exact ptime_make_fields _ _ _ _ hH hMi h59
  · intro h60
    rw [h60]
    exact congrArg _ (time_duration_make_leap _ _)

/-- C6 as amended, at `Sun, 29 Feb 2004 23:59:60 GMT`. -/
theorem header_to_ptime_rfc1123_accepted_witness :
    ∃ t, header_to_ptime "Sun, 29 Feb 2004 23:59:60 GMT".toList = some t ∧
      t.is_not_a_date_time = false ∧ t = timestamp 2004 3 1 0 0 0 := by
  obtain ⟨t, h1, h2, h3, _⟩ := header_to_ptime_rfc1123_accepted ['S', 'u', 'n'] ['2', '9']
    ['2', '0', '0', '4'] ['2', '3'] ['5', '9'] ['6', '0'] 2 (by decide) (by decide) (by decide)
    ⟨rfl, by decide⟩ ⟨rfl, by decide⟩ ⟨rfl, by decide⟩ ⟨rfl, by decide⟩ ⟨rfl, by decide⟩
    (by decide) (by decide) (by decide) (by decide)
  exact ⟨t, h1, h2, h3.trans (by decide)⟩

/-- C7: for every string of the RFC 1123 shape whose year, month and day form
a date the calendar type accepts and whose time has HH at most 23, MM at most
59 and SS at most 59, `header_to_ptime` returns the valid timestamp with the
year as written, the month of the abbreviation, and the day, hour, minute and
second as written. -/
theorem header_to_ptime_rfc1123_valid (wkd dd yyyy hh mm ss : List Char) (m : Nat)
    (hw : wkd ∈ wkdayNames) (hm1 : 1 ≤ m) (hm2 : m ≤ 12) (hdd : isDigits 2 dd)
    (hyyyy : isDigits 4 yyyy) (hhh : isDigits 2 hh) (hmm : isDigits 2 mm) (hss : isDigits 2 ss)
    (hdate : (date.make (decimalValue yyyy) m (decimalValue dd)).isSome = true)
    (hH : decimalValue hh ≤ 23) (hMi : decimalValue mm ≤ 59) (hS : decimalValue ss ≤ 59) :
    ∃ td, header_to_ptime (rfc1123String wkd dd (monthName m) yyyy hh mm ss)
        = some (ptime.time ⟨decimalValue yyyy, m, decimalValue dd⟩ td) ∧
      (ptime.time ⟨decimalValue yyyy, m, decimalValue dd⟩ td).is_not_a_date_time = false ∧
      td.hours = decimalValue hh ∧ td.minutes = decimalValue mm ∧
      td.seconds = decimalValue ss := by
  have hb := rfc1123_eq_build wkd dd yyyy hh mm ss m ptime.not_a_date_time hw hm1 hm2 hdd hyyyy
    hhh hmm hss
  rw [build_eq _ _ _ _ _ _ _ hH hMi (by omega) hdate] at hb
  obtain ⟨td, h1, h2, h3, h4⟩ := ptime_make_fields ⟨decimalValue yyyy, m, decimalValue dd⟩
    _ _ _ hH hMi hS
  rw [h1] at hb
  exact ⟨td, header_to_ptime_of_rfc1123 hb, rfl, h2, h3, h4⟩

/-- C7 at `Sun, 06 Nov 1994 08:49:37 GMT`, which gives 1994-11-06 08:49:37. -/
theorem header_to_ptime_rfc1123_valid_witness :
    ∃ td, header_to_ptime "Sun, 06 Nov 1994 08:49:37 GMT".toList
        = some (ptime.time ⟨1994, 11, 6⟩ td) ∧
      (ptime.time ⟨1994, 11, 6⟩ td).is_not_a_date_time = false ∧
      td.hours = 8 ∧ td.minutes = 49 ∧ td.seconds = 37 :=
  header_to_ptime_rfc1123_valid ['S', 'u', 'n'] ['0', '6'] ['1', '9', '9', '4'] ['0', '8']
    ['4', '9'] ['3', '7'] 11 (by decide) (by decide) (by decide)
    ⟨rfl, by decide⟩ ⟨rfl, by decide⟩ ⟨rfl, by decide⟩ ⟨rfl, by decide⟩ ⟨rfl, by decide⟩
    (by decide) (by decide) (by decide) (by decide)

set_option maxRecDepth 100000 in
/-- C8 fails as it is stated: `Sunday, 31-Dec-99 23:59:60 GMT` has the RFC 1036
shape, a valid day and a time that passes the range check, yet the year of the
result is 2000, not 1999, and its second is 0, not 60. -/
theorem header_to_ptime_rfc1036_counterexample :
    header_to_ptime "Sunday, 31-Dec-99 23:59:60 GMT".toList
      = some (timestamp 2000 1 1 0 0 0) := by
  decide

/-- C8 as amended: for every string of the RFC 1036 shape with a day valid for
the month in the year 1900 + YY and with HH at most 23, MM at most 59 and SS at
most 60, `header_to_ptime` returns the valid timestamp HH:MM:SS after midnight
of the date with year 1900 + YY, a year from 1900 to 1999.  For SS at most 59
the year of the timestamp is exactly 1900 + YY and its month, day, hour,
minute and second are the encoded ones. -/
theorem header_to_ptime_rfc1036_valid (wkd dd yy hh mm ss : List Char) (m : Nat)
    (hw : wkd ∈ weekdayNames) (hm1 : 1 ≤ m) (hm2 : m ≤ 12) (hdd : isDigits 2 dd)
    (hyy : isDigits 2 yy) (hhh : isDigits 2 hh) (hmm : isDigits 2 mm) (hss : isDigits 2 ss)
    (hdate : (date.make ((1900 + decimalValue yy : Nat) : Int) m (decimalValue dd)).isSome = true)
    (hH : decimalValue hh ≤ 23) (hMi : decimalValue mm ≤ 59) (hS : decimalValue ss ≤ 60) :
    ∃ t, header_to_ptime (rfc1036String wkd dd (monthName m) yy hh mm ss) = some t ∧
      t.is_not_a_date_time = false ∧
      t = ptime.make ⟨1900 + decimalValue yy, m, decimalValue dd⟩
        (time_duration.make (decimalValue hh) (decimalValue mm) (decimalValue ss)) ∧
      1900 ≤ 1900 + decimalValue yy ∧ 1900 + decimalValue yy ≤ 1999 ∧
      (decimalValue ss ≤ 59 → ∃ td,
        t = ptime.time ⟨1900 + decimalValue yy, m, decimalValue dd⟩ td ∧
        td.hours = decimalValue hh ∧ td.minutes = decimalValue mm ∧
        td.seconds = decimalValue ss) := by
  have hlen := length_rfc1036String wkd dd (monthName m) yy hh mm ss
    (length_of_mem_monthNames (monthName_mem hm1 hm2)) hdd hyy hhh hmm hss
  have hwl := length_of_mem_weekdayNames hw
  have h1123 : regex_match detail.rfc1123_regex (rfc1036String wkd dd (monthName m) yy hh mm ss)
      = none := by
    apply regex_match_eq_none
    rw [rfc1123_regex_len.2, hlen]
    omega
  have hb := rfc1036_eq_build wkd dd yy hh mm ss m ptime.not_a_date_time hw hm1 hm2 hdd hyy
    hhh hmm hss
  rw [build_eq _ _ _ _ _ _ _ hH hMi hS hdate] at hb
  have hyy99 := decimalValue_lt yy hyy.2
  rw [hyy.1] at hyy99
  refine ⟨_, header_to_ptime_of_rfc1036 h1123 hb, rfl, rfl, by omega, by omega, ?_⟩
  intro h59
  exact ptime_make_fields _ _ _ _ hH hMi h59

/-- C8 as amended, at `Sunday, 06-Nov-94 08:49:37 GMT`, which gives
1994-11-06 08:49:37. -/
theorem header_to_ptime_rfc1036_valid_witness :
    header_to_ptime "Sunday, 06-Nov-94 08:49:37 GMT".toList
      = some (timestamp 1994 11 6 8 49 37) := by
  obtain ⟨t, h1, _, h3, _⟩ := header_to_ptime_rfc1036_valid ['S', 'u', 'n', 'd', 'a', 'y']
    ['0', '6'] ['9', '4'] ['0', '8'] ['4', '9'] ['3', '7'] 11 (by decide) (by decide) (by decide)
    ⟨rfl, by decide⟩ ⟨rfl, by decide⟩ ⟨rfl, by decide⟩ ⟨rfl, by decide⟩ ⟨rfl, by decide⟩
    (by decide) (by decide) (by decide) (by decide)
  exact h1.trans (congrArg some (h3.trans (by decide)))

set_option maxRecDepth 100000 in
/-- C9 fails as it is stated: `Sun Nov  6 23:59:60 1994` has the asctime shape
with the day field a space and the digit 6, a supported year and a time that
passes the range check, yet the day of the result is 7. -/
theorem header_to_ptime_asctime_counterexample :
    header_to_ptime "Sun Nov  6 23:59:60 1994".toList = some (timestamp 1994 11 7 0 0 0) := by
  decide

/-- C9 as amended: for every string of the asctime shape whose day field is one
space followed by a digit `d` from 1 to 9, with a supported year and with HH at
most 23, MM at most 59 and SS at most 60, `header_to_ptime` decodes the day
without the space and returns the valid timestamp HH:MM:SS after midnight of
day `d`, the same as for the day field written `0d`.  For SS at most 59 the
day of the timestamp is `d` and its year, month, hour, minute and second are
the encoded ones. -/
theorem header_to_ptime_asctime_padded (wkd hh mm ss yyyy : List Char) (m : Nat) (d : Char)
    (hw : wkd ∈ wkdayNames) (hm1 : 1 ≤ m) (hm2 : m ≤ 12)
    (hd : isdigit d = true) (hd1 : 1 ≤ decimalValue [d])
    (hhh : isDigits 2 hh) (hmm : isDigits 2 mm) (hss : isDigits 2 ss) (hyyyy : isDigits 4 yyyy)
    (hyear : 1400 ≤ decimalValue yyyy)
    (hH : decimalValue hh ≤ 23) (hMi : decimalValue mm ≤ 59) (hS : decimalValue ss ≤ 60) :
    ∃ t, header_to_ptime (asctimeString wkd (monthName m) [' ', d] hh mm ss yyyy) = some t ∧
      t.is_not_a_date_time = false ∧
      t = ptime.make ⟨decimalValue yyyy, m, decimalValue [d]⟩
        (time_duration.make (decimalValue hh) (decimalValue mm) (decimalValue ss)) ∧
      header_to_ptime (asctimeString wkd (monthName m) ['0', d] hh mm ss yyyy) = some t ∧
      (decimalValue ss ≤ 59 → ∃ td,
        t = ptime.time ⟨decimalValue yyyy, m, decimalValue [d]⟩ td ∧
        td.hours = decimalValue hh ∧ td.minutes = decimalValue mm ∧
        td.seconds = decimalValue ss) := by
  have hd9 := decimalValue_singleton_le d hd
  have hy := decimalValue_lt yyyy hyyyy.2
  rw [hyyyy.1] at hy
  have heom := end_of_month_day_ge (decimalValue yyyy) m
  have hdate : (date.make (decimalValue yyyy) m (decimalValue [d])).isSome = true := by
    rw [date_make_natCast, if_pos ⟨hyear, by omega, hm1, hm2, hd1, by omega, by omega⟩]
    rfl
  have hnone : ∀ day : List Char, day.length = 2 →
      regex_match detail.rfc1123_regex (asctimeString wkd (monthName m) day hh mm ss yyyy) = none
      ∧ regex_match detail.rfc1036_regex (asctimeString wkd (monthName m) day hh mm ss yyyy)
        = none := by
    intro day hday
    have hlen := length_asctimeString wkd (monthName m) day hh mm ss yyyy
      (length_of_mem_wkdayNames hw) (length_of_mem_monthNames (monthName_mem hm1 hm2))
      hhh hmm hss hyyyy
    constructor
    · apply regex_match_eq_none
      rw [rfc1123_regex_len.1, hlen, hday]
      omega
    · apply regex_match_eq_none
      rw [rfc1036_regex_len.1, hlen, hday]
      omega
  have hb : ∀ day : List Char, day = [' ', d] ∨ day = ['0', d] →
      detail.asctime (asctimeString wkd (monthName m) day hh mm ss yyyy) ptime.not_a_date_time
        = some (true, ptime.make ⟨decimalValue yyyy, m, decimalValue [d]⟩
            (time_duration.make (decimalValue hh) (decimalValue mm) (decimalValue ss))) := by
    intro day hday
    rw [asctime_eq_build wkd day hh mm ss yyyy m d _ hw hm1 hm2 hday hd hhh hmm hss hyyyy,
      build_eq _ _ _ _ _ _ _ hH hMi hS hdate]
  refine ⟨_, header_to_ptime_of_asctime (hnone [' ', d] rfl).1 (hnone [' ', d] rfl).2
      (hb _ (Or.inl rfl)), rfl, rfl,
    header_to_ptime_of_asctime (hnone ['0', d] rfl).1 (hnone ['0', d] rfl).2
      (hb _ (Or.inr rfl)), ?_⟩
  intro h59
  exact ptime_make_fields _ _ _ _ hH hMi h59

/-- C9 as amended, at `Sun Nov  6 08:49:37 1994`, which gives
1994-11-06 08:49:37, the same as `Sun Nov 06 08:49:37 1994`. -/
theorem header_to_ptime_asctime_padded_witness :
    header_to_ptime "Sun Nov  6 08:49:37 1994".toList = some (timestamp 1994 11 6 8 49 37) ∧
    header_to_ptime "Sun Nov 06 08:49:37 1994".toList = some (timestamp 1994 11 6 8 49 37) := by
  obtain ⟨t, h1, _, h3, h4, _⟩ := header_to_ptime_asctime_padded ['S', 'u', 'n'] ['0', '8']
    ['4', '9'] ['3', '7'] ['1', '9', '9', '4'] 11 '6' (by decide) (by decide) (by decide)
    (by decide) (by decide) ⟨rfl, by decide⟩ ⟨rfl, by decide⟩ ⟨rfl, by decide⟩ ⟨rfl, by decide⟩
    (by decide) (by decide) (by decide) (by decide)
  have ht : t = timestamp 1994 11 6 8 49 37 := h3.trans (by decide)
  exact ⟨h1.trans (congrArg some ht), h4.trans (congrArg some ht)⟩

set_option maxRecDepth 100000 in
/-- C10 fails as it is stated: `Sun Nov 6 08:49:37 1994`, with one space between
the month and a day of one digit, gives the sentinel. -/
theorem header_to_ptime_asctime_unpadded_counterexample :
    header_to_ptime "Sun Nov 6 08:49:37 1994".toList = some ptime.not_a_date_time := by
  decide

/-- C10 as amended: the asctime recogniser takes a day field of exactly two
characters.  For every otherwise valid asctime string whose day is written as
one character with no padding, none of the three patterns matches and
`header_to_ptime` returns the sentinel. -/
theorem header_to_ptime_asctime_unpadded (wkd hh mm ss yyyy : List Char) (m : Nat) (d : Char)
    (hw : wkd ∈ wkdayNames) (hm1 : 1 ≤ m) (hm2 : m ≤ 12)
    (hhh : isDigits 2 hh) (hmm : isDigits 2 mm) (hss : isDigits 2 ss) (hyyyy : isDigits 4 yyyy) :
    regex_match detail.asctime_regex (asctimeString wkd (monthName m) [d] hh mm ss yyyy) = none ∧
    header_to_ptime (asctimeString wkd (monthName m) [d] hh mm ss yyyy)
      = some ptime.not_a_date_time := by
  have hlen := length_asctimeString wkd (monthName m) [d] hh mm ss yyyy
    (length_of_mem_wkdayNames hw) (length_of_mem_monthNames (monthName_mem hm1 hm2))
    hhh hmm hss hyyyy
  have h1 : regex_match detail.rfc1123_regex
      (asctimeString wkd (monthName m) [d] hh mm ss yyyy) = none := by
    apply regex_match_eq_none
    rw [rfc1123_regex_len.1, hlen]
    simp
  have h2 : regex_match detail.rfc1036_regex
      (asctimeString wkd (monthName m) [d] hh mm ss yyyy) = none := by
    apply regex_match_eq_none
    rw [rfc1036_regex_len.1, hlen]
    simp
  have h3 : regex_match detail.asctime_regex
      (asctimeString wkd (monthName m) [d] hh mm ss yyyy) = none := by
    apply regex_match_eq_none
    rw [asctime_regex_len.1, hlen]
    simp
  exact ⟨h3, header_to_ptime_of_asctime h1 h2 (asctime_of_no_match _ h3)⟩

/-- C10 as amended, at `Mon Jan 1 00:00:00 2001`. -/
theorem header_to_ptime_asctime_unpadded_witness :
    regex_match detail.asctime_regex "Mon Jan 1 00:00:00 2001".toList = none ∧
    header_to_ptime "Mon Jan 1 00:00:00 2001".toList = some ptime.not_a_date_time :=
  header_to_ptime_asctime_unpadded ['M', 'o', 'n'] ['0', '0'] ['0', '0'] ['0', '0']
    ['2', '0', '0', '1'] 1 '1' (by decide) (by decide) (by decide)
    ⟨rfl, by decide⟩ ⟨rfl, by decide⟩ ⟨rfl, by decide⟩ ⟨rfl, by decide⟩

/-! ## Part 3: grammars, order and lengths -/

theorem run_matches : ∀ (r : Regex) (s : List Char) (caps : Captures)
    (x : List Char × List Char × Captures), x ∈ r.run s caps →
      r.Matches x.1 ∧ s = x.1 ++ x.2.1 := by
  intro r
  induction r with
  | eps =>
    intro s caps x hx
    simp only [Regex.run, List.mem_singleton] at hx
    subst hx
    simp [Regex.Matches]
  | chr c =>
    intro s caps x hx
    cases s with
    | nil => simp [Regex.run] at hx
    | cons a as =>
      simp only [Regex.run] at hx
      split_ifs at hx with h
      · simp only [List.mem_singleton] at hx
        subst hx
        simp [Regex.Matches, h]
      · simp at hx
  | digit =>
    intro s caps x hx
    cases s with
    | nil => simp [Regex.run] at hx
    | cons a as =>
      simp only [Regex.run] at hx
      split_ifs at hx with h
      · simp only [List.mem_singleton] at hx
        subst hx
        simp [Regex.Matches, h]
      · simp at hx
  | seq r₁ r₂ ih₁ ih₂ =>
    intro s caps x hx
    simp only [Regex.run, List.mem_flatMap, List.mem_map] at hx
    obtain ⟨a, ha, b, hb, rfl⟩ := hx
    obtain ⟨h1, h2⟩ := ih₁ s caps a ha
    obtain ⟨h3, h4⟩ := ih₂ _ _ b hb
    refine ⟨⟨a.1, b.1, rfl, h1, h3⟩, ?_⟩
    simp only [List.append_assoc]
    rw [← h4]
    exact h2
  | alt r₁ r₂ ih₁ ih₂ =>
    intro s caps x hx
    simp only [Regex.run, List.mem_append] at hx
    rcases hx with hx | hx
    · exact ⟨Or.inl (ih₁ s caps x hx).1, (ih₁ s caps x hx).2⟩
    · exact ⟨Or.inr (ih₂ s caps x hx).1, (ih₂ s caps x hx).2⟩
  | group n r ih =>
    intro s caps x hx
    simp only [Regex.run, List.mem_map] at hx
    obtain ⟨a, ha, rfl⟩ := hx
    exact ih s caps a ha

theorem run_complete : ∀ (r : Regex) (u : List Char), r.Matches u →
    ∀ (rest : List Char) (caps : Captures), ∃ caps1, (u, rest, caps1) ∈ r.run (u ++ rest) caps := by
  intro r
  induction r with
  | eps =>
    intro u hu rest caps
    simp only [Regex.Matches] at hu
    subst hu
    exact ⟨caps, by simp [Regex.run]⟩
  | chr c =>
    intro u hu rest caps
    simp only [Regex.Matches] at hu
    subst hu
    exact ⟨caps, by simp [Regex.run]⟩
  | digit =>
    intro u hu rest caps
    obtain ⟨c, rfl, hc⟩ := hu
    exact ⟨caps, by simp [Regex.run, hc]⟩
  | seq r₁ r₂ ih₁ ih₂ =>
    intro u hu rest caps
    obtain ⟨a, b, rfl, ha, hb⟩ := hu
    obtain ⟨c1, h1⟩ := ih₁ a ha (b ++ rest) caps
    obtain ⟨c2, h2⟩ := ih₂ b hb rest c1
    refine ⟨c2, ?_⟩
    simp only [Regex.run, List.mem_flatMap, List.mem_map, List.append_assoc]
    exact ⟨_, h1, _, h2, rfl⟩
  | alt r₁ r₂ ih₁ ih₂ =>
    intro u hu rest caps
    rcases hu with hu | hu
    · obtain ⟨c1, h1⟩ := ih₁ u hu rest caps
      exact ⟨c1, by simp only [Regex.run, List.mem_append]; exact Or.inl h1⟩
    · obtain ⟨c1, h1⟩ := ih₂ u hu rest caps
      exact ⟨c1, by simp only [Regex.run, List.mem_append]; exact Or.inr h1⟩
  | group n r ih =>
    intro u hu rest caps
    obtain ⟨c1, h1⟩ := ih u hu rest caps
    refine ⟨Function.update c1 n u, ?_⟩
    simp only [Regex.run, List.mem_map]
    exact ⟨_, h1, rfl⟩

/-- The matcher finds a match of the whole input exactly when the input is in
the grammar of the pattern. -/
theorem regex_match_isSome_iff (r : Regex) (s : List Char) :
    (regex_match r s).isSome = true ↔ r.Matches s := by
  constructor
  · intro h
    obtain ⟨caps, hc⟩ := Option.isSome_iff_exists.mp h
    simp only [regex_match, Option.map_eq_some'] at hc
    obtain ⟨x, hx, _⟩ := hc
    have hmem := List.mem_of_find?_eq_some hx
    have hrest := List.find?_some hx
    obtain ⟨h1, h2⟩ := run_matches r s _ x hmem
    have : x.2.1 = [] := by simpa using hrest
    rw [this, List.append_nil] at h2
    rw [h2]
    exact h1
  · intro h
    obtain ⟨c1, h1⟩ := run_complete r s h [] (fun _ => [])
    rw [List.append_nil] at h1
    simp only [regex_match, Option.isSome_map']
    rw [List.find?_isSome]
    exact ⟨_, h1, by simp⟩

theorem regex_match_eq_none_iff (r : Regex) (s : List Char) :
    regex_match r s = none ↔ ¬ r.Matches s := by
  rw [← regex_match_isSome_iff]
  cases regex_match r s <;> simp

theorem matches_length {r : Regex} {s : List Char} (h : r.Matches s) :
    r.minLen ≤ s.length ∧ s.length ≤ r.maxLen := by
  obtain ⟨caps, hc⟩ := Option.isSome_iff_exists.mp ((regex_match_isSome_iff r s).mpr h)
  exact regex_match_length hc

theorem matches_lit (t s : List Char) : (Regex.lit t).Matches s ↔ s = t := by
  induction t generalizing s with
  | nil => simp [Regex.lit, Regex.Matches]
  | cons c cs ih =>
    simp only [Regex.lit, Regex.Matches, ih]
    constructor
    · rintro ⟨u, v, rfl, rfl, rfl⟩
      rfl
    · rintro rfl
      exact ⟨[c], cs, rfl, rfl, rfl⟩

theorem matches_oneOf (a : List Char) (bs : List (List Char)) (s : List Char) :
    (Regex.oneOf a bs).Matches s ↔ s ∈ a :: bs := by
  induction bs generalizing a with
  | nil => simp [Regex.oneOf, matches_lit]
  | cons b bs ih =>
    simp only [Regex.oneOf, Regex.Matches, matches_lit, ih, List.mem_cons]

theorem matches_rep_digit (n : Nat) (s : List Char) :
    (Regex.rep n .digit).Matches s ↔ isDigits n s := by
  induction n generalizing s with
  | zero =>
    simp only [Regex.rep, Regex.Matches, isDigits]
    constructor
    · rintro rfl; simp
    · rintro ⟨h, _⟩; exact List.eq_nil_of_length_eq_zero h
  | succ n ih =>
    simp only [Regex.rep, Regex.Matches, ih]
    constructor
    · rintro ⟨u, v, rfl, ⟨c, rfl, hc⟩, hv1, hv2⟩
      refine ⟨by simp [hv1], ?_⟩
      intro x hx
      simp only [List.singleton_append, List.mem_cons] at hx
      rcases hx with rfl | hx
      · exact hc
      · exact hv2 x hx
    · rintro ⟨hlen, hd⟩
      match s, hlen with
      | c :: cs, hlen =>
        exact ⟨[c], cs, rfl, ⟨c, rfl, hd c (List.mem_cons_self _ _)⟩,
          by simpa using hlen, fun x hx => hd x (List.mem_cons_of_mem _ hx)⟩

theorem matches_wkday (s : List Char) : wkday.Matches s ↔ s ∈ wkdayNames :=
  matches_oneOf _ _ s

theorem matches_weekday (s : List Char) : weekday.Matches s ↔ s ∈ weekdayNames :=
  matches_oneOf _ _ s

theorem matches_month (s : List Char) : month.Matches s ↔ s ∈ monthNames :=
  matches_oneOf _ _ s

theorem mem_monthNames_iff (mon : List Char) :
    mon ∈ monthNames ↔ ∃ m, 1 ≤ m ∧ m ≤ 12 ∧ mon = monthName m := by
  constructor
  · intro h
    simp only [monthNames, List.mem_cons, List.mem_singleton, List.not_mem_nil, or_false] at h
    rcases h with rfl | rfl | rfl | rfl | rfl | rfl | rfl | rfl | rfl | rfl | rfl | rfl
    · exact ⟨1, by norm_num, by norm_num, rfl⟩
    · exact ⟨2, by norm_num, by norm_num, rfl⟩
    · exact ⟨3, by norm_num, by norm_num, rfl⟩
    · exact ⟨4, by norm_num, by norm_num, rfl⟩
    · exact ⟨5, by norm_num, by norm_num, rfl⟩
    · exact ⟨6, by norm_num, by norm_num, rfl⟩
    · exact ⟨7, by norm_num, by norm_num, rfl⟩
    · exact ⟨8, by norm_num, by norm_num, rfl⟩
    · exact ⟨9, by norm_num, by norm_num, rfl⟩
    · exact ⟨10, by norm_num, by norm_num, rfl⟩
    · exact ⟨11, by norm_num, by norm_num, rfl⟩
    · exact ⟨12, by norm_num, by norm_num, rfl⟩
  · rintro ⟨m, h1, h2, rfl⟩
    exact monthName_mem h1 h2

theorem matches_day_field (s : List Char) :
    (Regex.seq (.alt .digit (.chr ' ')) .digit).Matches s ↔ isDayField s := by
  simp only [Regex.Matches, isDayField, isDigits]
  constructor
  · rintro ⟨u, v, rfl, (⟨c, rfl, hc⟩ | rfl), ⟨d, rfl, hd⟩⟩
    · right
      refine ⟨rfl, ?_⟩
      intro x hx
      simp only [List.singleton_append, List.mem_cons, List.mem_singleton, List.not_mem_nil,
        or_false] at hx
      rcases hx with rfl | rfl
      · exact hc
      · exact hd
    · left
      exact ⟨d, rfl, hd⟩
  · rintro (⟨d, rfl, hd⟩ | ⟨hlen, hd⟩)
    · exact ⟨[' '], [d], rfl, Or.inr rfl, d, rfl, hd⟩
    · match s, hlen with
      | [a, b], _ =>
        exact ⟨[a], [b], rfl, Or.inl ⟨a, rfl, hd a (by simp)⟩, b, rfl, hd b (by simp)⟩

theorem matches_seq (r₁ r₂ : Regex) (s : List Char) :
    (Regex.seq r₁ r₂).Matches s ↔ ∃ u v, s = u ++ v ∧ r₁.Matches u ∧ r₂.Matches v := Iff.rfl

theorem matches_group (n : Nat) (r : Regex) (s : List Char) :
    (Regex.group n r).Matches s ↔ r.Matches s := Iff.rfl

theorem matches_eps (s : List Char) : Regex.eps.Matches s ↔ s = [] := Iff.rfl

theorem matches_rfc1123 (v : List Char) :
    detail.rfc1123_regex.Matches v ↔
      ∃ wkd dd m yyyy hh mm ss, (DateText.rfc1123 wkd dd m yyyy hh mm ss).WellFormed ∧
        (DateText.rfc1123 wkd dd m yyyy hh mm ss).text = v := by
  simp only [detail.rfc1123_regex, Regex.cat, matches_seq, matches_group, matches_eps,
    matches_lit, matches_wkday, matches_month, matches_rep_digit, DateText.WellFormed,
    DateText.text, rfc1123String]
  constructor
  · rintro ⟨wkd, _, rfl, hw, _, _, rfl, rfl, dd, _, rfl, hdd, _, _, rfl, rfl, mon, _, rfl, hmon,
      _, _, rfl, rfl, yyyy, _, rfl, hyyyy, _, _, rfl, rfl, hh, _, rfl, hhh, _, _, rfl, rfl,
      mm, _, rfl, hmm, _, _, rfl, rfl, ss, _, rfl, hss, _, _, rfl, rfl, _, _, rfl, rfl, rfl⟩
    obtain ⟨m, hm1, hm2, rfl⟩ := (mem_monthNames_iff mon).mp hmon
    exact ⟨wkd, dd, m, yyyy, hh, mm, ss, ⟨hw, hdd, hm1, hm2, hyyyy, hhh, hmm, hss⟩, by simp⟩
  · rintro ⟨wkd, dd, m, yyyy, hh, mm, ss, ⟨hw, hdd, hm1, hm2, hyyyy, hhh, hmm, hss⟩, rfl⟩
    refine ⟨wkd, _, ?_, hw, _, _, rfl, rfl, dd, _, rfl, hdd, _, _, rfl, rfl, monthName m, _, rfl,
      monthName_mem hm1 hm2, _, _, rfl, rfl, yyyy, _, rfl, hyyyy, _, _, rfl, rfl, hh, _, rfl, hhh,
      _, _, rfl, rfl, mm, _, rfl, hmm, _, _, rfl, rfl, ss, _, rfl, hss, _, _, rfl, rfl, _, _,
      rfl, rfl, rfl⟩
    simp

theorem matches_rfc1036 (v : List Char) :
    detail.rfc1036_regex.Matches v ↔
      ∃ wkd dd m yy hh mm ss, (DateText.rfc1036 wkd dd m yy hh mm ss).WellFormed ∧
        (DateText.rfc1036 wkd dd m yy hh mm ss).text = v := by
  simp only [detail.rfc1036_regex, Regex.cat, matches_seq, matches_group, matches_eps,
    matches_lit, matches_weekday, matches_month, matches_rep_digit, DateText.WellFormed,
    DateText.text, rfc1036String]
  constructor
  · rintro ⟨wkd, _, rfl, hw, _, _, rfl, rfl, dd, _, rfl, hdd, _, _, rfl, rfl, mon, _, rfl, hmon,
      _, _, rfl, rfl, yy, _, rfl, hyy, _, _, rfl, rfl, hh, _, rfl, hhh, _, _, rfl, rfl,
      mm, _, rfl, hmm, _, _, rfl, rfl, ss, _, rfl, hss, _, _, rfl, rfl, _, _, rfl, rfl, rfl⟩
    obtain ⟨m, hm1, hm2, rfl⟩ := (mem_monthNames_iff mon).mp hmon
    exact ⟨wkd, dd, m, yy, hh, mm, ss, ⟨hw, hdd, hm1, hm2, hyy, hhh, hmm, hss⟩, by simp⟩
  · rintro ⟨wkd, dd, m, yy, hh, mm, ss, ⟨hw, hdd, hm1, hm2, hyy, hhh, hmm, hss⟩, rfl⟩
    refine ⟨wkd, _, ?_, hw, _, _, rfl, rfl, dd, _, rfl, hdd, _, _, rfl, rfl, monthName m, _, rfl,
      monthName_mem hm1 hm2, _, _, rfl, rfl, yy, _, rfl, hyy, _, _, rfl, rfl, hh, _, rfl, hhh,
      _, _, rfl, rfl, mm, _, rfl, hmm, _, _, rfl, rfl, ss, _, rfl, hss, _, _, rfl, rfl, _, _,
      rfl, rfl, rfl⟩
    simp

theorem matches_asctime (v : List Char) :
    detail.asctime_regex.Matches v ↔
      ∃ wkd m day hh mm ss yyyy, (DateText.asctime wkd m day hh mm ss yyyy).WellFormed ∧
        (DateText.asctime wkd m day hh mm ss yyyy).text = v := by
  simp only [detail.asctime_regex, Regex.cat, matches_seq, matches_group, matches_eps,
    matches_lit, matches_wkday, matches_month, matches_rep_digit, DateText.WellFormed,
    DateText.text, asctimeString]
  constructor
  · rintro ⟨wkd, _, rfl, hw, _, _, rfl, rfl, mon, _, rfl, hmon, _, _, rfl, rfl, _, _, rfl,
      ⟨d1, d2, rfl, hd1, hd2⟩, _, _, rfl, rfl, hh, _, rfl, hhh, _, _, rfl, rfl,
      mm, _, rfl, hmm, _, _, rfl, rfl, ss, _, rfl, hss, _, _, rfl, rfl, yyyy, _, rfl, hyyyy, rfl⟩
    obtain ⟨m, hm1, hm2, rfl⟩ := (mem_monthNames_iff mon).mp hmon
    have hday : isDayField (d1 ++ d2) := (matches_day_field _).mp ⟨d1, d2, rfl, hd1, hd2⟩
    exact ⟨wkd, m, d1 ++ d2, hh, mm, ss, yyyy, ⟨hw, hm1, hm2, hday, hhh, hmm, hss, hyyyy⟩,
      by simp⟩
  · rintro ⟨wkd, m, day, hh, mm, ss, yyyy, ⟨hw, hm1, hm2, hday, hhh, hmm, hss, hyyyy⟩, rfl⟩
    obtain ⟨d1, d2, rfl, hd1, hd2⟩ := (matches_day_field _).mpr hday
    refine ⟨wkd, _, ?_, hw, _, _, rfl, rfl, monthName m, _, rfl, monthName_mem hm1 hm2, _, _,
      rfl, rfl, _, _, rfl, ⟨d1, d2, rfl, hd1, hd2⟩, _, _, rfl, rfl, hh, _, rfl, hhh, _, _, rfl,
      rfl, mm, _, rfl, hmm, _, _, rfl, rfl, ss, _, rfl, hss, _, _, rfl, rfl, yyyy, _, rfl,
      hyyyy, rfl⟩
    simp

theorem stripSpace_isDigits {day : List Char} (h : isDayField day) :
    isDigits 1 (stripSpace day) ∨ isDigits 2 (stripSpace day) := by
  rcases h with ⟨d, rfl, hd⟩ | ⟨hlen, hd⟩
  · left
    exact ⟨rfl, by simpa [stripSpace] using hd⟩
  · right
    match day, hlen with
    | [a, b], _ =>
      have ha : isdigit a = true := hd a (by simp)
      have hne : a ≠ ' ' := by
        rintro rfl
        exact absurd ha (by decide)
      have : stripSpace [a, b] = [a, b] := by simp [stripSpace, hne]
      rw [this]
      exact ⟨rfl, hd⟩

theorem asctime_eq_build_day (wkd day hh mm ss yyyy : List Char) (m : Nat) (dt : ptime)
    (hw : wkd ∈ wkdayNames) (hm1 : 1 ≤ m) (hm2 : m ≤ 12) (hday : isDayField day)
    (hhh : isDigits 2 hh) (hmm : isDigits 2 mm) (hss : isDigits 2 ss) (hyyyy : isDigits 4 yyyy) :
    detail.asctime (asctimeString wkd (monthName m) day hh mm ss yyyy) dt
      = detail.build dt (decimalValue hh) (decimalValue mm) (decimalValue ss)
          (decimalValue yyyy) (some (m : Int)) (decimalValue (stripSpace day)) := by
  obtain ⟨c1, c2, c3, c4, c5, c6⟩ := captures_apply (monthName m) day hh mm ss yyyy
    (asctimeString wkd (monthName m) day hh mm ss yyyy)
  have hdec : detail.from_decimal_submatch to_unsigned_short
      (if day.head? = some ' ' then day.tail else day) = (decimalValue (stripSpace day) : Int) := by
    rcases stripSpace_isDigits hday with h | h
    · exact (decode_small _ 1 h (by norm_num)).2
    · exact (decode_small _ 2 h (by norm_num)).2
  rw [detail.asctime, asctime_regex_match wkd _ day hh mm ss yyyy hw (monthName_mem hm1 hm2)
    hday hhh hmm hss hyyyy]
  simp only [c1, c2, c3, c4, c5, c6, from_submatch_to_month_monthName hm1 hm2,
    (decode_small hh 2 hhh (by norm_num)).1, (decode_small mm 2 hmm (by norm_num)).1,
    (decode_small ss 2 hss (by norm_num)).1, (decode_small yyyy 4 hyyyy (by norm_num)).2, hdec]

/-- The shared tail of the recognisers, on decoded fields, is the acceptance
the specification describes. -/
theorem build_natCast (dt : ptime) (H Mi S Y m D : Nat) :
    detail.build dt H Mi S Y (some (m : Int)) D
      = some (match (if H ≤ 23 ∧ Mi ≤ 59 ∧ S ≤ 60 then
            (date.make Y m D).map fun d => ptime.make d (time_duration.make H Mi S)
          else none) with
        | some t => (true, t)
        | none => (false, dt)) := by
  unfold detail.build
  by_cases hr : H ≤ 23 ∧ Mi ≤ 59 ∧ S ≤ 60
  · have h : ¬ ((H : Int) > 23 ∨ (Mi : Int) > 59 ∨ (S : Int) > 60) := by omega
    rw [if_neg h, if_pos hr]
    cases hd : date.make (Y : Int) (m : Int) (D : Int) <;> simp only [hd, Option.map]
  · have h : ((H : Int) > 23 ∨ (Mi : Int) > 59 ∨ (S : Int) > 60) := by omega
    rw [if_pos h, if_neg hr]

theorem behaves_of_no_match_rfc1123 {v : List Char} (h : ¬ detail.rfc1123_regex.Matches v) :
    Behaves detail.rfc1123 v none :=
  fun dt => rfc1123_of_no_match dt ((regex_match_eq_none_iff _ _).mpr h)

theorem behaves_of_no_match_rfc1036 {v : List Char} (h : ¬ detail.rfc1036_regex.Matches v) :
    Behaves detail.rfc1036 v none :=
  fun dt => rfc1036_of_no_match dt ((regex_match_eq_none_iff _ _).mpr h)

theorem behaves_of_no_match_asctime {v : List Char} (h : ¬ detail.asctime_regex.Matches v) :
    Behaves detail.asctime v none :=
  fun dt => asctime_of_no_match dt ((regex_match_eq_none_iff _ _).mpr h)

theorem behaves_rfc1123 (wkd dd : List Char) (m : Nat) (yyyy hh mm ss : List Char)
    (h : (DateText.rfc1123 wkd dd m yyyy hh mm ss).WellFormed) :
    Behaves detail.rfc1123 (DateText.rfc1123 wkd dd m yyyy hh mm ss).text
      (DateText.rfc1123 wkd dd m yyyy hh mm ss).accepted := by
  obtain ⟨hw, hdd, hm1, hm2, hyyyy, hhh, hmm, hss⟩ := h
  intro dt
  simp only [DateText.text]
  rw [rfc1123_eq_build wkd dd yyyy hh mm ss m dt hw hm1 hm2 hdd hyyyy hhh hmm hss, build_natCast]
  rfl

theorem behaves_rfc1036 (wkd dd : List Char) (m : Nat) (yy hh mm ss : List Char)
    (h : (DateText.rfc1036 wkd dd m yy hh mm ss).WellFormed) :
    Behaves detail.rfc1036 (DateText.rfc1036 wkd dd m yy hh mm ss).text
      (DateText.rfc1036 wkd dd m yy hh mm ss).accepted := by
  obtain ⟨hw, hdd, hm1, hm2, hyy, hhh, hmm, hss⟩ := h
  intro dt
  simp only [DateText.text]
  rw [rfc1036_eq_build wkd dd yy hh mm ss m dt hw hm1 hm2 hdd hyy hhh hmm hss, build_natCast]
  rfl

theorem behaves_asctime (wkd : List Char) (m : Nat) (day hh mm ss yyyy : List Char)
    (h : (DateText.asctime wkd m day hh mm ss yyyy).WellFormed) :
    Behaves detail.asctime (DateText.asctime wkd m day hh mm ss yyyy).text
      (DateText.asctime wkd m day hh mm ss yyyy).accepted := by
  obtain ⟨hw, hm1, hm2, hday, hhh, hmm, hss, hyyyy⟩ := h
  intro dt
  simp only [DateText.text]
  rw [asctime_eq_build_day wkd day hh mm ss yyyy m dt hw hm1 hm2 hday hhh hmm hss hyyyy,
    build_natCast]
  rfl

/-- The three grammars are pairwise disjoint: their texts have 29, 30 to 33 and
24 characters. -/
theorem grammars_disjoint (v : List Char) :
    ¬ (detail.rfc1123_regex.Matches v ∧ detail.rfc1036_regex.Matches v) ∧
    ¬ (detail.rfc1123_regex.Matches v ∧ detail.asctime_regex.Matches v) ∧
    ¬ (detail.rfc1036_regex.Matches v ∧ detail.asctime_regex.Matches v) := by
  refine ⟨?_, ?_, ?_⟩ <;> rintro ⟨h1, h2⟩ <;>
    have l1 := matches_length h1 <;> have l2 := matches_length h2
  · rw [rfc1123_regex_len.1, rfc1123_regex_len.2] at l1
    rw [rfc1036_regex_len.1, rfc1036_regex_len.2] at l2
    omega
  · rw [rfc1123_regex_len.1, rfc1123_regex_len.2] at l1
    rw [asctime_regex_len.1, asctime_regex_len.2] at l2
    omega
  · rw [rfc1036_regex_len.1, rfc1036_regex_len.2] at l1
    rw [asctime_regex_len.1, asctime_regex_len.2] at l2
    omega

/-- What each recogniser does on an input: it accepts with a timestamp only when
its grammar matches, and then as the specification describes for the date text
the input is. -/
theorem recognisers_behave (v : List Char) :
    ∃ o1 o2 o3, Behaves detail.rfc1123 v o1 ∧ Behaves detail.rfc1036 v o2 ∧
      Behaves detail.asctime v o3 ∧
      ((¬ detail.rfc1123_regex.Matches v ∧ o1 = none) ∨
        (detail.rfc1123_regex.Matches v ∧ ∃ wkd dd m yyyy hh mm ss,
          (DateText.rfc1123 wkd dd m yyyy hh mm ss).WellFormed ∧
          (DateText.rfc1123 wkd dd m yyyy hh mm ss).text = v ∧
          o1 = (DateText.rfc1123 wkd dd m yyyy hh mm ss).accepted)) ∧
      ((¬ detail.rfc1036_regex.Matches v ∧ o2 = none) ∨
        (detail.rfc1036_regex.Matches v ∧ ∃ wkd dd m yy hh mm ss,
          (DateText.rfc1036 wkd dd m yy hh mm ss).WellFormed ∧
          (DateText.rfc1036 wkd dd m yy hh mm ss).text = v ∧
          o2 = (DateText.rfc1036 wkd dd m yy hh mm ss).accepted)) ∧
      ((¬ detail.asctime_regex.Matches v ∧ o3 = none) ∨
        (detail.asctime_regex.Matches v ∧ ∃ wkd m day hh mm ss yyyy,
          (DateText.asctime wkd m day hh mm ss yyyy).WellFormed ∧
          (DateText.asctime wkd m day hh mm ss yyyy).text = v ∧
          o3 = (DateText.asctime wkd m day hh mm ss yyyy).accepted)) := by
  have h1 : ∃ o1, Behaves detail.rfc1123 v o1 ∧
      ((¬ detail.rfc1123_regex.Matches v ∧ o1 = none) ∨
        (detail.rfc1123_regex.Matches v ∧ ∃ wkd dd m yyyy hh mm ss,
          (DateText.rfc1123 wkd dd m yyyy hh mm ss).WellFormed ∧
          (DateText.rfc1123 wkd dd m yyyy hh mm ss).text = v ∧
          o1 = (DateText.rfc1123 wkd dd m yyyy hh mm ss).accepted)) := by
    by_cases hm : detail.rfc1123_regex.Matches v
    · obtain ⟨wkd, dd, m, yyyy, hh, mm, ss, hwf, ht⟩ := (matches_rfc1123 v).mp hm
      exact ⟨_, ht ▸ behaves_rfc1123 wkd dd m yyyy hh mm ss hwf,
        Or.inr ⟨hm, wkd, dd, m, yyyy, hh, mm, ss, hwf, ht, rfl⟩⟩
    · exact ⟨none, behaves_of_no_match_rfc1123 hm, Or.inl ⟨hm, rfl⟩⟩
  have h2 : ∃ o2, Behaves detail.rfc1036 v o2 ∧
      ((¬ detail.rfc1036_regex.Matches v ∧ o2 = none) ∨
        (detail.rfc1036_regex.Matches v ∧ ∃ wkd dd m yy hh mm ss,
          (DateText.rfc1036 wkd dd m yy hh mm ss).WellFormed ∧
          (DateText.rfc1036 wkd dd m yy hh mm ss).text = v ∧
          o2 = (DateText.rfc1036 wkd dd m yy hh mm ss).accepted)) := by
    by_cases hm : detail.rfc1036_regex.Matches v
    · obtain ⟨wkd, dd, m, yy, hh, mm, ss, hwf, ht⟩ := (matches_rfc1036 v).mp hm
      exact ⟨_, ht ▸ behaves_rfc1036 wkd dd m yy hh mm ss hwf,
        Or.inr ⟨hm, wkd, dd, m, yy, hh, mm, ss, hwf, ht, rfl⟩⟩
    · exact ⟨none, behaves_of_no_match_rfc1036 hm, Or.inl ⟨hm, rfl⟩⟩
  have h3 : ∃ o3, Behaves detail.asctime v o3 ∧
      ((¬ detail.asctime_regex.Matches v ∧ o3 = none) ∨
        (detail.asctime_regex.Matches v ∧ ∃ wkd m day hh mm ss yyyy,
          (DateText.asctime wkd m day hh mm ss yyyy).WellFormed ∧
          (DateText.asctime wkd m day hh mm ss yyyy).text = v ∧
          o3 = (DateText.asctime wkd m day hh mm ss yyyy).accepted)) := by
    by_cases hm : detail.asctime_regex.Matches v
    · obtain ⟨wkd, m, day, hh, mm, ss, yyyy, hwf, ht⟩ := (matches_asctime v).mp hm
      exact ⟨_, ht ▸ behaves_asctime wkd m day hh mm ss yyyy hwf,
        Or.inr ⟨hm, wkd, m, day, hh, mm, ss, yyyy, hwf, ht, rfl⟩⟩
    · exact ⟨none, behaves_of_no_match_asctime hm, Or.inl ⟨hm, rfl⟩⟩
  obtain ⟨o1, b1, c1⟩ := h1
  obtain ⟨o2, b2, c2⟩ := h2
  obtain ⟨o3, b3, c3⟩ := h3
  exact ⟨o1, o2, o3, b1, b2, b3, c1, c2, c3⟩

/-- The body of `header_to_ptime` returns what the first accepting recogniser
stored, and the sentinel when none accepts. -/
theorem header_to_ptime_with_eq {f g h : List Char → ptime → Option (Bool × ptime)}
    {v : List Char} {o1 o2 o3 : Option ptime}
    (b1 : Behaves f v o1) (b2 : Behaves g v o2) (b3 : Behaves h v o3) :
    header_to_ptime_with f g h v
      = some (((o1.orElse fun _ => o2).orElse fun _ => o3).getD ptime.not_a_date_time) := by
  have e1 := b1 ptime.not_a_date_time
  have e2 := b2 ptime.not_a_date_time
  have e3 := b3 ptime.not_a_date_time
  cases o1 <;> cases o2 <;> cases o3 <;> simp [header_to_ptime_with, e1, e2, e3]

theorem header_to_ptime_eq_with (v : List Char) :
    header_to_ptime v = header_to_ptime_with detail.rfc1123 detail.rfc1036 detail.asctime v :=
  rfl

theorem outcome_eq (t : DateText) : t.outcome = t.accepted.getD ptime.not_a_date_time := by
  unfold DateText.outcome DateText.accepted
  split_ifs
  · cases date.make (t.year : Int) (t.month : Int) (t.day : Int) <;> rfl
  · rfl

theorem matches_text {t : DateText} (h : t.WellFormed) : t.regex.Matches t.text := by
  cases t with
  | rfc1123 wkd dd m yyyy hh mm ss => exact (matches_rfc1123 _).mpr ⟨_, _, _, _, _, _, _, h, rfl⟩
  | rfc1036 wkd dd m yy hh mm ss => exact (matches_rfc1036 _).mpr ⟨_, _, _, _, _, _, _, h, rfl⟩
  | asctime wkd m day hh mm ss yyyy =>
    exact (matches_asctime _).mpr ⟨_, _, _, _, _, _, _, h, rfl⟩

/-- The strings the three grammars match are the texts of the well formed date
texts. -/
theorem matches_iff_text (v : List Char) :
    (detail.rfc1123_regex.Matches v ∨ detail.rfc1036_regex.Matches v ∨
        detail.asctime_regex.Matches v) ↔ ∃ t : DateText, t.WellFormed ∧ t.text = v := by
  constructor
  · rintro (h | h | h)
    · obtain ⟨wkd, dd, m, yyyy, hh, mm, ss, hwf, ht⟩ := (matches_rfc1123 v).mp h
      exact ⟨_, hwf, ht⟩
    · obtain ⟨wkd, dd, m, yy, hh, mm, ss, hwf, ht⟩ := (matches_rfc1036 v).mp h
      exact ⟨_, hwf, ht⟩
    · obtain ⟨wkd, m, day, hh, mm, ss, yyyy, hwf, ht⟩ := (matches_asctime v).mp h
      exact ⟨_, hwf, ht⟩
  · rintro ⟨t, hwf, rfl⟩
    have := matches_text hwf
    cases t with
    | rfc1123 wkd dd m yyyy hh mm ss => exact Or.inl this
    | rfc1036 wkd dd m yy hh mm ss => exact Or.inr (Or.inl this)
    | asctime wkd m day hh mm ss yyyy => exact Or.inr (Or.inr this)

/-- On the text of a well formed date text `header_to_ptime` returns, with the
timestamp the specification gives. -/
theorem header_to_ptime_text (t : DateText) (h : t.WellFormed) :
    header_to_ptime t.text = some t.outcome := by
  have hm := matches_text h
  obtain ⟨d12, d13, d23⟩ := grammars_disjoint t.text
  rw [header_to_ptime_eq_with, outcome_eq]
  cases t with
  | rfc1123 wkd dd m yyyy hh mm ss =>
    rw [header_to_ptime_with_eq (behaves_rfc1123 _ _ _ _ _ _ _ h)
      (behaves_of_no_match_rfc1036 fun h2 => d12 ⟨hm, h2⟩)
      (behaves_of_no_match_asctime fun h3 => d13 ⟨hm, h3⟩)]
    cases (DateText.rfc1123 wkd dd m yyyy hh mm ss).accepted <;> rfl
  | rfc1036 wkd dd m yy hh mm ss =>
    rw [header_to_ptime_with_eq (behaves_of_no_match_rfc1123 fun h1 => d12 ⟨h1, hm⟩)
      (behaves_rfc1036 _ _ _ _ _ _ _ h)
      (behaves_of_no_match_asctime fun h3 => d23 ⟨hm, h3⟩)]
    cases (DateText.rfc1036 wkd dd m yy hh mm ss).accepted <;> rfl
  | asctime wkd m day hh mm ss yyyy =>
    rw [header_to_ptime_with_eq (behaves_of_no_match_rfc1123 fun h1 => d13 ⟨h1, hm⟩)
      (behaves_of_no_match_rfc1036 fun h2 => d23 ⟨h2, hm⟩)
      (behaves_asctime _ _ _ _ _ _ _ h)]
    cases (DateText.asctime wkd m day hh mm ss yyyy).accepted <;> rfl

theorem not_matches_of_length {r : Regex} {v : List Char}
    (h : v.length < r.minLen ∨ r.maxLen < v.length) : ¬ r.Matches v := by
  intro hm
  have := matches_length hm
  omega

theorem header_to_ptime_of_no_match {v : List Char}
    (h1 : ¬ detail.rfc1123_regex.Matches v) (h2 : ¬ detail.rfc1036_regex.Matches v)
    (h3 : ¬ detail.asctime_regex.Matches v) :
    header_to_ptime v = some ptime.not_a_date_time := by
  rw [header_to_ptime_eq_with, header_to_ptime_with_eq (behaves_of_no_match_rfc1123 h1)
    (behaves_of_no_match_rfc1036 h2) (behaves_of_no_match_asctime h3)]
  rfl

/-! ### The claims on grammars, ranges and order -/

/-- C11: an input that none of the three format grammars matches in full gives
the not-a-date-time sentinel. -/
theorem header_to_ptime_no_match (v : List Char)
    (h1 : ¬ detail.rfc1123_regex.Matches v) (h2 : ¬ detail.rfc1036_regex.Matches v)
    (h3 : ¬ detail.asctime_regex.Matches v) :
    header_to_ptime v = some ptime.not_a_date_time :=
  header_to_ptime_of_no_match h1 h2 h3

/-- C11 at `not a date` and at the empty string. -/
theorem header_to_ptime_no_match_witness :
    header_to_ptime "not a date".toList = some ptime.not_a_date_time ∧
    header_to_ptime [] = some ptime.not_a_date_time :=
  ⟨header_to_ptime_no_match "not a date".toList
      (not_matches_of_length (Or.inl (by decide)))
      (not_matches_of_length (Or.inl (by decide)))
      (not_matches_of_length (Or.inl (by decide))),
    header_to_ptime_no_match []
      (not_matches_of_length (Or.inl (by decide)))
      (not_matches_of_length (Or.inl (by decide)))
      (not_matches_of_length (Or.inl (by decide)))⟩

/-- C12: on the text of a date text of one of the three formats whose year,
month and day form a date the calendar type accepts, `header_to_ptime` returns
a valid timestamp if and only if the hour is at most 23, the minute at most 59
and the second at most 60. -/
theorem header_to_ptime_valid_iff (t : DateText) (hwf : t.WellFormed)
    (hdate : (date.make t.year t.month t.day).isSome = true) :
    ∃ r, header_to_ptime t.text = some r ∧
      (r.is_not_a_date_time = false ↔ t.hour ≤ 23 ∧ t.minute ≤ 59 ∧ t.second ≤ 60) := by
  refine ⟨_, header_to_ptime_text t hwf, ?_⟩
  unfold DateText.outcome
  obtain ⟨d, hd⟩ := Option.isSome_iff_exists.mp hdate
  by_cases hr : t.hour ≤ 23 ∧ t.minute ≤ 59 ∧ t.second ≤ 60
  · simp only [if_pos hr, hd, hr, and_self, iff_true]
    rfl
  · simp only [if_neg hr, hr, iff_false]
    simp [ptime.is_not_a_date_time]

/-- C12 at `Sun, 06 Nov 1994 25:49:37 GMT`, which gives the sentinel, and at
`Sun, 06 Nov 1994 08:49:60 GMT`, whose second 60 is accepted. -/
theorem header_to_ptime_valid_iff_witness :
    header_to_ptime "Sun, 06 Nov 1994 25:49:37 GMT".toList = some ptime.not_a_date_time ∧
    ∃ r, header_to_ptime "Sun, 06 Nov 1994 08:49:60 GMT".toList = some r ∧
      r.is_not_a_date_time = false := by
  obtain ⟨r, h1, h2⟩ := header_to_ptime_valid_iff
    (.rfc1123 ['S', 'u', 'n'] ['0', '6'] 11 ['1', '9', '9', '4'] ['2', '5'] ['4', '9'] ['3', '7'])
    ⟨by decide, ⟨rfl, by decide⟩, by decide, by decide, ⟨rfl, by decide⟩, ⟨rfl, by decide⟩,
      ⟨rfl, by decide⟩, ⟨rfl, by decide⟩⟩ (by decide)
  obtain ⟨r', h3, h4⟩ := header_to_ptime_valid_iff
    (.rfc1123 ['S', 'u', 'n'] ['0', '6'] 11 ['1', '9', '9', '4'] ['0', '8'] ['4', '9'] ['6', '0'])
    ⟨by decide, ⟨rfl, by decide⟩, by decide, by decide, ⟨rfl, by decide⟩, ⟨rfl, by decide⟩,
      ⟨rfl, by decide⟩, ⟨rfl, by decide⟩⟩ (by decide)
  refine ⟨?_, r', h3, h4.mpr (by decide)⟩
  have hr : r = ptime.not_a_date_time := by
    cases r with
    | not_a_date_time => rfl
    | time d td => exact absurd (h2.mp rfl) (by decide)
  rw [← hr]
  exact h1

/-- C13: on the text of a date text of one of the three formats whose year,
month and day are not a date the calendar type accepts, `header_to_ptime`
returns, and what it returns is the sentinel. -/
theorem header_to_ptime_impossible_date (t : DateText) (hwf : t.WellFormed)
    (hdate : date.make t.year t.month t.day = none) :
    header_to_ptime t.text = some ptime.not_a_date_time := by
  rw [header_to_ptime_text t hwf]
  unfold DateText.outcome
  rw [hdate]
  split_ifs <;> rfl

/-- C13 at day 00, at day 31 of November, at 30 February, at 29 February of
the RFC 1036 year 00, which is 1900, and at the year 0000. -/
theorem header_to_ptime_impossible_date_witness :
    header_to_ptime "Sun, 00 Nov 1994 08:49:37 GMT".toList = some ptime.not_a_date_time ∧
    header_to_ptime "Sun Nov 31 08:49:37 1994".toList = some ptime.not_a_date_time ∧
    header_to_ptime "Sun, 30 Feb 1994 08:49:37 GMT".toList = some ptime.not_a_date_time ∧
    header_to_ptime "Thursday, 29-Feb-00 08:49:37 GMT".toList = some ptime.not_a_date_time ∧
    header_to_ptime "Sun, 06 Nov 0000 08:49:37 GMT".toList = some ptime.not_a_date_time :=
  ⟨header_to_ptime_impossible_date
      (.rfc1123 ['S', 'u', 'n'] ['0', '0'] 11 ['1', '9', '9', '4'] ['0', '8'] ['4', '9']
        ['3', '7'])
      ⟨by decide, ⟨rfl, by decide⟩, by decide, by decide, ⟨rfl, by decide⟩, ⟨rfl, by decide⟩,
        ⟨rfl, by decide⟩, ⟨rfl, by decide⟩⟩ (by decide),
    header_to_ptime_impossible_date
      (.asctime ['S', 'u', 'n'] 11 ['3', '1'] ['0', '8'] ['4', '9'] ['3', '7']
        ['1', '9', '9', '4'])
      ⟨by decide, by decide, by decide, Or.inr ⟨rfl, by decide⟩, ⟨rfl, by decide⟩,
        ⟨rfl, by decide⟩, ⟨rfl, by decide⟩, ⟨rfl, by decide⟩⟩ (by decide),
    header_to_ptime_impossible_date
      (.rfc1123 ['S', 'u', 'n'] ['3', '0'] 2 ['1', '9', '9', '4'] ['0', '8'] ['4', '9']
        ['3', '7'])
      ⟨by decide, ⟨rfl, by decide⟩, by decide, by decide, ⟨rfl, by decide⟩, ⟨rfl, by decide⟩,
        ⟨rfl, by decide⟩, ⟨rfl, by decide⟩⟩ (by decide),
    header_to_ptime_impossible_date
      (.rfc1036 ['T', 'h', 'u', 'r', 's', 'd', 'a', 'y'] ['2', '9'] 2 ['0', '0'] ['0', '8']
        ['4', '9'] ['3', '7'])
      ⟨by decide, ⟨rfl, by decide⟩, by decide, by decide, ⟨rfl, by decide⟩, ⟨rfl, by decide⟩,
        ⟨rfl, by decide⟩, ⟨rfl, by decide⟩⟩ (by decide),
    header_to_ptime_impossible_date
      (.rfc1123 ['S', 'u', 'n'] ['0', '6'] 11 ['0', '0', '0', '0'] ['0', '8'] ['4', '9']
        ['3', '7'])
      ⟨by decide, ⟨rfl, by decide⟩, by decide, by decide, ⟨rfl, by decide⟩, ⟨rfl, by decide⟩,
        ⟨rfl, by decide⟩, ⟨rfl, by decide⟩⟩ (by decide)⟩

theorem outcome_withWeekday (t : DateText) (w : List Char) :
    (t.withWeekday w).outcome = t.outcome := by
  cases t <;> rfl

/-- C14: the week day name does not influence the parsed value.  Two date texts
of the same format that differ only in the week day name, each a name of the
format, give equal results. -/
theorem header_to_ptime_weekday (t : DateText) (w : List Char) (hwf : t.WellFormed)
    (hw : (t.withWeekday w).WellFormed) :
    header_to_ptime (t.withWeekday w).text = header_to_ptime t.text := by
  rw [header_to_ptime_text t hwf, header_to_ptime_text _ hw, outcome_withWeekday]

set_option maxRecDepth 100000 in
/-- C14 at `Mon, 06 Nov 1994 08:49:37 GMT`: 6 November 1994 was a Sunday, yet the
text with `Mon` parses, to the same 1994-11-06 08:49:37 as with `Sun`. -/
theorem header_to_ptime_weekday_witness :
    header_to_ptime "Mon, 06 Nov 1994 08:49:37 GMT".toList
        = header_to_ptime "Sun, 06 Nov 1994 08:49:37 GMT".toList ∧
    header_to_ptime "Sun, 06 Nov 1994 08:49:37 GMT".toList
        = some (timestamp 1994 11 6 8 49 37) :=
  ⟨header_to_ptime_weekday
      (.rfc1123 ['S', 'u', 'n'] ['0', '6'] 11 ['1', '9', '9', '4'] ['0', '8'] ['4', '9']
        ['3', '7']) ['M', 'o', 'n']
      ⟨by decide, ⟨rfl, by decide⟩, by decide, by decide, ⟨rfl, by decide⟩, ⟨rfl, by decide⟩,
        ⟨rfl, by decide⟩, ⟨rfl, by decide⟩⟩
      ⟨by decide, ⟨rfl, by decide⟩, by decide, by decide, ⟨rfl, by decide⟩, ⟨rfl, by decide⟩,
        ⟨rfl, by decide⟩, ⟨rfl, by decide⟩⟩,
    by decide⟩

/-- C15: on the twelve month abbreviations `from_submatch_to_month` returns the
numbers 1 to 12 in order, each once, and it follows the table of first, second
and third characters. -/
theorem from_submatch_to_month_table :
    monthNames.map detail.from_submatch_to_month
      = [some 1, some 2, some 3, some 4, some 5, some 6, some 7, some 8, some 9, some 10,
          some 11, some 12] ∧
    (monthNames.map detail.from_submatch_to_month).Nodup ∧
    (∀ c2 rest, detail.from_submatch_to_month ('A' :: c2 :: rest)
      = some (if c2 = 'p' then 4 else 8)) ∧
    (∀ rest, detail.from_submatch_to_month ('D' :: rest) = some 12) ∧
    (∀ rest, detail.from_submatch_to_month ('F' :: rest) = some 2) ∧
    (∀ c2 c3 rest, detail.from_submatch_to_month ('J' :: c2 :: c3 :: rest)
      = some (if c2 = 'a' then 1 else if c3 = 'n' then 6 else 7)) ∧
    (∀ c2 c3 rest, detail.from_submatch_to_month ('M' :: c2 :: c3 :: rest)
      = some (if c3 = 'r' then 3 else 5)) ∧
    (∀ rest, detail.from_submatch_to_month ('N' :: rest) = some 11) ∧
    (∀ rest, detail.from_submatch_to_month ('O' :: rest) = some 10) ∧
    (∀ rest, detail.from_submatch_to_month ('S' :: rest) = some 9) := by
  refine ⟨by decide, by decide, ?_, ?_, ?_, ?_, ?_, ?_, ?_, ?_⟩
  · intro c2 rest; simp [detail.from_submatch_to_month]
  · intro rest; simp [detail.from_submatch_to_month]
  · intro rest; simp [detail.from_submatch_to_month]
  · intro c2 c3 rest
    by_cases h : c2 = 'a' <;> simp [detail.from_submatch_to_month, h]
  · intro c2 c3 rest; simp [detail.from_submatch_to_month]
  · intro rest; simp [detail.from_submatch_to_month]
  · intro rest; simp [detail.from_submatch_to_month]
  · intro rest; simp [detail.from_submatch_to_month]

theorem keepsSmall_id : KeepsSmall id := fun _ _ _ => rfl

theorem from_decimal_string_states_eq (target : Int → Int) (ht : KeepsSmall target) :
    ∀ (cs : List Char) (k : Nat) (ret : Int), (∀ c ∈ cs, isdigit c = true) →
      k + cs.length ≤ 4 → 0 ≤ ret → ret < 10 ^ k →
      detail.from_decimal_string_states target cs ret (10 ^ k)
          = detail.from_decimal_string_states id cs ret (10 ^ k) ∧
        (∀ st ∈ detail.from_decimal_string_states id cs ret (10 ^ k),
          0 ≤ st.1 ∧ st.1 ≤ 9999 ∧ 1 ≤ st.2 ∧ st.2 ≤ 10000) ∧
        ((detail.from_decimal_string_states target cs ret (10 ^ k)).getLast?).map Prod.fst
          = some (detail.from_decimal_string_loop target cs ret (10 ^ k)) := by
  intro cs
  induction cs with
  | nil =>
    intro k ret _ hk h0 hlt
    have hk4 : k ≤ 4 := by simpa using hk
    have hpow : (10 : Int) ^ k ≤ 10 ^ 4 := pow_le_pow_right₀ (by norm_num) hk4
    have hpk : (1 : Int) ≤ 10 ^ k := one_le_pow₀ (by norm_num)
    refine ⟨rfl, ?_, rfl⟩
    intro st hst
    simp only [detail.from_decimal_string_states, List.mem_singleton] at hst
    subst hst
    simp only
    refine ⟨h0, by omega, hpk, by omega⟩
  | cons c cs ih =>
    intro k ret hd hk h0 hlt
    have hc := (isdigit_iff c).mp (hd c (List.mem_cons_self _ _))
    have hk4 : k + 1 ≤ 4 := by simp at hk; omega
    have hpow : (10 : Int) ^ (k + 1) ≤ 10 ^ 4 := pow_le_pow_right₀ (by norm_num) hk4
    have hpk : (1 : Int) ≤ 10 ^ k := one_le_pow₀ (by norm_num)
    have hval : ((c.toNat : Int) - ('0'.toNat : Int)) = ((c.toNat - 48 : Nat) : Int) := by
      have : '0'.toNat = 48 := rfl
      rw [this]
      omega
    have hv9 : ((c.toNat - 48 : Nat) : Int) ≤ 9 := by omega
    have hv0 : (0 : Int) ≤ ((c.toNat - 48 : Nat) : Int) := by omega
    have hret : ret + ((c.toNat - 48 : Nat) : Int) * 10 ^ k < 10 ^ (k + 1) := by
      rw [pow_succ]
      nlinarith
    have hret0 : 0 ≤ ret + ((c.toNat - 48 : Nat) : Int) * 10 ^ k := by positivity
    have hpk1 : (10 : Int) ^ k < 10 ^ (k + 1) := by
      rw [pow_succ]; omega
    obtain ⟨ih1, ih2, ih3⟩ := ih (k + 1) _ (fun x hx => hd x (List.mem_cons_of_mem _ hx))
      (by simp at hk ⊢; omega) hret0 hret
    have e1 : target (ret + ((c.toNat - 48 : Nat) : Int) * 10 ^ k)
        = ret + ((c.toNat - 48 : Nat) : Int) * 10 ^ k := ht _ hret0 (by linarith)
    have e2 : target ((10 : Int) ^ (k + 1)) = 10 ^ (k + 1) :=
      ht _ (by positivity) (by linarith)
    have e3 : (10 : Int) ^ k * 10 = 10 ^ (k + 1) := (pow_succ _ _).symm
    refine ⟨?_, ?_, ?_⟩
    · simp only [detail.from_decimal_string_states, hval, e1, e3, e2, id, ih1]
    · intro st hst
      simp only [detail.from_decimal_string_states, hval, id, e3, List.mem_cons] at hst
      rcases hst with rfl | hst
      · simp only
        refine ⟨h0, by omega, hpk, by omega⟩
      · exact ih2 st hst
    · simp only [detail.from_decimal_string_states, detail.from_decimal_string_loop, hval, e1,
        e3, e2]
      rw [← ih3]
      cases hs : detail.from_decimal_string_states target cs
          (ret + ((c.toNat - 48 : Nat) : Int) * 10 ^ k) (10 ^ (k + 1)) with
      | nil =>
        cases cs <;> simp [detail.from_decimal_string_states] at hs
      | cons a as => simp [List.getLast?_cons_cons]

/-- C16: on a run of at most four decimal digits `from_decimal_string` returns
the natural number the run denotes, leading zeros allowed, whatever integer
type holds the numbers up to 65535.  With the 16 bit unsigned target no value
wraps: the loop goes through the same values of `ret` and `digit` as over the
unbounded integers, `ret` at most 9999 and `digit` at most 10000. -/
theorem from_decimal_string_no_wrap (run : List Char) (hd : ∀ c ∈ run, isdigit c = true)
    (hlen : run.length ≤ 4) :
    (∀ target, KeepsSmall target →
      detail.from_decimal_string target run = (decimalValue run : Int)) ∧
    detail.from_decimal_string to_unsigned_short run = (decimalValue run : Int) ∧
    decimalValue run ≤ 9999 ∧
    detail.from_decimal_string_states to_unsigned_short run.reverse 0 1
      = detail.from_decimal_string_states id run.reverse 0 1 ∧
    (∀ st ∈ detail.from_decimal_string_states id run.reverse 0 1,
      0 ≤ st.1 ∧ st.1 ≤ 9999 ∧ 1 ≤ st.2 ∧ st.2 ≤ 10000) ∧
    ((detail.from_decimal_string_states to_unsigned_short run.reverse 0 1).getLast?).map Prod.fst
      = some (detail.from_decimal_string to_unsigned_short run) := by
  have hs := from_decimal_string_states_eq to_unsigned_short keepsSmall_unsigned_short
    run.reverse 0 0 (fun c hc => hd c (List.mem_reverse.mp hc)) (by simpa using hlen)
    (le_refl _) (by norm_num)
  simp only [pow_zero] at hs
  have hlt := decimalValue_lt run hd
  have h4 : 10 ^ run.length ≤ 10 ^ 4 := Nat.pow_le_pow_right (by norm_num) hlen
  exact ⟨fun target ht => from_decimal_string_eq target ht run hd hlen,
    from_decimal_string_eq _ keepsSmall_unsigned_short run hd hlen, by omega,
    hs.1, hs.2.1, hs.2.2⟩

/-- C16 at the run `0199`, which denotes 199. -/
theorem from_decimal_string_no_wrap_witness :
    detail.from_decimal_string to_unsigned_short ['0', '1', '9', '9'] = 199 ∧
    detail.from_decimal_string_states to_unsigned_short ['9', '9', '1', '0'] 0 1
      = [(0, 1), (9, 10), (99, 100), (199, 1000), (199, 10000)] := by
  obtain ⟨_, h2, _, _, _, _⟩ := from_decimal_string_no_wrap ['0', '1', '9', '9'] (by decide)
    (by decide)
  exact ⟨h2.trans (by decide), by decide⟩

theorem captures_rfc1123 {v : List Char} {caps : Captures}
    (h : regex_match detail.rfc1123_regex v = some caps) :
    ∃ wkd dd m yyyy hh mm ss, (DateText.rfc1123 wkd dd m yyyy hh mm ss).WellFormed ∧
      caps = Function.update (capturesOf dd (monthName m) yyyy hh mm ss) 0 v := by
  have hm := (regex_match_isSome_iff _ _).mp (by rw [h]; rfl)
  obtain ⟨wkd, dd, m, yyyy, hh, mm, ss, hwf, rfl⟩ := (matches_rfc1123 v).mp hm
  obtain ⟨hw, hdd, hm1, hm2, hyyyy, hhh, hmm, hss⟩ := hwf
  have h2 := rfc1123_regex_match wkd dd (monthName m) yyyy hh mm ss hw (monthName_mem hm1 hm2)
    hdd hyyyy hhh hmm hss
  simp only [DateText.text] at h
  rw [h] at h2
  exact ⟨wkd, dd, m, yyyy, hh, mm, ss, ⟨hw, hdd, hm1, hm2, hyyyy, hhh, hmm, hss⟩,
    Option.some.inj h2⟩

theorem captures_rfc1036 {v : List Char} {caps : Captures}
    (h : regex_match detail.rfc1036_regex v = some caps) :
    ∃ wkd dd m yy hh mm ss, (DateText.rfc1036 wkd dd m yy hh mm ss).WellFormed ∧
      caps = Function.update (capturesOf dd (monthName m) yy hh mm ss) 0 v := by
  have hm := (regex_match_isSome_iff _ _).mp (by rw [h]; rfl)
  obtain ⟨wkd, dd, m, yy, hh, mm, ss, hwf, rfl⟩ := (matches_rfc1036 v).mp hm
  obtain ⟨hw, hdd, hm1, hm2, hyy, hhh, hmm, hss⟩ := hwf
  have h2 := rfc1036_regex_match wkd dd (monthName m) yy hh mm ss hw (monthName_mem hm1 hm2)
    hdd hyy hhh hmm hss
  simp only [DateText.text] at h
  rw [h] at h2
  exact ⟨wkd, dd, m, yy, hh, mm, ss, ⟨hw, hdd, hm1, hm2, hyy, hhh, hmm, hss⟩,
    Option.some.inj h2⟩

theorem captures_asctime {v : List Char} {caps : Captures}
    (h : regex_match detail.asctime_regex v = some caps) :
    ∃ wkd m day hh mm ss yyyy, (DateText.asctime wkd m day hh mm ss yyyy).WellFormed ∧
      caps = Function.update (capturesOf (monthName m) day hh mm ss yyyy) 0 v := by
  have hm := (regex_match_isSome_iff _ _).mp (by rw [h]; rfl)
  obtain ⟨wkd, m, day, hh, mm, ss, yyyy, hwf, rfl⟩ := (matches_asctime v).mp hm
  obtain ⟨hw, hm1, hm2, hday, hhh, hmm, hss, hyyyy⟩ := hwf
  have h2 := asctime_regex_match wkd (monthName m) day hh mm ss yyyy hw (monthName_mem hm1 hm2)
    hday hhh hmm hss hyyyy
  simp only [DateText.text] at h
  rw [h] at h2
  exact ⟨wkd, m, day, hh, mm, ss, yyyy, ⟨hw, hm1, hm2, hday, hhh, hmm, hss, hyyyy⟩,
    Option.some.inj h2⟩

theorem behaves_isSome {f : List Char → ptime → Option (Bool × ptime)} {v : List Char}
    {o : Option ptime} (h : Behaves f v o) (dt : ptime) : (f v dt).isSome = true := by
  rw [h dt]; rfl

/-- Recording the decoder calls does not change what `detail::rfc1123` computes. -/
theorem rfc1123_logged_value (v : List Char) (dt : ptime) :
    (detail.rfc1123_logged v dt).value = detail.rfc1123 v dt := by
  unfold detail.rfc1123_logged detail.rfc1123
  cases h : regex_match detail.rfc1123_regex v with
  | none => rfl
  | some sm =>
    simp only [bind, pure, Logged.bind, Logged.pure, detail.from_decimal_submatch_logged,
      detail.from_submatch_to_month_logged, detail.build, detail.construct]
    split_ifs <;> rfl

/-- Recording the decoder calls does not change what `detail::rfc1036` computes. -/
theorem rfc1036_logged_value (v : List Char) (dt : ptime) :
    (detail.rfc1036_logged v dt).value = detail.rfc1036 v dt := by
  unfold detail.rfc1036_logged detail.rfc1036
  cases h : regex_match detail.rfc1036_regex v with
  | none => rfl
  | some sm =>
    simp only [bind, pure, Logged.bind, Logged.pure, detail.from_decimal_submatch_logged,
      detail.from_submatch_to_month_logged, detail.build, detail.construct]
    split_ifs <;> rfl

/-- Recording the decoder calls does not change what `detail::asctime` computes. -/
theorem asctime_logged_value (v : List Char) (dt : ptime) :
    (detail.asctime_logged v dt).value = detail.asctime v dt := by
  unfold detail.asctime_logged detail.asctime
  cases h : regex_match detail.asctime_regex v with
  | none => rfl
  | some sm =>
    simp only [bind, pure, Logged.bind, Logged.pure, detail.from_decimal_submatch_logged,
      detail.from_submatch_to_month_logged, detail.build, detail.construct]
    split_ifs <;> rfl

/-- Recording the decoder calls does not change what `header_to_ptime` computes. -/
theorem header_to_ptime_logged_value (v : List Char) :
    (header_to_ptime_logged v).value = header_to_ptime v := by
  unfold header_to_ptime_logged header_to_ptime
  simp only [bind, pure, Logged.bind, Logged.pure, rfc1123_logged_value, rfc1036_logged_value,
    asctime_logged_value]
  cases detail.rfc1123 v ptime.not_a_date_time with
  | none => rfl
  | some r1 =>
    obtain ⟨b1, t1⟩ := r1
    cases b1
    · simp only
      cases detail.rfc1036 v t1 with
      | none => rfl
      | some r2 =>
        obtain ⟨b2, t2⟩ := r2
        cases b2
        · simp only
          cases detail.asctime v t2 with
          | none => rfl
          | some r3 => rfl
        · rfl
    · rfl

/-- Without a structural match `detail::rfc1123` calls no decoder. -/
theorem rfc1123_logged_calls_none {v : List Char} (dt : ptime)
    (h : regex_match detail.rfc1123_regex v = none) : (detail.rfc1123_logged v dt).calls = [] := by
  unfold detail.rfc1123_logged; rw [h]; rfl

/-- The decoder calls of `detail::rfc1123` after a structural match. -/
theorem rfc1123_logged_calls {v : List Char} {caps : Captures} (dt : ptime)
    (h : regex_match detail.rfc1123_regex v = some caps) :
    CallsAsSpecified 4 [2] (detail.rfc1123_logged v dt).calls := by
  obtain ⟨wkd, dd, m, yyyy, hh, mm, ss, ⟨hw, hdd, hm1, hm2, hyyyy, hhh, hmm, hss⟩, rfl⟩ :=
    captures_rfc1123 h
  obtain ⟨c1, c2, c3, c4, c5, c6⟩ := captures_apply dd (monthName m) yyyy hh mm ss v
  unfold detail.rfc1123_logged
  rw [h]
  simp only [bind, pure, Logged.bind, Logged.pure, detail.from_decimal_submatch_logged,
    detail.from_submatch_to_month_logged, c1, c2, c3, c4, c5, c6]
  refine ⟨hh, mm, ss, hhh, hmm, hss, ?_⟩
  split_ifs
  · left; rfl
  · right
    exact ⟨yyyy, monthName m, dd, hyyyy, monthName_mem hm1 hm2, ⟨2, by simp, hdd⟩, rfl⟩

/-- Without a structural match `detail::rfc1036` calls no decoder. -/
theorem rfc1036_logged_calls_none {v : List Char} (dt : ptime)
    (h : regex_match detail.rfc1036_regex v = none) : (detail.rfc1036_logged v dt).calls = [] := by
  unfold detail.rfc1036_logged; rw [h]; rfl

/-- The decoder calls of `detail::rfc1036` after a structural match. -/
theorem rfc1036_logged_calls {v : List Char} {caps : Captures} (dt : ptime)
    (h : regex_match detail.rfc1036_regex v = some caps) :
    CallsAsSpecified 2 [2] (detail.rfc1036_logged v dt).calls := by
  obtain ⟨wkd, dd, m, yy, hh, mm, ss, ⟨hw, hdd, hm1, hm2, hyy, hhh, hmm, hss⟩, rfl⟩ :=
    captures_rfc1036 h
  obtain ⟨c1, c2, c3, c4, c5, c6⟩ := captures_apply dd (monthName m) yy hh mm ss v
  unfold detail.rfc1036_logged
  rw [h]
  simp only [bind, pure, Logged.bind, Logged.pure, detail.from_decimal_submatch_logged,
    detail.from_submatch_to_month_logged, c1, c2, c3, c4, c5, c6]
  refine ⟨hh, mm, ss, hhh, hmm, hss, ?_⟩
  split_ifs
  · left; rfl
  · right
    exact ⟨yy, monthName m, dd, hyy, monthName_mem hm1 hm2, ⟨2, by simp, hdd⟩, rfl⟩

/-- Without a structural match `detail::asctime` calls no decoder. -/
theorem asctime_logged_calls_none {v : List Char} (dt : ptime)
    (h : regex_match detail.asctime_regex v = none) : (detail.asctime_logged v dt).calls = [] := by
  unfold detail.asctime_logged; rw [h]; rfl

/-- The decoder calls of `detail::asctime` after a structural match: the day is
passed without its leading space. -/
theorem asctime_logged_calls {v : List Char} {caps : Captures} (dt : ptime)
    (h : regex_match detail.asctime_regex v = some caps) :
    CallsAsSpecified 4 [1, 2] (detail.asctime_logged v dt).calls := by
  obtain ⟨wkd, m, day, hh, mm, ss, yyyy, ⟨hw, hm1, hm2, hday, hhh, hmm, hss, hyyyy⟩, rfl⟩ :=
    captures_asctime h
  obtain ⟨c1, c2, c3, c4, c5, c6⟩ := captures_apply (monthName m) day hh mm ss yyyy v
  unfold detail.asctime_logged
  rw [h]
  simp only [bind, pure, Logged.bind, Logged.pure, detail.from_decimal_submatch_logged,
    detail.from_submatch_to_month_logged, c1, c2, c3, c4, c5, c6]
  refine ⟨hh, mm, ss, hhh, hmm, hss, ?_⟩
  have hs := stripSpace_isDigits hday
  unfold stripSpace at hs
  by_cases hr : detail.from_decimal_submatch to_int32 hh > 23 ∨
      detail.from_decimal_submatch to_int32 mm > 59 ∨ detail.from_decimal_submatch to_int32 ss > 60
  · left; rw [if_pos hr]; rfl
  · right
    rw [if_neg hr]
    refine ⟨yyyy, monthName m, _, hyyyy, monthName_mem hm1 hm2, ?_, rfl⟩
    rcases hs with h1 | h2
    · exact ⟨1, by simp, h1⟩
    · exact ⟨2, by simp, h2⟩

/-- Every call in a list of calls as specified is within the preconditions of the
decoder it goes to. -/
theorem callsAsSpecified_allowed {yearWidth : Nat} {dayWidths : List Nat}
    {calls : List DecoderCall} (hy : yearWidth = 2 ∨ yearWidth = 4)
    (hd : ∀ w ∈ dayWidths, w = 1 ∨ w = 2) (h : CallsAsSpecified yearWidth dayWidths calls) :
    ∀ call ∈ calls, call.Allowed := by
  obtain ⟨hh, mm, ss, hhh, hmm, hss, h⟩ := h
  have e2 : ∀ run, isDigits 2 run → (DecoderCall.decimal run).Allowed :=
    fun run hr => Or.inr (Or.inl hr)
  rcases h with rfl | ⟨year, mon, day, hyear, hmon, ⟨w, hw, hday⟩, rfl⟩
  · intro call hc
    simp only [List.mem_cons, List.mem_singleton, List.not_mem_nil, or_false] at hc
    rcases hc with rfl | rfl | rfl
    · exact e2 _ hhh
    · exact e2 _ hmm
    · exact e2 _ hss
  · intro call hc
    simp only [List.mem_cons, List.mem_singleton, List.not_mem_nil, or_false] at hc
    rcases hc with rfl | rfl | rfl | rfl | rfl | rfl
    · exact e2 _ hhh
    · exact e2 _ hmm
    · exact e2 _ hss
    · rcases hy with hy | hy
      · rw [hy] at hyear; exact e2 _ hyear
      · rw [hy] at hyear; exact Or.inr (Or.inr hyear)
    · exact hmon
    · rcases hd w hw with rfl | rfl
      · exact Or.inl hday
      · exact e2 _ hday

/-- Every decoder call of `detail::rfc1123` is within the preconditions. -/
theorem rfc1123_logged_allowed (v : List Char) (dt : ptime) :
    ∀ call ∈ (detail.rfc1123_logged v dt).calls, call.Allowed := by
  cases h : regex_match detail.rfc1123_regex v with
  | none => rw [rfc1123_logged_calls_none dt h]; simp
  | some caps =>
    exact callsAsSpecified_allowed (Or.inr rfl) (by simp) (rfc1123_logged_calls dt h)

/-- Every decoder call of `detail::rfc1036` is within the preconditions. -/
theorem rfc1036_logged_allowed (v : List Char) (dt : ptime) :
    ∀ call ∈ (detail.rfc1036_logged v dt).calls, call.Allowed := by
  cases h : regex_match detail.rfc1036_regex v with
  | none => rw [rfc1036_logged_calls_none dt h]; simp
  | some caps =>
    exact callsAsSpecified_allowed (Or.inl rfl) (by simp) (rfc1036_logged_calls dt h)

/-- Every decoder call of `detail::asctime` is within the preconditions. -/
theorem asctime_logged_allowed (v : List Char) (dt : ptime) :
    ∀ call ∈ (detail.asctime_logged v dt).calls, call.Allowed := by
  cases h : regex_match detail.asctime_regex v with
  | none => rw [asctime_logged_calls_none dt h]; simp
  | some caps =>
    exact callsAsSpecified_allowed (Or.inr rfl) (by simp) (asctime_logged_calls dt h)

/-- Every decoder call of `header_to_ptime` is within the preconditions. -/
theorem header_to_ptime_logged_allowed (v : List Char) :
    ∀ call ∈ (header_to_ptime_logged v).calls, call.Allowed := by
  have a1 := rfc1123_logged_allowed v
  have a2 := rfc1036_logged_allowed v
  have a3 := asctime_logged_allowed v
  unfold header_to_ptime_logged
  simp only [bind, pure, Logged.bind, Logged.pure]
  intro call hc
  rw [List.mem_append] at hc
  rcases hc with hc | hc
  · exact a1 _ call hc
  · cases h1 : (detail.rfc1123_logged v ptime.not_a_date_time).value with
    | none => rw [h1] at hc; simp at hc
    | some r1 =>
      obtain ⟨b1, t1⟩ := r1
      rw [h1] at hc
      cases b1
      · simp only [List.mem_append] at hc
        rcases hc with hc | hc
        · exact a2 _ call hc
        · cases h2 : (detail.rfc1036_logged v t1).value with
          | none => rw [h2] at hc; simp at hc
          | some r2 =>
            obtain ⟨b2, t2⟩ := r2
            rw [h2] at hc
            cases b2
            · simp only [List.mem_append] at hc
              rcases hc with hc | hc
              · exact a3 _ call hc
              · cases h3 : (detail.asctime_logged v t2).value with
                | none => rw [h3] at hc; simp at hc
                | some r3 => rw [h3] at hc; simp at hc
            · simp at hc
      · simp at hc

set_option maxRecDepth 100000 in
/-- The six decoder calls of `header_to_ptime` on `Sun Nov  6 08:49:37 1994`: the
day is passed as `6`, without the space. -/
theorem header_to_ptime_logged_example :
    (header_to_ptime_logged "Sun Nov  6 08:49:37 1994".toList).calls =
      [.decimal "08".toList, .decimal "49".toList, .decimal "37".toList,
        .decimal "1994".toList, .month "Nov".toList, .decimal "6".toList] := by
  decide

/-- C17: whenever the structural match of a recogniser succeeds, the month
decoder gets one of the twelve abbreviations and every run the decimal decoder
gets is a run of digits of width 2 or 4, of width 1 or 2 for the asctime day
without its leading space.  This holds of the captures of the three patterns,
and of the calls the recognisers make: with every decoder call recorded, a
recogniser computes what it computes without the record, it calls no decoder
unless its pattern matches, and after a match its calls are the hour, the
minute and the second as runs of two digits, followed when the time is in range
by the year as a run of four digits (two for RFC 1036), the month as one of the
twelve abbreviations and the day as a run of two digits (one or two for
asctime).  The month decoder returns a number on each of the twelve
abbreviations, so its `default` branch is not reached: the recognisers and
`header_to_ptime` return on every input. -/
theorem recogniser_preconditions :
    (∀ v caps, regex_match detail.rfc1123_regex v = some caps →
      caps 2 ∈ monthNames ∧ isDigits 2 (caps 1) ∧ isDigits 4 (caps 3) ∧ isDigits 2 (caps 4) ∧
        isDigits 2 (caps 5) ∧ isDigits 2 (caps 6)) ∧
    (∀ v caps, regex_match detail.rfc1036_regex v = some caps →
      caps 2 ∈ monthNames ∧ isDigits 2 (caps 1) ∧ isDigits 2 (caps 3) ∧ isDigits 2 (caps 4) ∧
        isDigits 2 (caps 5) ∧ isDigits 2 (caps 6)) ∧
    (∀ v caps, regex_match detail.asctime_regex v = some caps →
      caps 1 ∈ monthNames ∧
        (isDigits 1 (if (caps 2).head? = some ' ' then (caps 2).tail else caps 2) ∨
          isDigits 2 (if (caps 2).head? = some ' ' then (caps 2).tail else caps 2)) ∧
        isDigits 2 (caps 3) ∧ isDigits 2 (caps 4) ∧ isDigits 2 (caps 5) ∧
        isDigits 4 (caps 6)) ∧
    (∀ mon ∈ monthNames, ∃ n : Int, detail.from_submatch_to_month mon = some n ∧
      1 ≤ n ∧ n ≤ 12) ∧
    (∀ v dt, (detail.rfc1123 v dt).isSome = true ∧ (detail.rfc1036 v dt).isSome = true ∧
      (detail.asctime v dt).isSome = true) ∧
    (∀ v, (header_to_ptime v).isSome = true) ∧
    (∀ v dt, (detail.rfc1123_logged v dt).value = detail.rfc1123 v dt ∧
      (detail.rfc1036_logged v dt).value = detail.rfc1036 v dt ∧
      (detail.asctime_logged v dt).value = detail.asctime v dt) ∧
    (∀ v, (header_to_ptime_logged v).value = header_to_ptime v) ∧
    (∀ v dt, (regex_match detail.rfc1123_regex v = none →
        (detail.rfc1123_logged v dt).calls = []) ∧
      (∀ caps, regex_match detail.rfc1123_regex v = some caps →
        CallsAsSpecified 4 [2] (detail.rfc1123_logged v dt).calls)) ∧
    (∀ v dt, (regex_match detail.rfc1036_regex v = none →
        (detail.rfc1036_logged v dt).calls = []) ∧
      (∀ caps, regex_match detail.rfc1036_regex v = some caps →
        CallsAsSpecified 2 [2] (detail.rfc1036_logged v dt).calls)) ∧
    (∀ v dt, (regex_match detail.asctime_regex v = none →
        (detail.asctime_logged v dt).calls = []) ∧
      (∀ caps, regex_match detail.asctime_regex v = some caps →
        CallsAsSpecified 4 [1, 2] (detail.asctime_logged v dt).calls)) ∧
    (∀ v, ∀ call ∈ (header_to_ptime_logged v).calls, call.Allowed) ∧
    (header_to_ptime_logged "Sun Nov  6 08:49:37 1994".toList).calls =
      [.decimal "08".toList, .decimal "49".toList, .decimal "37".toList,
        .decimal "1994".toList, .month "Nov".toList, .decimal "6".toList] := by
  refine ⟨?_, ?_, ?_, ?_, ?_, ?_,
    fun v dt => ⟨rfc1123_logged_value v dt, rfc1036_logged_value v dt, asctime_logged_value v dt⟩,
    header_to_ptime_logged_value,
    fun v dt => ⟨rfc1123_logged_calls_none dt, fun _ h => rfc1123_logged_calls dt h⟩,
    fun v dt => ⟨rfc1036_logged_calls_none dt, fun _ h => rfc1036_logged_calls dt h⟩,
    fun v dt => ⟨asctime_logged_calls_none dt, fun _ h => asctime_logged_calls dt h⟩,
    header_to_ptime_logged_allowed, header_to_ptime_logged_example⟩
  · intro v caps h
    obtain ⟨wkd, dd, m, yyyy, hh, mm, ss, ⟨hw, hdd, hm1, hm2, hyyyy, hhh, hmm, hss⟩, rfl⟩ :=
      captures_rfc1123 h
    obtain ⟨c1, c2, c3, c4, c5, c6⟩ := captures_apply dd (monthName m) yyyy hh mm ss v
    rw [c1, c2, c3, c4, c5, c6]
    exact ⟨monthName_mem hm1 hm2, hdd, hyyyy, hhh, hmm, hss⟩
  · intro v caps h
    obtain ⟨wkd, dd, m, yy, hh, mm, ss, ⟨hw, hdd, hm1, hm2, hyy, hhh, hmm, hss⟩, rfl⟩ :=
      captures_rfc1036 h
    obtain ⟨c1, c2, c3, c4, c5, c6⟩ := captures_apply dd (monthName m) yy hh mm ss v
    rw [c1, c2, c3, c4, c5, c6]
    exact ⟨monthName_mem hm1 hm2, hdd, hyy, hhh, hmm, hss⟩
  · intro v caps h
    obtain ⟨wkd, m, day, hh, mm, ss, yyyy, ⟨hw, hm1, hm2, hday, hhh, hmm, hss, hyyyy⟩, rfl⟩ :=
      captures_asctime h
    obtain ⟨c1, c2, c3, c4, c5, c6⟩ := captures_apply (monthName m) day hh mm ss yyyy v
    rw [c1, c2, c3, c4, c5, c6]
    exact ⟨monthName_mem hm1 hm2, stripSpace_isDigits hday, hhh, hmm, hss, hyyyy⟩
  · intro mon hmon
    obtain ⟨m, hm1, hm2, rfl⟩ := (mem_monthNames_iff mon).mp hmon
    exact ⟨m, from_submatch_to_month_monthName hm1 hm2, by omega, by omega⟩
  · intro v dt
    obtain ⟨o1, o2, o3, b1, b2, b3, _⟩ := recognisers_behave v
    exact ⟨behaves_isSome b1 dt, behaves_isSome b2 dt, behaves_isSome b3 dt⟩
  · intro v
    obtain ⟨o1, o2, o3, b1, b2, b3, _⟩ := recognisers_behave v
    rw [header_to_ptime_eq_with, header_to_ptime_with_eq b1 b2 b3]
    rfl

theorem behaves_false {f : List Char → ptime → Option (Bool × ptime)} {v : List Char}
    {o : Option ptime} (h : Behaves f v o) {dt r : ptime} (hf : f v dt = some (false, r)) :
    o = none := by
  cases o with
  | none => rfl
  | some t =>
    rw [h dt] at hf
    simp at hf

/-- C18: the three grammars are pairwise disjoint.  When an input matches the
grammar of a recogniser and that recogniser returns false, on the range check
or on the construction of the date, `header_to_ptime` gives the sentinel.
Calling the three recognisers in any other order gives the value
`header_to_ptime` gives, on every input. -/
theorem header_to_ptime_order :
    (∀ v, ¬ (detail.rfc1123_regex.Matches v ∧ detail.rfc1036_regex.Matches v) ∧
      ¬ (detail.rfc1123_regex.Matches v ∧ detail.asctime_regex.Matches v) ∧
      ¬ (detail.rfc1036_regex.Matches v ∧ detail.asctime_regex.Matches v)) ∧
    (∀ v dt r,
      (detail.rfc1123_regex.Matches v → detail.rfc1123 v dt = some (false, r) →
        header_to_ptime v = some ptime.not_a_date_time) ∧
      (detail.rfc1036_regex.Matches v → detail.rfc1036 v dt = some (false, r) →
        header_to_ptime v = some ptime.not_a_date_time) ∧
      (detail.asctime_regex.Matches v → detail.asctime v dt = some (false, r) →
        header_to_ptime v = some ptime.not_a_date_time)) ∧
    (∀ v,
      header_to_ptime v = header_to_ptime_with detail.rfc1123 detail.rfc1036 detail.asctime v ∧
      header_to_ptime v = header_to_ptime_with detail.rfc1123 detail.asctime detail.rfc1036 v ∧
      header_to_ptime v = header_to_ptime_with detail.rfc1036 detail.rfc1123 detail.asctime v ∧
      header_to_ptime v = header_to_ptime_with detail.rfc1036 detail.asctime detail.rfc1123 v ∧
      header_to_ptime v = header_to_ptime_with detail.asctime detail.rfc1123 detail.rfc1036 v ∧
      header_to_ptime v
        = header_to_ptime_with detail.asctime detail.rfc1036 detail.rfc1123 v) := by
  refine ⟨grammars_disjoint, ?_, ?_⟩
  · intro v dt r
    obtain ⟨o1, o2, o3, b1, b2, b3, c1, c2, c3⟩ := recognisers_behave v
    obtain ⟨d12, d13, d23⟩ := grammars_disjoint v
    have hres := header_to_ptime_with_eq b1 b2 b3
    rw [← header_to_ptime_eq_with] at hres
    refine ⟨fun hm hf => ?_, fun hm hf => ?_, fun hm hf => ?_⟩
    · have e1 := behaves_false b1 hf
      have e2 : o2 = none := by
        rcases c2 with ⟨_, e⟩ | ⟨hm2, _⟩
        · exact e
        · exact absurd ⟨hm, hm2⟩ d12
      have e3 : o3 = none := by
        rcases c3 with ⟨_, e⟩ | ⟨hm3, _⟩
        · exact e
        · exact absurd ⟨hm, hm3⟩ d13
      rw [hres, e1, e2, e3]
      rfl
    · have e2 := behaves_false b2 hf
      have e1 : o1 = none := by
        rcases c1 with ⟨_, e⟩ | ⟨hm1, _⟩
        · exact e
        · exact absurd ⟨hm1, hm⟩ d12
      have e3 : o3 = none := by
        rcases c3 with ⟨_, e⟩ | ⟨hm3, _⟩
        · exact e
        · exact absurd ⟨hm, hm3⟩ d23
      rw [hres, e1, e2, e3]
      rfl
    · have e3 := behaves_false b3 hf
      have e1 : o1 = none := by
        rcases c1 with ⟨_, e⟩ | ⟨hm1, _⟩
        · exact e
        · exact absurd ⟨hm1, hm⟩ d13
      have e2 : o2 = none := by
        rcases c2 with ⟨_, e⟩ | ⟨hm2, _⟩
        · exact e
        · exact absurd ⟨hm2, hm⟩ d23
      rw [hres, e1, e2, e3]
      rfl
  · intro v
    obtain ⟨o1, o2, o3, b1, b2, b3, c1, c2, c3⟩ := recognisers_behave v
    obtain ⟨d12, d13, d23⟩ := grammars_disjoint v
    have m1 : o1 ≠ none → detail.rfc1123_regex.Matches v := by
      intro hne
      rcases c1 with ⟨_, e⟩ | ⟨hm, _⟩
      · exact absurd e hne
      · exact hm
    have m2 : o2 ≠ none → detail.rfc1036_regex.Matches v := by
      intro hne
      rcases c2 with ⟨_, e⟩ | ⟨hm, _⟩
      · exact absurd e hne
      · exact hm
    have m3 : o3 ≠ none → detail.asctime_regex.Matches v := by
      intro hne
      rcases c3 with ⟨_, e⟩ | ⟨hm, _⟩
      · exact absurd e hne
      · exact hm
    rw [header_to_ptime_eq_with, header_to_ptime_with_eq b1 b2 b3,
      header_to_ptime_with_eq b1 b3 b2, header_to_ptime_with_eq b2 b1 b3,
      header_to_ptime_with_eq b2 b3 b1, header_to_ptime_with_eq b3 b1 b2,
      header_to_ptime_with_eq b3 b2 b1]
    cases o1 with
    | none =>
      cases o2 with
      | none => cases o3 <;> simp
      | some t2 =>
        cases o3 with
        | none => simp
        | some t3 => exact absurd ⟨m2 (by simp), m3 (by simp)⟩ d23
    | some t1 =>
      cases o2 with
      | none =>
        cases o3 with
        | none => simp
        | some t3 => exact absurd ⟨m1 (by simp), m3 (by simp)⟩ d13
      | some t2 => exact absurd ⟨m1 (by simp), m2 (by simp)⟩ d12

theorem ends_with_GMT {v : List Char}
    (h : detail.rfc1123_regex.Matches v ∨ detail.rfc1036_regex.Matches v) :
    ∃ front, v = front ++ ['G', 'M', 'T'] := by
  rcases h with h | h
  · obtain ⟨wkd, dd, m, yyyy, hh, mm, ss, _, rfl⟩ := (matches_rfc1123 v).mp h
    exact ⟨wkd ++ [',', ' '] ++ dd ++ [' '] ++ monthName m ++ [' '] ++ yyyy ++ [' '] ++ hh
      ++ [':'] ++ mm ++ [':'] ++ ss ++ [' '], by simp [DateText.text, rfc1123String]⟩
  · obtain ⟨wkd, dd, m, yy, hh, mm, ss, _, rfl⟩ := (matches_rfc1036 v).mp h
    exact ⟨wkd ++ [',', ' '] ++ dd ++ ['-'] ++ monthName m ++ ['-'] ++ yy ++ [' '] ++ hh
      ++ [':'] ++ mm ++ [':'] ++ ss ++ [' '], by simp [DateText.text, rfc1036String]⟩

theorem starts_with_weekday {v : List Char} (h : detail.rfc1036_regex.Matches v) :
    ∃ w rest, w ∈ weekdayNames ∧ v = w ++ ',' :: rest := by
  obtain ⟨wkd, dd, m, yy, hh, mm, ss, hwf, rfl⟩ := (matches_rfc1036 v).mp h
  exact ⟨wkd, ' ' :: (dd ++ ['-'] ++ monthName m ++ ['-'] ++ yy ++ [' '] ++ hh ++ [':'] ++ mm
    ++ [':'] ++ ss ++ [' ', 'G', 'M', 'T']), hwf.1, by simp [DateText.text, rfc1036String]⟩

theorem starts_with_name {v : List Char}
    (h : detail.rfc1123_regex.Matches v ∨ detail.rfc1036_regex.Matches v) :
    ∃ w rest, (w ∈ wkdayNames ∨ w ∈ weekdayNames) ∧ v = w ++ ',' :: rest := by
  rcases h with h | h
  · obtain ⟨wkd, dd, m, yyyy, hh, mm, ss, hwf, rfl⟩ := (matches_rfc1123 v).mp h
    exact ⟨wkd, ' ' :: (dd ++ [' '] ++ monthName m ++ [' '] ++ yyyy ++ [' '] ++ hh ++ [':'] ++ mm
      ++ [':'] ++ ss ++ [' ', 'G', 'M', 'T']), Or.inl hwf.1,
      by simp [DateText.text, rfc1123String]⟩
  · obtain ⟨w, rest, hw, e⟩ := starts_with_weekday h
    exact ⟨w, rest, Or.inr hw, e⟩

/-- No full week day name followed by a comma starts a text made of one
character, a week day name of either kind and a comma. -/
theorem name_cons_ne (w w1 : List Char) (hw : w ∈ wkdayNames ∨ w ∈ weekdayNames)
    (hw1 : w1 ∈ weekdayNames) (c : Char) (rest rest1 : List Char) :
    c :: (w ++ ',' :: rest) ≠ w1 ++ ',' :: rest1 := by
  simp only [wkdayNames, weekdayNames, List.mem_cons, List.mem_singleton, List.not_mem_nil,
    or_false] at hw hw1
  rcases hw1 with rfl | rfl | rfl | rfl | rfl | rfl | rfl <;>
    rcases hw with (rfl | rfl | rfl | rfl | rfl | rfl | rfl) |
      (rfl | rfl | rfl | rfl | rfl | rfl | rfl) <;>
    simp

theorem not_rfc1036_cons {v : List Char}
    (h : detail.rfc1123_regex.Matches v ∨ detail.rfc1036_regex.Matches v) (c : Char) :
    ¬ detail.rfc1036_regex.Matches (c :: v) := by
  intro h2
  obtain ⟨w, rest, hw, rfl⟩ := starts_with_name h
  obtain ⟨w1, rest1, hw1, e⟩ := starts_with_weekday h2
  exact name_cons_ne w w1 hw hw1 c rest rest1 e

theorem not_rfc1036_snoc {v : List Char}
    (h : detail.rfc1123_regex.Matches v ∨ detail.rfc1036_regex.Matches v) (c : Char) :
    ¬ detail.rfc1036_regex.Matches (v ++ [c]) := by
  intro h2
  obtain ⟨f, rfl⟩ := ends_with_GMT h
  obtain ⟨f1, e⟩ := ends_with_GMT (Or.inr h2)
  have e2 := congrArg List.reverse e
  simp at e2

/-- A text of one of the three grammars with one character more, in front or
behind, is in none of them. -/
theorem not_matches_extended {v : List Char}
    (h : detail.rfc1123_regex.Matches v ∨ detail.rfc1036_regex.Matches v ∨
      detail.asctime_regex.Matches v) (c : Char) :
    (¬ detail.rfc1123_regex.Matches (c :: v) ∧ ¬ detail.rfc1036_regex.Matches (c :: v) ∧
      ¬ detail.asctime_regex.Matches (c :: v)) ∧
    (¬ detail.rfc1123_regex.Matches (v ++ [c]) ∧ ¬ detail.rfc1036_regex.Matches (v ++ [c]) ∧
      ¬ detail.asctime_regex.Matches (v ++ [c])) := by
  have hl : v.length = 29 ∨ (30 ≤ v.length ∧ v.length ≤ 33) ∨ v.length = 24 := by
    rcases h with h | h | h
    · have := matches_length h
      rw [rfc1123_regex_len.1, rfc1123_regex_len.2] at this
      omega
    · have := matches_length h
      rw [rfc1036_regex_len.1, rfc1036_regex_len.2] at this
      omega
    · have := matches_length h
      rw [asctime_regex_len.1, asctime_regex_len.2] at this
      omega
  have h12 : ¬ detail.asctime_regex.Matches v →
      detail.rfc1123_regex.Matches v ∨ detail.rfc1036_regex.Matches v := by
    intro h3
    rcases h with h | h | h
    · exact Or.inl h
    · exact Or.inr h
    · exact absurd h h3
  refine ⟨⟨?_, ?_, ?_⟩, ?_, ?_, ?_⟩
  · apply not_matches_of_length
    rw [rfc1123_regex_len.1, rfc1123_regex_len.2, List.length_cons]
    omega
  · by_cases h3 : detail.asctime_regex.Matches v
    · apply not_matches_of_length
      have := matches_length h3
      rw [asctime_regex_len.1, asctime_regex_len.2] at this
      rw [rfc1036_regex_len.1, rfc1036_regex_len.2, List.length_cons]
      omega
    · exact not_rfc1036_cons (h12 h3) c
  · apply not_matches_of_length
    rw [asctime_regex_len.1, asctime_regex_len.2, List.length_cons]
    omega
  · apply not_matches_of_length
    rw [rfc1123_regex_len.1, rfc1123_regex_len.2, List.length_append, List.length_singleton]
    omega
  · by_cases h3 : detail.asctime_regex.Matches v
    · apply not_matches_of_length
      have := matches_length h3
      rw [asctime_regex_len.1, asctime_regex_len.2] at this
      rw [rfc1036_regex_len.1, rfc1036_regex_len.2, List.length_append, List.length_singleton]
      omega
    · exact not_rfc1036_snoc (h12 h3) c
  · apply not_matches_of_length
    rw [asctime_regex_len.1, asctime_regex_len.2, List.length_append, List.length_singleton]
    omega

/-- C19: an input that `header_to_ptime` accepts is matched in full, case and
all, by one of the three grammars, so it has exactly 29 characters (RFC 1123),
30 to 33 (RFC 1036) or exactly 24 (asctime); and with one more character, any
character, in front or behind, it gives the sentinel. -/
theorem header_to_ptime_whole_input (v : List Char) (t : ptime) (c : Char)
    (h : header_to_ptime v = some t) (hv : t.is_not_a_date_time = false) :
    ((detail.rfc1123_regex.Matches v ∧ v.length = 29) ∨
      (detail.rfc1036_regex.Matches v ∧ 30 ≤ v.length ∧ v.length ≤ 33) ∨
      (detail.asctime_regex.Matches v ∧ v.length = 24)) ∧
    header_to_ptime (c :: v) = some ptime.not_a_date_time ∧
    header_to_ptime (v ++ [c]) = some ptime.not_a_date_time := by
  have hm : detail.rfc1123_regex.Matches v ∨ detail.rfc1036_regex.Matches v ∨
      detail.asctime_regex.Matches v := by
    by_contra hne
    push_neg at hne
    rw [header_to_ptime_of_no_match hne.1 hne.2.1 hne.2.2] at h
    rw [← Option.some.inj h] at hv
    exact absurd hv (by decide)
  obtain ⟨⟨a1, a2, a3⟩, b1, b2, b3⟩ := not_matches_extended hm c
  refine ⟨?_, header_to_ptime_of_no_match a1 a2 a3, header_to_ptime_of_no_match b1 b2 b3⟩
  rcases hm with h1 | h1 | h1
  · have := matches_length h1
    rw [rfc1123_regex_len.1, rfc1123_regex_len.2] at this
    exact Or.inl ⟨h1, by omega⟩
  · have := matches_length h1
    rw [rfc1036_regex_len.1, rfc1036_regex_len.2] at this
    exact Or.inr (Or.inl ⟨h1, this⟩)
  · have := matches_length h1
    rw [asctime_regex_len.1, asctime_regex_len.2] at this
    exact Or.inr (Or.inr ⟨h1, by omega⟩)

set_option maxRecDepth 100000 in
/-- C19 at `Sun, 06 Nov 1994 08:49:37 GMT` with a line feed added; lower case
`sun` and `gmt` are not accepted either. -/
theorem header_to_ptime_whole_input_witness :
    header_to_ptime "\nSun, 06 Nov 1994 08:49:37 GMT".toList = some ptime.not_a_date_time ∧
    header_to_ptime "Sun, 06 Nov 1994 08:49:37 GMT\n".toList = some ptime.not_a_date_time ∧
    header_to_ptime "sun, 06 Nov 1994 08:49:37 GMT".toList = some ptime.not_a_date_time ∧
    header_to_ptime "Sun, 06 Nov 1994 08:49:37 gmt".toList = some ptime.not_a_date_time := by
  obtain ⟨_, h2, h3⟩ := header_to_ptime_whole_input "Sun, 06 Nov 1994 08:49:37 GMT".toList
    (timestamp 1994 11 6 8 49 37) '\n' (by decide) (by decide)
  exact ⟨h2, h3, by decide, by decide⟩

theorem splitOn_append_comma (a b : List Char) :
    (a ++ ',' :: b).splitOn ',' = a.splitOn ',' ++ b.splitOn ',' := by
  induction a with
  | nil => simp [splitOn_comma_cons]
  | cons c cs ih =>
    rw [List.cons_append, splitOn_comma_cons, splitOn_comma_cons, ih]
    by_cases hc : c = ','
    · simp [hc]
    · simp only [hc, if_false]
      have hne := splitOn_comma_ne_nil cs
      match hsp : cs.splitOn ',', hne with
      | x :: xs, _ => simp

/-- C20: `header_value_any_of` distributes over joining two header values with
a comma: the three calls return, and the value for `a`, a comma and `b` is the
disjunction of the values for `a` and for `b`. -/
theorem header_value_any_of_append (a b : List Char) (p : List Char → Bool) :
    ∃ r ra rb, header_value_any_of (a ++ ',' :: b) p = some r ∧
      header_value_any_of a p = some ra ∧ header_value_any_of b p = some rb ∧
      r.result = (ra.result || rb.result) := by
  refine ⟨_, _, _, header_value_any_of_eq _ p, header_value_any_of_eq a p,
    header_value_any_of_eq b p, ?_⟩
  rw [Bool.eq_iff_iff, Bool.or_eq_true, pieceRun_result p _ (splitOn_comma_ne_nil _),
    pieceRun_result p _ (splitOn_comma_ne_nil _), pieceRun_result p _ (splitOn_comma_ne_nil _),
    splitOn_append_comma]
  constructor
  · rintro ⟨pc, hpc, hacc⟩
    rcases List.mem_append.mp hpc with h | h
    · exact Or.inl ⟨pc, h, hacc⟩
    · exact Or.inr ⟨pc, h, hacc⟩
  · rintro (⟨pc, hpc, hacc⟩ | ⟨pc, hpc, hacc⟩)
    · exact ⟨pc, List.mem_append.mpr (Or.inl hpc), hacc⟩
    · exact ⟨pc, List.mem_append.mpr (Or.inr hpc), hacc⟩

end BoostHttp
